import Mathlib

/-!
# comfforts/recorder: a segmented append-only record log

A shallow embedding of the Go package `recorder` (files `config.go`, `filer.go`,
`indexer.go`, `segmenter.go`, `recorder.go`) and theorems about it.

Conventions of the embedding.

* `uint64` and `uint32` values are naturals; every arithmetic operation that can
  wrap in Go carries an explicit `% 2 ^ 64` or `% 2 ^ 32`.  The one exception is the
  byte size of a filer file (`filer.size`, byte positions): a file cannot grow to
  `2 ^ 63` bytes, so these are kept as plain naturals.
* The directory of a log is a `Disk`: the `{base}.filer` files (byte strings) and the
  `{base}.index` files, keyed by the base offset in the file name.  An index file is
  either empty (`none`, as created) or holds the gob snapshot of a mapper (`some m`);
  gob is a library, its encoding is taken to be non-empty and to decode to the map
  that was encoded.
* Go pointers to segments are indices into a heap of `segmenter` values, so that
  `recorder.activeSegment` and the entries of `recorder.segments` alias the same
  object exactly as in the source.  A pointer to a filer is its segment together with
  a position: the segment's current filer, or one of the filers it has replaced, which
  are kept in `segmenter.retired`.
* Operations that mutate return the new state together with their Go result;
  `Except Error` carries the Go `error`.
* The file system calls themselves succeed whenever the file exists and the handle
  allows the operation: a write through a handle obtained from `os.Open` (read only)
  or through a closed handle fails, as does a read through a closed handle, a read
  past the end of a file, and opening or removing a file that does not exist.
* `api.Record` and `proto.Marshal` / `proto.Unmarshal` live outside the five source
  files; the serializer is the parameter `Codec`.
-/

namespace Recorder

/-! ## Bytes and the length header -/

abbrev Bytes := List UInt8

/-- The constant `RECORD_LENGTH_WIDTH` of `filer.go`. -/
def RECORD_LENGTH_WIDTH : Nat := 8

/-- The call `binary.Write(w, binary.BigEndian, uint64(n))`: the eight bytes of `n`,
most significant first. -/
def putUint64 (n : Nat) : Bytes :=
  [UInt8.ofNat (n / 2 ^ 56 % 256), UInt8.ofNat (n / 2 ^ 48 % 256),
   UInt8.ofNat (n / 2 ^ 40 % 256), UInt8.ofNat (n / 2 ^ 32 % 256),
   UInt8.ofNat (n / 2 ^ 24 % 256), UInt8.ofNat (n / 2 ^ 16 % 256),
   UInt8.ofNat (n / 2 ^ 8 % 256), UInt8.ofNat (n % 256)]

/-- The call `binary.BigEndian.Uint64(b)`: the big-endian value of a byte string. -/
def getUint64 (b : Bytes) : Nat :=
  b.foldl (fun acc x => acc * 256 + x.toNat) 0

/-! ## Records and their serializer -/

/-- The message `api.Record`: a payload and the offset stamped by the segment. -/
structure Record where
  Value : Bytes
  Offset : Nat
deriving DecidableEq, Repr

/-- The serializer pair `proto.Marshal` / `proto.Unmarshal` for `api.Record`. -/
structure Codec where
  marshal : Record → Bytes
  unmarshal : Bytes → Option Record

/-- What the proofs ask of the serializer: a record with a 64-bit offset and a value
that fits a Go slice (fewer than `2 ^ 63` bytes) is serialized to fewer than `2 ^ 64`
bytes and is returned from its own bytes. -/
def Codec.Lawful (cd : Codec) : Prop :=
  ∀ r : Record, r.Offset < 2 ^ 64 → r.Value.length < 2 ^ 63 →
    (cd.marshal r).length < 2 ^ 64 ∧ cd.unmarshal (cd.marshal r) = some r

/-- A concrete serializer used to run the model: the offset as eight big-endian
bytes, followed by the value. -/
def plainCodec : Codec where
  marshal r := putUint64 r.Offset ++ r.Value
  unmarshal b :=
    if 8 ≤ b.length then some { Value := b.drop 8, Offset := getUint64 (b.take 8) }
    else none

/-! ## Errors -/

/-- The error kinds of the package. `FileError` stands for every wrapped file system
failure, `Crash` for a Go run-time panic (nil receiver, index out of range). -/
inductive Error where
  | EOF
  | DuplicateOffset
  | RecordPosition
  | OffsetOutOfRange (off : Nat)
  | FileError
  | Serialization
  | Crash
deriving DecidableEq, Repr

/-! ## Configuration (`config.go`) -/

structure Config where
  MaxIndexSize : Nat
  InitialOffset : Nat
deriving DecidableEq, Repr

/-! ## The directory -/

/-- The Go type `Mapper = map[uint32]uint64`, as an association list with unique
keys (the code inserts a key only after finding it absent). -/
abbrev Mapper := List (Nat × Nat)

/-- Lookup in a table keyed by naturals. -/
def tget {α : Type} (k : Nat) : List (Nat × α) → Option α
  | [] => none
  | (k', v) :: t => if k' = k then some v else tget k t

/-- Insert or overwrite in a table keyed by naturals. -/
def tput {α : Type} (k : Nat) (v : α) : List (Nat × α) → List (Nat × α)
  | [] => [(k, v)]
  | (k', v') :: t => if k' = k then (k, v) :: t else (k', v') :: tput k v t

/-- Delete from a table keyed by naturals. -/
def tdel {α : Type} (k : Nat) : List (Nat × α) → List (Nat × α)
  | [] => []
  | (k', v') :: t => if k' = k then tdel k t else (k', v') :: tdel k t

/-- The files of the log directory: `filers` holds `{base}.filer`, `indexes` holds
`{base}.index` (`none`: zero bytes; `some m`: the gob snapshot of `m`). -/
structure Disk where
  filers : List (Nat × Bytes)
  indexes : List (Nat × Option Mapper)
deriving DecidableEq, Repr

/-- An empty directory. -/
def Disk.empty : Disk := { filers := [], indexes := [] }

/-- State of an `*os.File` handle: from `os.Create`, from `os.Open`, or closed. -/
inductive Handle where
  | readWrite
  | readOnly
  | closed
deriving DecidableEq, Repr

/-- The call `File.Write(p)` on the filer file `name`: appends at the end of the file
through a handle from `os.Create`, fails otherwise. -/
def fileWrite (d : Disk) (name : Nat) (h : Handle) (p : Bytes) : Option Disk :=
  match h with
  | .readWrite =>
    match tget name d.filers with
    | some content => some { d with filers := tput name (content ++ p) d.filers }
    | none => some d
  | _ => none

/-- The call `File.ReadAt(b, off)` with `len(b) = n`, reporting an error unless the
whole of `b` was filled. -/
def fileReadAt (d : Disk) (name : Nat) (h : Handle) (n off : Nat) : Option Bytes :=
  match h with
  | .closed => none
  | _ =>
    match tget name d.filers with
    | none => none
    | some content =>
      if off + n ≤ content.length then some ((content.drop off).take n) else none

/-! ## Filer (`filer.go`) -/

/-- The struct `filer`: the file (its name and handle), the `bufio.Writer` (pending
bytes and sticky error) and the cached size. -/
structure filer where
  name : Nat
  file : Handle
  buf : Bytes
  err : Bool
  size : Nat
deriving DecidableEq, Repr

/-- The default buffer size of `bufio.NewWriter`. -/
def bufSize : Nat := 4096

/-- The function `newFiler`, on a handle `h` of the existing file `name`. -/
def newFiler (d : Disk) (name : Nat) (h : Handle) : filer :=
  { name := name, file := h, buf := [], err := false,
    size := ((tget name d.filers).getD []).length }

/-- The method `bufio.Writer.Flush`. The Boolean tells whether it returned nil. -/
def filer.Flush (d : Disk) (f : filer) : Disk × filer × Bool :=
  if f.err then (d, f, false)
  else if f.buf = [] then (d, f, true)
  else
    match fileWrite d f.name f.file f.buf with
    | some d' => (d', { f with buf := [] }, true)
    | none => (d, { f with err := true }, false)

/-- The method `bufio.Writer.Write(p)`, its loop unrolled: the loop body runs at most
twice (fill and flush, then a direct write of what is still too large). -/
def filer.bufWrite (d : Disk) (f : filer) (p : Bytes) : Disk × filer × Bool :=
  if f.err then (d, f, false)
  else if p.length ≤ bufSize - f.buf.length then (d, { f with buf := f.buf ++ p }, true)
  else if f.buf = [] then
    match fileWrite d f.name f.file p with
    | some d' => (d', f, true)
    | none => (d, { f with err := true }, false)
  else
    let avail := bufSize - f.buf.length
    match filer.Flush d { f with buf := f.buf ++ p.take avail } with
    | (d1, f1, false) => (d1, f1, false)
    | (d1, f1, true) =>
      let rest := p.drop avail
      if rest.length ≤ bufSize then (d1, { f1 with buf := rest }, true)
      else
        match fileWrite d1 f1.name f1.file rest with
        | some d2 => (d2, f1, true)
        | none => (d1, { f1 with err := true }, false)

/-- The method `filer.Append`: returns `(n, pos)`. -/
def filer.Append (d : Disk) (f : filer) (record : Bytes) :
    Disk × filer × Except Error (Nat × Nat) :=
  let pos := f.size
  match filer.bufWrite d f (putUint64 (record.length % 2 ^ 64)) with
  | (d1, f1, false) => (d1, f1, .error .FileError)
  | (d1, f1, true) =>
    match filer.bufWrite d1 f1 record with
    | (d2, f2, false) => (d2, f2, .error .FileError)
    | (d2, f2, true) =>
      let w := record.length + RECORD_LENGTH_WIDTH
      (d2, { f2 with size := f2.size + w }, .ok (w, pos))

/-- The method `filer.Read`. A length header that points past the end of the file makes
the second `ReadAt` fail (for an absurdly large header Go would fail earlier, when it
allocates the buffer). -/
def filer.Read (d : Disk) (f : filer) (pos : Nat) : Disk × filer × Except Error Bytes :=
  match filer.Flush d f with
  | (d1, f1, false) => (d1, f1, .error .FileError)
  | (d1, f1, true) =>
    match fileReadAt d1 f1.name f1.file RECORD_LENGTH_WIDTH pos with
    | none => (d1, f1, .error .FileError)
    | some size =>
      match fileReadAt d1 f1.name f1.file (getUint64 size) (pos + RECORD_LENGTH_WIDTH) with
      | none => (d1, f1, .error .FileError)
      | some b => (d1, f1, .ok b)

/-- The method `filer.ReadAt(p, off)` with `len(p) = n`: the bytes read and the error
(`none` for nil; `io.EOF` when fewer than `n` bytes were left). -/
def filer.ReadAt (d : Disk) (f : filer) (n off : Nat) : Disk × filer × Bytes × Option Error :=
  match filer.Flush d f with
  | (d1, f1, false) => (d1, f1, [], some .FileError)
  | (d1, f1, true) =>
    match f1.file with
    | .closed => (d1, f1, [], some .FileError)
    | _ =>
      match tget f1.name d1.filers with
      | none => (d1, f1, [], some .FileError)
      | some content =>
        let b := (content.drop off).take n
        (d1, f1, b, if b.length < n then some .EOF else none)

/-- The method `filer.Close`. -/
def filer.Close (d : Disk) (f : filer) : Disk × filer × Except Error Unit :=
  match filer.Flush d f with
  | (d1, f1, false) => (d1, f1, .error .FileError)
  | (d1, f1, true) =>
    match f1.file with
    | .closed => (d1, f1, .error .FileError)
    | _ => (d1, { f1 with file := .closed }, .ok ())

/-! ## Indexer (`indexer.go`) -/

/-- The struct `indexer`: the index file (by name), `size` and the mapper. -/
structure indexer where
  name : Nat
  size : Nat
  mapper : Mapper
deriving DecidableEq, Repr

/-- The function `newIndexer` on the index file `name`: a non-empty file is decoded
and `size` becomes `uint64(len(mapper) - 1)`; an empty file gives an empty mapper
and `size = 0`. -/
def newIndexer (d : Disk) (name : Nat) (_c : Config) : indexer :=
  match tget name d.indexes with
  | some (some m) => { name := name, size := (m.length + (2 ^ 64 - 1)) % 2 ^ 64, mapper := m }
  | _ => { name := name, size := 0, mapper := [] }

/-- The method `indexer.Write(off uint32, pos uint64)`. -/
def indexer.Write (i : indexer) (off pos : Nat) : indexer × Except Error Unit :=
  if off > (i.size % 2 ^ 32 + 1) % 2 ^ 32 then (i, .error .EOF)
  else
    match tget off i.mapper with
    | some _ => (i, .error .DuplicateOffset)
    | none => ({ i with mapper := i.mapper ++ [(off, pos)], size := (i.size + 1) % 2 ^ 64 }, .ok ())

/-- The method `indexer.Read(inOff int64)`: returns `(outOff, pos)`. -/
def indexer.Read (i : indexer) (inOff : Int) : Except Error (Nat × Nat) :=
  if i.size = 0 then .error .EOF
  else
    let outOff := if inOff = -1 then i.size % 2 ^ 32 else (inOff % 2 ^ 32).toNat
    if outOff > i.size % 2 ^ 32 then .error .EOF
    else
      match tget outOff i.mapper with
      | none => .error .RecordPosition
      | some pos => .ok (outOff, pos)

/-- The method `indexer.Close`: the index file is recreated and the whole mapper is
written to it. -/
def indexer.Close (d : Disk) (i : indexer) : Disk :=
  { d with indexes := tput i.name (some i.mapper) d.indexes }

/-- The method `indexer.Size`. -/
def indexer.Size (i : indexer) : Nat := i.size

/-! ## Segmenter (`segmenter.go`) -/

/-- The struct `segmenter`. The field `retired` is not a field of the Go struct: it
holds the filer objects that `Read` has replaced by a reopened one, oldest first. Go
keeps such an object alive as long as a reader obtained from `Reader()` points to it;
the pair of a segment and a position in `retired` is that pointer. -/
structure segmenter where
  filer : filer
  indexer : indexer
  baseOffset : Nat
  nextOffset : Nat
  config : Config
  closed : Bool
  retired : List Recorder.filer
deriving DecidableEq, Repr

/-- The conversion `int64(u)` of a `uint64`. -/
def toInt64 (u : Nat) : Int :=
  if u % 2 ^ 64 < 2 ^ 63 then ((u % 2 ^ 64 : Nat) : Int) else ((u % 2 ^ 64 : Nat) : Int) - 2 ^ 64

/-- The `uint64` difference `a - b`. -/
def subU64 (a b : Nat) : Nat := (a % 2 ^ 64 + (2 ^ 64 - b % 2 ^ 64)) % 2 ^ 64

/-- The function `newSegmenter(dir, baseOffset, c)`: each of the two files is opened
with `os.Open` when it exists and created otherwise. -/
def newSegmenter (d : Disk) (baseOffset : Nat) (c : Config) : Disk × segmenter :=
  let (d1, h) :=
    match tget baseOffset d.filers with
    | some _ => (d, Handle.readOnly)
    | none => ({ d with filers := tput baseOffset [] d.filers }, Handle.readWrite)
  let f := newFiler d1 baseOffset h
  let d2 :=
    match tget baseOffset d1.indexes with
    | some _ => d1
    | none => { d1 with indexes := tput baseOffset none d1.indexes }
  let idx := newIndexer d2 baseOffset c
  let next :=
    match idx.Read (-1) with
    | .error _ => baseOffset
    | .ok (off, _) => (baseOffset + off + 1) % 2 ^ 64
  (d2, { filer := f, indexer := idx, baseOffset := baseOffset, nextOffset := next,
         config := c, closed := false, retired := [] })

/-- The method `segmenter.IsMaxed`. -/
def segmenter.IsMaxed (s : segmenter) : Bool :=
  decide (s.indexer.Size ≥ s.config.MaxIndexSize)

/-- The method `segmenter.Append`. -/
def segmenter.Append (cd : Codec) (d : Disk) (s : segmenter) (record : Record) :
    Disk × segmenter × Except Error Nat :=
  if s.IsMaxed then (d, s, .error .EOF)
  else
    let cur := s.nextOffset
    let p := cd.marshal { record with Offset := cur }
    match s.filer.Append d p with
    | (d1, f1, .error e) => (d1, { s with filer := f1 }, .error e)
    | (d1, f1, .ok (_, pos)) =>
      match s.indexer.Write (subU64 s.nextOffset s.baseOffset % 2 ^ 32) pos with
      | (i1, .error e) => (d1, { s with filer := f1, indexer := i1 }, .error e)
      | (i1, .ok _) =>
        (d1, { s with filer := f1, indexer := i1, nextOffset := (s.nextOffset + 1) % 2 ^ 64 },
          .ok cur)

/-- The method `segmenter.Read`: a closed segment reopens its filer file first and
replaces its filer by a new one on the reopened file (the replaced filer is retired). -/
def segmenter.Read (cd : Codec) (d : Disk) (s : segmenter) (off : Nat) :
    Disk × segmenter × Except Error Record :=
  match s.indexer.Read (toInt64 (subU64 off s.baseOffset)) with
  | .error e => (d, s, .error e)
  | .ok (_, pos) =>
    let reopened : Option segmenter :=
      if s.closed then
        match tget s.filer.name d.filers with
        | none => none
        | some _ =>
          some { s with filer := newFiler d s.filer.name .readOnly,
                        retired := s.retired ++ [s.filer] }
      else some s
    match reopened with
    | none => (d, s, .error .FileError)
    | some s1 =>
      match s1.filer.Read d pos with
      | (d1, f1, .error e) => (d1, { s1 with filer := f1 }, .error e)
      | (d1, f1, .ok p) =>
        match cd.unmarshal p with
        | none => (d1, { s1 with filer := f1 }, .error .Serialization)
        | some record => (d1, { s1 with filer := f1 }, .ok record)

/-- The method `segmenter.Close`. -/
def segmenter.Close (d : Disk) (s : segmenter) : Disk × segmenter × Except Error Unit :=
  let d1 := s.indexer.Close d
  match s.filer.Close d1 with
  | (d2, f2, .error e) => (d2, { s with filer := f2 }, .error e)
  | (d2, f2, .ok _) => (d2, { s with filer := f2, closed := true }, .ok ())

/-- The method `segmenter.Closed`. -/
def segmenter.Closed (s : segmenter) : Bool := s.closed

/-- The method `segmenter.Remove`. -/
def segmenter.Remove (d : Disk) (s : segmenter) : Disk × segmenter × Except Error Unit :=
  let (d1, s1, r) :=
    if s.Closed then (d, s, (Except.ok () : Except Error Unit)) else s.Close d
  match r with
  | .error e => (d1, s1, .error e)
  | .ok _ =>
    match tget s1.indexer.name d1.indexes with
    | none => (d1, s1, .error .FileError)
    | some _ =>
      let d2 := { d1 with indexes := tdel s1.indexer.name d1.indexes }
      match tget s1.filer.name d2.filers with
      | none => (d2, s1, .error .FileError)
      | some _ => ({ d2 with filers := tdel s1.filer.name d2.filers }, s1, .ok ())

/-- The method `segmenter.BaseOffset`. -/
def segmenter.BaseOffset (s : segmenter) : Nat := s.baseOffset

/-- The method `segmenter.NextOffset`. -/
def segmenter.NextOffset (s : segmenter) : Nat := s.nextOffset

/-- The method `segmenter.Filer`. -/
def segmenter.Filer (s : segmenter) : Recorder.filer := s.filer

/-! ## Recorder (`recorder.go`) -/

/-- The struct `recorder`; segment pointers are indices into the heap of `State`. -/
structure recorder where
  Dir : String
  Config : Config
  activeSegment : Option Nat
  segments : List Nat
deriving DecidableEq, Repr

/-- A recorder together with the memory it points into and its directory. -/
structure State where
  disk : Disk
  heap : List segmenter
  r : recorder
deriving DecidableEq, Repr

/-- The method `recorder.newSegmenter(off)`: the new segment is appended to the list,
the previous active segment is closed unless its base offset is the configured
initial offset (the result of that `Close` is discarded), and the new segment becomes
active. -/
def recorder.newSegmenter (st : State) (off : Nat) : State :=
  let (d1, s) := Recorder.newSegmenter st.disk off st.r.Config
  let id := st.heap.length
  let heap1 := st.heap ++ [s]
  let r1 : recorder := { st.r with segments := st.r.segments ++ [id], activeSegment := some id }
  match st.r.activeSegment with
  | none => { disk := d1, heap := heap1, r := r1 }
  | some a =>
    match heap1[a]? with
    | none => { disk := d1, heap := heap1, r := r1 }
    | some sa =>
      if sa.BaseOffset ≠ st.r.Config.InitialOffset then
        let (d2, sa', _) := sa.Close d1
        { disk := d2, heap := heap1.set a sa', r := r1 }
      else { disk := d1, heap := heap1, r := r1 }

/-- The loop of `recorder.setup` over the sorted base offsets, which steps by two
(each segment contributes its filer file and its index file). -/
def recorder.setupLoop (st : State) : List Nat → State
  | [] => st
  | [b] => recorder.newSegmenter st b
  | b :: _ :: rest => recorder.setupLoop (recorder.newSegmenter st b) rest

/-- The method `recorder.setup`, on an existing directory (its `os.ReadDir` succeeds). -/
def recorder.setup (st : State) : State :=
  let baseOffsets :=
    List.insertionSort (fun a b : Nat => a ≤ b)
      (st.disk.filers.map Prod.fst ++ st.disk.indexes.map Prod.fst)
  let st1 := recorder.setupLoop st baseOffsets
  match st1.r.segments with
  | [] => recorder.newSegmenter st1 st1.r.Config.InitialOffset
  | _ :: _ => st1

/-- The function `NewRecorder(dir, c)` on the directory content `d`. -/
def NewRecorder (d : Disk) (dir : String) (c : Config) : State :=
  let c1 : Config := if c.MaxIndexSize = 0 then { c with MaxIndexSize := 100 } else c
  recorder.setup
    { disk := d, heap := [],
      r := { Dir := dir, Config := c1, activeSegment := none, segments := [] } }

/-- The method `recorder.Append`. -/
def recorder.Append (cd : Codec) (st : State) (record : Record) : State × Except Error Nat :=
  match st.r.activeSegment with
  | none => (st, .error .Crash)
  | some a =>
    match st.heap[a]? with
    | none => (st, .error .Crash)
    | some s =>
      match s.Append cd st.disk record with
      | (d1, s1, .error e) => ({ st with disk := d1, heap := st.heap.set a s1 }, .error e)
      | (d1, s1, .ok off) =>
        let st1 : State := { st with disk := d1, heap := st.heap.set a s1 }
        if s1.IsMaxed then (recorder.newSegmenter st1 ((off + 1) % 2 ^ 64), .ok off)
        else (st1, .ok off)

/-- The scan of `recorder.Read` for the first segment with
`BaseOffset() <= off && off < NextOffset()`. -/
def recorder.findSegment (heap : List segmenter) (off : Nat) : List Nat → Option Nat
  | [] => none
  | id :: rest =>
    match heap[id]? with
    | none => recorder.findSegment heap off rest
    | some s =>
      if s.BaseOffset ≤ off ∧ off < s.NextOffset then some id
      else recorder.findSegment heap off rest

/-- The method `recorder.Read`. -/
def recorder.Read (cd : Codec) (st : State) (off : Nat) : State × Except Error Record :=
  match recorder.findSegment st.heap off st.r.segments with
  | none => (st, .error (.OffsetOutOfRange off))
  | some id =>
    match st.heap[id]? with
    | none => (st, .error .Crash)
    | some s =>
      if s.NextOffset ≤ off then (st, .error (.OffsetOutOfRange off))
      else
        match s.Read cd st.disk off with
        | (d1, s1, res) => ({ st with disk := d1, heap := st.heap.set id s1 }, res)

/-- The loop of `recorder.Close`. -/
def recorder.closeLoop (d : Disk) (heap : List segmenter) :
    List Nat → Disk × List segmenter × Except Error Unit
  | [] => (d, heap, .ok ())
  | id :: rest =>
    match heap[id]? with
    | none => (d, heap, .error .Crash)
    | some s =>
      if s.Closed then recorder.closeLoop d heap rest
      else
        match s.Close d with
        | (d1, s1, .error e) => (d1, heap.set id s1, .error e)
        | (d1, s1, .ok _) => recorder.closeLoop d1 (heap.set id s1) rest

/-- The method `recorder.Close`. -/
def recorder.Close (st : State) : State × Except Error Unit :=
  match recorder.closeLoop st.disk st.heap st.r.segments with
  | (d1, heap1, res) => ({ st with disk := d1, heap := heap1 }, res)

/-- The method `recorder.Remove`: `Close`, then `os.RemoveAll(r.Dir)`, which deletes the
directory with all its files. -/
def recorder.Remove (st : State) : State × Except Error Unit :=
  match recorder.Close st with
  | (st1, .error e) => (st1, .error e)
  | (st1, .ok _) => ({ st1 with disk := Disk.empty }, .ok ())

/-- The method `recorder.Directory`. -/
def recorder.Directory (st : State) : String := st.r.Dir

/-- The method `recorder.Configuration`. -/
def recorder.Configuration (st : State) : Recorder.Config := st.r.Config

/-- The method `recorder.Reset`: `Remove`, then `setup`. A successful `Remove` has
deleted the directory itself (`os.RemoveAll(r.Dir)`), so the `os.ReadDir(r.Dir)` that
opens `setup` fails and `Reset` returns that error before any segment is created. -/
def recorder.Reset (st : State) : State × Except Error Unit :=
  match recorder.Remove st with
  | (st1, .error e) => (st1, .error e)
  | (st1, .ok _) => (st1, .error .FileError)

/-- The method `recorder.LowestOffset`; indexing an empty slice is a run-time panic. -/
def recorder.LowestOffset (st : State) : Except Error Nat :=
  match st.r.segments with
  | [] => .error .Crash
  | id :: _ =>
    match st.heap[id]? with
    | none => .error .Crash
    | some s => .ok s.BaseOffset

/-- The method `recorder.HighestOffset`. -/
def recorder.HighestOffset (st : State) : Except Error Nat :=
  match st.r.segments.getLast? with
  | none => .error .Crash
  | some id =>
    match st.heap[id]? with
    | none => .error .Crash
    | some s => if s.NextOffset = 0 then .ok 0 else .ok (s.NextOffset - 1)

/-- The loop of `recorder.Truncate`, accumulating the surviving segments. -/
def recorder.truncateLoop (lowest : Nat) (d : Disk) (heap : List segmenter) (acc : List Nat) :
    List Nat → Disk × List segmenter × Except Error (List Nat)
  | [] => (d, heap, .ok acc)
  | id :: rest =>
    match heap[id]? with
    | none => (d, heap, .error .Crash)
    | some s =>
      if s.NextOffset ≤ (lowest + 1) % 2 ^ 64 then
        match s.Remove d with
        | (d1, s1, .error e) => (d1, heap.set id s1, .error e)
        | (d1, s1, .ok _) => recorder.truncateLoop lowest d1 (heap.set id s1) acc rest
      else recorder.truncateLoop lowest d heap (acc ++ [id]) rest

/-- The method `recorder.Truncate`. -/
def recorder.Truncate (st : State) (lowest : Nat) : State × Except Error Unit :=
  match recorder.truncateLoop lowest st.disk st.heap [] st.r.segments with
  | (d1, heap1, .error e) => ({ st with disk := d1, heap := heap1 }, .error e)
  | (d1, heap1, .ok segments) =>
    ({ disk := d1, heap := heap1, r := { st.r with segments := segments } }, .ok ())

/-- The struct `originReader`: a pointer to a filer and the offset of the next read.
The pointer is the segment whose filer it was when `Reader()` was called, together with
the number of filers that segment had retired by then: the reader points to the
segment's current filer until `segmenter.Read` replaces it, and to the retired filer
at position `gen` from then on. -/
structure originReader where
  seg : Nat
  gen : Nat
  off : Nat
deriving DecidableEq, Repr

/-- The method `originReader.Read(p)` with `len(p) = n`. -/
def originReader.Read (d : Disk) (heap : List segmenter) (o : originReader) (n : Nat) :
    Disk × List segmenter × originReader × Bytes × Option Error :=
  match heap[o.seg]? with
  | none => (d, heap, o, [], some .Crash)
  | some s =>
    match s.retired[o.gen]? with
    | some f =>
      match f.ReadAt d n o.off with
      | (d1, f1, b, err) =>
        (d1, heap.set o.seg { s with retired := s.retired.set o.gen f1 },
          { o with off := o.off + b.length }, b, err)
    | none =>
      match s.Filer.ReadAt d n o.off with
      | (d1, f1, b, err) =>
        (d1, heap.set o.seg { s with filer := f1 }, { o with off := o.off + b.length }, b, err)

/-- The method `recorder.Reader`: the readers handed to `io.MultiReader`, one
`originReader` at offset 0 per segment of the list, each on the filer its segment holds
at the time of the call. -/
def recorder.Reader (st : State) : List originReader :=
  st.r.segments.map (fun id =>
    { seg := id,
      gen := match st.heap[id]? with
        | some s => s.retired.length
        | none => 0,
      off := 0 })

/-- The method `Read(p)` of `io.MultiReader` with `len(p) = n`: a reader that reports
`io.EOF` is dropped; the call returns as soon as bytes were read or an error other
than `io.EOF` occurred, and reports `io.EOF` itself once no reader is left. -/
def multiRead (d : Disk) (heap : List segmenter) (n : Nat) :
    List originReader → Disk × List segmenter × List originReader × Bytes × Option Error
  | [] => (d, heap, [], [], some .EOF)
  | o :: rest =>
    match o.Read d heap n with
    | (d1, heap1, o1, b, err) =>
      if err = some .EOF then
        if b = [] then multiRead d1 heap1 n rest
        else (d1, heap1, rest, b, if rest = [] then some .EOF else none)
      else (d1, heap1, o1 :: rest, b, err)

/-- The function `io.ReadAll` on a multi-reader: reads of 512 bytes (the sizes of the
buffers that `ReadAll` passes down do not matter) until `io.EOF`, which ends the read
without error, or another error. The fuel bounds the number of reads; `none` when it
runs out. -/
def readAll : Nat → Disk → List segmenter → List originReader → Bytes →
    Disk × List segmenter × Option (Except Error Bytes)
  | 0, d, heap, _, _ => (d, heap, none)
  | fuel + 1, d, heap, readers, acc =>
    match multiRead d heap 512 readers with
    | (d1, heap1, readers1, b, none) => readAll fuel d1 heap1 readers1 (acc ++ b)
    | (d1, heap1, _, b, some .EOF) => (d1, heap1, some (.ok (acc ++ b)))
    | (d1, heap1, _, _, some e) => (d1, heap1, some (.error e))

/-- The call `io.ReadAll(r.Reader())`, with fuel for the reads. -/
def recorder.ReadAll (fuel : Nat) (st : State) : State × Option (Except Error Bytes) :=
  match readAll fuel st.disk st.heap (recorder.Reader st) [] with
  | (d1, heap1, res) => ({ st with disk := d1, heap := heap1 }, res)

/-- A run of `Append` calls, with the result of each call. -/
def appendAll (cd : Codec) : State → List Record → State × List (Except Error Nat)
  | st, [] => (st, [])
  | st, r :: rs =>
    let (st1, res) := recorder.Append cd st r
    let (st2, out) := appendAll cd st1 rs
    (st2, res :: out)

/-- The frames that `filer.Append` writes for a list of payloads: for each payload
its length as eight big-endian bytes, then the payload. -/
def frames : List Bytes → Bytes
  | [] => []
  | p :: ps => putUint64 (p.length % 2 ^ 64) ++ p ++ frames ps

/-- Equality of results is decidable. -/
instance instDecidableEqExcept {ε α : Type} [DecidableEq ε] [DecidableEq α] :
    DecidableEq (Except ε α)
  | .ok a, .ok b =>
    if h : a = b then isTrue (by rw [h]) else isFalse (fun h' => h (Except.ok.inj h'))
  | .error a, .error b =>
    if h : a = b then isTrue (by rw [h]) else isFalse (fun h' => h (Except.error.inj h'))
  | .ok _, .error _ => isFalse (fun h => Except.noConfusion h)
  | .error _, .ok _ => isFalse (fun h => Except.noConfusion h)

/-- Closing a log and constructing a new one on the same directory with
`NewRecorder(r.Directory(), r.Configuration())`. -/
def reopen (st : State) : State :=
  NewRecorder (recorder.Close st).1.disk (recorder.Directory st) (recorder.Configuration st)

/-- The log obtained from an empty directory by `NewRecorder` and one `Append` per
record of `rs`. -/
def freshLog (cd : Codec) (cfg : Config) (rs : List Record) : State :=
  (appendAll cd (NewRecorder Disk.empty "log" cfg) rs).1

/-- The calls `os.Create(name)` and `newFiler` of the filer tests: an empty file and
a filer on its read-write handle. -/
def createFiler (d : Disk) (name : Nat) : Disk × filer :=
  let d1 : Disk := { d with filers := tput name [] d.filers }
  (d1, newFiler d1 name .readWrite)

/-- A run of `filer.Append` calls, with the result of each call. -/
def filerAppendAll : Disk → filer → List Bytes → Disk × filer × List (Except Error (Nat × Nat))
  | d, f, [] => (d, f, [])
  | d, f, p :: ps =>
    match filer.Append d f p with
    | (d1, f1, res) =>
      match filerAppendAll d1 f1 ps with
      | (d2, f2, out) => (d2, f2, res :: out)

/-- The number of bytes the frames of the payloads `ps` take: the sum of
`8 + len(p)`. -/
def framesSize (ps : List Bytes) : Nat := (ps.map (fun p => 8 + p.length)).sum

/-- A parser of the frame format: consecutive frames, each an eight byte big-endian
length followed by that many bytes. `none` when bytes are left over that do not form
a frame. The fuel bounds the number of frames. -/
def parseFrames : Nat → Bytes → Option (List Bytes)
  | _, [] => some []
  | 0, _ :: _ => none
  | fuel + 1, b =>
    if 8 ≤ b.length ∧ getUint64 (b.take 8) ≤ (b.drop 8).length then
      match parseFrames fuel ((b.drop 8).drop (getUint64 (b.take 8))) with
      | some fs => some ((b.drop 8).take (getUint64 (b.take 8)) :: fs)
      | none => none
    else none

/-! ## Runs of a single segment and of a single indexer -/

/-- A run of `segmenter.Append` calls, with the result of each call. -/
def segAppendAll (cd : Codec) :
    Disk → segmenter → List Record → Disk × segmenter × List (Except Error Nat)
  | d, s, [] => (d, s, [])
  | d, s, r :: rs =>
    match s.Append cd d r with
    | (d1, s1, res) =>
      match segAppendAll cd d1 s1 rs with
      | (d2, s2, out) => (d2, s2, res :: out)

/-- Closing a segment and constructing a new one on the same files with
`newSegmenter(dir, baseOffset, c)`. -/
def reopenSegment (d : Disk) (s : segmenter) (c : Config) : Disk × segmenter :=
  newSegmenter (s.Close d).1 s.baseOffset c

/-- The calls `os.Create(name)` and `newIndexer` of the indexer test: an empty index
file and an indexer on it. -/
def createIndexer (d : Disk) (name : Nat) (c : Config) : Disk × indexer :=
  let d1 : Disk := { d with indexes := tput name none d.indexes }
  (d1, newIndexer d1 name c)

/-- A run of `indexer.Write` calls, with the result of each call. -/
def indexer.writeAll : indexer → List (Nat × Nat) → indexer × List (Except Error Unit)
  | i, [] => (i, [])
  | i, (off, pos) :: ws =>
    match i.Write off pos with
    | (i1, res) =>
      match indexer.writeAll i1 ws with
      | (i2, out) => (i2, res :: out)

/-- Closing an indexer and constructing a new one on the same file with
`newIndexer`. -/
def reloadIndexer (d : Disk) (i : indexer) (c : Config) : Disk × indexer :=
  (i.Close d, newIndexer (i.Close d) i.name c)

/-- The segment of `TestSegmenter` after `k` appends of a two byte value: created by
`newSegmenter(dir, 16, c)` with capacity 5 on an empty directory. The result is the
directory, the segment, and the results of the appends. -/
def testSegment (k : Nat) : Disk × segmenter × List (Except Error Nat) :=
  segAppendAll plainCodec
    (newSegmenter Disk.empty 16 { MaxIndexSize := 5, InitialOffset := 0 }).1
    (newSegmenter Disk.empty 16 { MaxIndexSize := 5, InitialOffset := 0 }).2
    (List.replicate k { Value := [104, 105], Offset := 0 })

/-- The indexer of `TestIndexer` after the writes `ws`: created by `newIndexer` on a
new, empty file, with `Config{}`. -/
def testIndexer (ws : List (Nat × Nat)) : indexer :=
  (indexer.writeAll
    (createIndexer Disk.empty 0 { MaxIndexSize := 0, InitialOffset := 0 }).2 ws).1

/-- The directory of `testIndexer`: the one, empty index file. -/
def testIndexerDisk : Disk :=
  (createIndexer Disk.empty 0 { MaxIndexSize := 0, InitialOffset := 0 }).1

/-! ## Runs of a log under `Append` and `Truncate` -/

/-- A call on a log: `Append(record)` or `Truncate(lowest)`. -/
inductive Op where
  | append (record : Record)
  | truncate (lowest : Nat)
deriving DecidableEq, Repr

/-- A run of `Append` and `Truncate` calls; the results of the calls are dropped. -/
def runOps (cd : Codec) : State → List Op → State
  | st, [] => st
  | st, .append r :: ops => runOps cd (recorder.Append cd st r).1 ops
  | st, .truncate l :: ops => runOps cd (recorder.Truncate st l).1 ops

/-- The number of `Append` calls in a run. -/
def countAppends : List Op → Nat
  | [] => 0
  | .append _ :: ops => countAppends ops + 1
  | .truncate _ :: ops => countAppends ops

/-! ## Invariants used by the proofs -/

/-- The byte string `c` holds the frame of payload `p` at byte position `pos`. -/
def HasFrame (c : Bytes) (pos : Nat) (p : Bytes) : Prop :=
  ∃ pre post, c = pre ++ (putUint64 (p.length % 2 ^ 64) ++ p) ++ post ∧ pre.length = pos

/-- A filer on a handle from `os.Create`, without a write error, whose file plus
pending buffer hold the bytes `c`. -/
def OpenFiler (d : Disk) (f : filer) (c : Bytes) : Prop :=
  f.file = .readWrite ∧ f.err = false ∧
    ∃ x, tget f.name d.filers = some x ∧ x ++ f.buf = c

/-- The directory `d'` differs from `d` at most in the filer file `name`. -/
def Elsewhere (d d' : Disk) (name : Nat) : Prop :=
  d'.indexes = d.indexes ∧ ∀ k, k ≠ name → tget k d'.filers = tget k d.filers

/-- The two directories agree on both files of base offset `k`. -/
def DiskAgree (d d' : Disk) (k : Nat) : Prop :=
  tget k d'.filers = tget k d.filers ∧ tget k d'.indexes = tget k d.indexes

/-- The bytes `c` a segment stores: on disk once the segment is closed, on disk plus
write buffer (with the cached size up to date) while it is open. -/
def SegContent (d : Disk) (s : segmenter) (c : Bytes) : Prop :=
  if s.closed then tget s.filer.name d.filers = some c
  else OpenFiler d s.filer c ∧ s.filer.size = c.length

/-- The segment `s` of a log with configuration `cfg` holds exactly the records
`recs[lo], ..., recs[hi - 1]` of the records appended to the log so far. -/
structure SegInv (cd : Codec) (cfg : Config) (recs : List Record) (d : Disk)
    (s : segmenter) (lo hi : Nat) : Prop where
  base : s.baseOffset = cfg.InitialOffset + lo
  next : s.nextOffset = cfg.InitialOffset + hi
  le : lo ≤ hi
  cap : hi - lo ≤ 2 ^ 32 - 1
  config : s.config = cfg
  size : s.indexer.size = hi - lo
  mlen : s.indexer.mapper.length = hi - lo
  absent : ∀ k, hi - lo ≤ k → tget k s.indexer.mapper = none
  fname : s.filer.name = s.baseOffset
  iname : s.indexer.name = s.baseOffset
  ifile : tget s.baseOffset d.indexes ≠ none
  content : ∃ c, SegContent d s c ∧
    ∀ i r, lo ≤ i → i < hi → recs[i]? = some r →
      ∃ pos, tget (i - lo) s.indexer.mapper = some pos ∧
        HasFrame c pos (cd.marshal { r with Offset := cfg.InitialOffset + i })

/-- The state of a log that started empty with configuration `cfg` and to which the
records `recs` were appended successfully: segment `j` holds the records
`j * N, ..., (j + 1) * N - 1` (as far as they exist), the last segment is active and
open, and no file exists for a base offset beyond that of the active segment. -/
structure LogPre (cd : Codec) (cfg : Config) (recs : List Record) (st : State) : Prop where
  cfg_eq : st.r.Config = cfg
  npos : 1 ≤ cfg.MaxIndexSize
  bound : cfg.InitialOffset + recs.length < 2 ^ 64
  segs : st.r.segments = List.range st.heap.length
  active : st.r.activeSegment = some (st.heap.length - 1)
  len_pos : 0 < st.heap.length
  lo : (st.heap.length - 1) * cfg.MaxIndexSize ≤ recs.length
  hi : recs.length ≤ st.heap.length * cfg.MaxIndexSize
  seg : ∀ j s, st.heap[j]? = some s →
    SegInv cd cfg recs st.disk s (j * cfg.MaxIndexSize)
      (min ((j + 1) * cfg.MaxIndexSize) recs.length)
  last_open : ∀ s, st.heap[st.heap.length - 1]? = some s → s.closed = false
  fresh : ∀ k, cfg.InitialOffset + (st.heap.length - 1) * cfg.MaxIndexSize < k →
    tget k st.disk.filers = none ∧ tget k st.disk.indexes = none

/-- The invariant of a log between two calls: `LogPre`, and the active segment is not
full. -/
def LogInv (cd : Codec) (cfg : Config) (recs : List Record) (st : State) : Prop :=
  LogPre cd cfg recs st ∧ recs.length < st.heap.length * cfg.MaxIndexSize

/-- Distinct segments of the list own distinct files. -/
def FilesDisjoint (st : State) : Prop :=
  (st.r.segments.filterMap (fun id => st.heap[id]?)).Pairwise
    (fun x y => x.filer.name ≠ y.filer.name ∧ x.indexer.name ≠ y.indexer.name)

/-- What `Close` and `Remove` leave alone: the offsets and file names of the segment,
and every file of the directory that is not one of its two files. -/
def SegFrame (d : Disk) (s : segmenter) (d' : Disk) (s' : segmenter) : Prop :=
  s'.nextOffset = s.nextOffset ∧ s'.baseOffset = s.baseOffset ∧
  s'.filer.name = s.filer.name ∧ s'.indexer.name = s.indexer.name ∧
  (∀ k, k ≠ s.filer.name → tget k d'.filers = tget k d.filers) ∧
  (∀ k, k ≠ s.indexer.name → tget k d'.indexes = tget k d.indexes)

/-- The test of `recorder.Truncate` on the segment behind pointer `id`: true when the
segment stays in the list. -/
def recorder.survives (lowest : Nat) (heap : List segmenter) (id : Nat) : Bool :=
  match heap[id]? with
  | some s => !decide (s.NextOffset ≤ (lowest + 1) % 2 ^ 64)
  | none => false

instance instDecidableFilesDisjoint (st : State) : Decidable (FilesDisjoint st) := by
  unfold FilesDisjoint
  infer_instance

/-- The segments of `heap'` have the offsets and the index file of those of `heap`. -/
def SameOffsets (heap heap' : List segmenter) : Prop :=
  heap'.length = heap.length ∧
  ∀ (j : Nat) (s : segmenter), heap[j]? = some s →
    ∃ s', heap'[j]? = some s' ∧ s'.baseOffset = s.baseOffset ∧
      s'.nextOffset = s.nextOffset ∧ s'.indexer.name = s.indexer.name

/-- The state of a log that started empty with initial offset `b`, after `k` calls of
`Append` and any number of calls of `Truncate`: the segments ever created form a
contiguous chain of offset ranges, the newest is the active one, the list holds the
newest ones (possibly none), and no index file lies beyond the active segment. -/
structure ChainInv (b k : Nat) (st : State) : Prop where
  len_pos : 0 < st.heap.length
  active : st.r.activeSegment = some (st.heap.length - 1)
  segs : ∃ lo, lo ≤ st.heap.length ∧ st.r.segments = List.range' lo (st.heap.length - lo)
  name : ∀ (j : Nat) (s : segmenter), st.heap[j]? = some s → s.indexer.name = s.baseOffset
  le : ∀ (j : Nat) (s : segmenter), st.heap[j]? = some s →
    s.baseOffset ≤ s.nextOffset ∧ s.nextOffset ≤ b + k
  link : ∀ (j : Nat) (s s' : segmenter), st.heap[j]? = some s → st.heap[j + 1]? = some s' →
    s.baseOffset < s.nextOffset ∧ s'.baseOffset = s.nextOffset
  files : ∀ (s : segmenter) (key : Nat), st.heap[st.heap.length - 1]? = some s →
    s.baseOffset < key → tget key st.disk.indexes = none

/-! ## Tables -/

theorem tget_tput_same {α : Type} (k : Nat) (v : α) (t : List (Nat × α)) :
    tget k (tput k v t) = some v := by
  induction t with
  | nil => simp [tput, tget]
  | cons a t ih =>
    obtain ⟨k', v'⟩ := a
    by_cases h : k' = k <;> simp [tput, tget, h, ih]

theorem tget_tput_other {α : Type} (k k' : Nat) (v : α) (t : List (Nat × α)) (h : k' ≠ k) :
    tget k' (tput k v t) = tget k' t := by
  induction t with
  | nil => simp [tput, tget, h.symm]
  | cons a t ih =>
    obtain ⟨k₀, v₀⟩ := a
    by_cases h0 : k₀ = k
    · subst h0
      simp [tput, tget, h.symm]
    · by_cases h1 : k₀ = k'
      · subst h1
        simp [tput, tget, h0]
      · simp [tput, tget, h0, h1, ih]

theorem tget_tdel_other {α : Type} (k k' : Nat) (t : List (Nat × α)) (h : k' ≠ k) :
    tget k' (tdel k t) = tget k' t := by
  induction t with
  | nil => simp [tdel, tget]
  | cons a t ih =>
    obtain ⟨k₀, v₀⟩ := a
    by_cases h0 : k₀ = k
    · subst h0
      simp [tdel, tget, h.symm, ih]
    · by_cases h1 : k₀ = k'
      · subst h1
        simp [tdel, tget, h0]
      · simp [tdel, tget, h0, h1, ih]

theorem tget_tdel_same {α : Type} (k : Nat) (t : List (Nat × α)) :
    tget k (tdel k t) = none := by
  induction t with
  | nil => simp [tdel, tget]
  | cons a t ih =>
    obtain ⟨k₀, v₀⟩ := a
    by_cases h0 : k₀ = k <;> simp [tdel, tget, h0, ih]

theorem tget_append_none {α : Type} (k k' : Nat) (v : α) (t : List (Nat × α))
    (h : tget k t = none) :
    tget k (t ++ [(k', v)]) = if k' = k then some v else none := by
  induction t with
  | nil => simp [tget]
  | cons a t ih =>
    obtain ⟨k₀, v₀⟩ := a
    by_cases h0 : k₀ = k
    · simp [tget, h0] at h
    · simp only [tget, h0, if_false] at h
      simp [tget, h0, ih h]

theorem tget_append_some {α : Type} (k k' : Nat) (v w : α) (t : List (Nat × α))
    (h : tget k t = some w) : tget k (t ++ [(k', v)]) = some w := by
  induction t with
  | nil => simp [tget] at h
  | cons a t ih =>
    obtain ⟨k₀, v₀⟩ := a
    by_cases h0 : k₀ = k
    · simp only [tget, h0, if_true] at h
      simp [tget, h0, h]
    · simp only [tget, h0, if_false] at h
      simp [tget, h0, ih h]

/-! ## The length header -/

theorem putUint64_length (n : Nat) : (putUint64 n).length = 8 := rfl

theorem toNat_ofNat_byte (m : Nat) : (UInt8.ofNat m).toNat = m % 256 := by
  simp [UInt8.toNat, UInt8.ofNat]

theorem getUint64_putUint64 (n : Nat) : getUint64 (putUint64 n) = n % 2 ^ 64 := by
  unfold getUint64 putUint64
  simp only [List.foldl_cons, List.foldl_nil, toNat_ofNat_byte]
  norm_num
  omega
/-! ## Filer -/

theorem Elsewhere.same (d : Disk) (name : Nat) : Elsewhere d d name :=
  ⟨rfl, fun _ _ => rfl⟩

theorem Elsewhere.chain {d d1 d2 : Disk} {name : Nat} (h1 : Elsewhere d d1 name)
    (h2 : Elsewhere d1 d2 name) : Elsewhere d d2 name :=
  ⟨h2.1.trans h1.1, fun k hk => (h2.2 k hk).trans (h1.2 k hk)⟩

theorem fileWrite_open (d : Disk) (name : Nat) (x p : Bytes)
    (hx : tget name d.filers = some x) :
    ∃ d', fileWrite d name .readWrite p = some d' ∧
      tget name d'.filers = some (x ++ p) ∧ Elsewhere d d' name := by
  refine ⟨{ d with filers := tput name (x ++ p) d.filers }, ?_, ?_, ?_⟩
  · simp [fileWrite, hx]
  · exact tget_tput_same _ _ _
  · exact ⟨rfl, fun k hk => tget_tput_other _ _ _ _ hk⟩

theorem filer.Flush_open {d : Disk} {f : filer} {c : Bytes} (h : OpenFiler d f c) :
    ∃ d' f', filer.Flush d f = (d', f', true) ∧ OpenFiler d' f' c ∧ f'.buf = [] ∧
      tget f.name d'.filers = some c ∧
      f'.name = f.name ∧ f'.size = f.size ∧ Elsewhere d d' f.name := by
  obtain ⟨hrw, herr, x, hx, hc⟩ := h
  by_cases hb : f.buf = []
  · refine ⟨d, f, ?_, ⟨hrw, herr, x, hx, hc⟩, hb, ?_, rfl, rfl, Elsewhere.same _ _⟩
    · simp [filer.Flush, herr, hb]
    · rw [hx, ← hc, hb, List.append_nil]
  · obtain ⟨d', hw, hg, he⟩ := fileWrite_open d f.name x f.buf hx
    refine ⟨d', { f with buf := [] }, ?_, ⟨hrw, herr, x ++ f.buf, hg, ?_⟩, rfl, ?_, rfl, rfl, he⟩
    · simp [filer.Flush, herr, hb, hrw ▸ hw]
    · simp [hc]
    · rw [hg, hc]

theorem filer.bufWrite_open {d : Disk} {f : filer} {c : Bytes} (p : Bytes)
    (h : OpenFiler d f c) :
    ∃ d' f', filer.bufWrite d f p = (d', f', true) ∧ OpenFiler d' f' (c ++ p) ∧
      f'.name = f.name ∧ f'.size = f.size ∧ Elsewhere d d' f.name := by
  obtain ⟨hrw, herr, x, hx, hc⟩ := h
  by_cases h1 : p.length ≤ bufSize - f.buf.length
  · refine ⟨d, { f with buf := f.buf ++ p }, ?_, ⟨hrw, herr, x, hx, ?_⟩, rfl, rfl,
      Elsewhere.same _ _⟩
    · simp [filer.bufWrite, herr, h1]
    · simp [← hc]
  · by_cases hb : f.buf = []
    · obtain ⟨d', hw, hg, he⟩ := fileWrite_open d f.name x p hx
      refine ⟨d', f, ?_, ⟨hrw, herr, x ++ p, hg, ?_⟩, rfl, rfl, he⟩
      · simp only [filer.bufWrite]
        rw [if_neg (by simp [herr]), if_neg h1, if_pos hb, hrw, hw]
      · simp [← hc, hb]
    · have hopen : OpenFiler d { f with buf := f.buf ++ p.take (bufSize - f.buf.length) }
          (c ++ p.take (bufSize - f.buf.length)) :=
        ⟨hrw, herr, x, hx, by simp [← hc]⟩
      obtain ⟨d1, f1, hfl, ho1, hbuf1, hg1, hn1, hs1, he1⟩ := filer.Flush_open hopen
      obtain ⟨hrw1, herr1, x1, hx1, hc1⟩ := ho1
      simp only at hn1 hs1 hg1 he1
      by_cases h2 : (p.drop (bufSize - f.buf.length)).length ≤ bufSize
      · refine ⟨d1, { f1 with buf := p.drop (bufSize - f.buf.length) }, ?_,
          ⟨hrw1, herr1, x1, hx1, ?_⟩, hn1, hs1, he1⟩
        · simp only [filer.bufWrite]
          rw [if_neg (by simp [herr]), if_neg h1, if_neg hb, hfl]
          simp only [if_pos h2]
        · rw [hbuf1, List.append_nil] at hc1
          simp [hc1, List.append_assoc]
      · rw [← hn1] at hg1
        obtain ⟨d2, hw, hg, he⟩ :=
          fileWrite_open d1 f1.name _ (p.drop (bufSize - f.buf.length)) hg1
        rw [hn1] at he
        refine ⟨d2, f1, ?_, ⟨hrw1, herr1, _, hg, ?_⟩, hn1, hs1, he1.chain he⟩
        · simp only [filer.bufWrite]
          rw [if_neg (by simp [herr]), if_neg h1, if_neg hb, hfl]
          simp only [if_neg h2]
          rw [hrw1, hw]
        · simp [hbuf1, List.append_assoc]

theorem filer.Append_open {d : Disk} {f : filer} {c : Bytes} (p : Bytes)
    (h : OpenFiler d f c) :
    ∃ d' f', filer.Append d f p = (d', f', .ok (p.length + 8, f.size)) ∧
      OpenFiler d' f' (c ++ (putUint64 (p.length % 2 ^ 64) ++ p)) ∧
      f'.name = f.name ∧ f'.size = f.size + (p.length + 8) ∧ Elsewhere d d' f.name := by
  obtain ⟨d1, f1, hw1, ho1, hn1, hs1, he1⟩ :=
    filer.bufWrite_open (putUint64 (p.length % 2 ^ 64)) h
  obtain ⟨d2, f2, hw2, ho2, hn2, hs2, he2⟩ := filer.bufWrite_open p ho1
  rw [hn1] at he2
  refine ⟨d2, { f2 with size := f2.size + (p.length + 8) }, ?_, ?_, ?_, ?_, he1.chain he2⟩
  · simp only [filer.Append, hw1, hw2, RECORD_LENGTH_WIDTH, hs2, hs1]
  · obtain ⟨a, b, x, hx, hc⟩ := ho2
    exact ⟨a, b, x, hx, by simpa [List.append_assoc] using hc⟩
  · simp [hn2, hn1]
  · simp [hs2, hs1]

theorem HasFrame.append {c : Bytes} {pos : Nat} {p : Bytes} (h : HasFrame c pos p)
    (x : Bytes) : HasFrame (c ++ x) pos p := by
  obtain ⟨pre, post, hc, hp⟩ := h
  exact ⟨pre, post ++ x, by simp [hc, List.append_assoc], hp⟩

theorem HasFrame.last (c p : Bytes) :
    HasFrame (c ++ (putUint64 (p.length % 2 ^ 64) ++ p)) c.length p :=
  ⟨c, [], by simp, rfl⟩

theorem fileReadAt_frame {d : Disk} {name : Nat} {h : Handle} {c p : Bytes} {pos : Nat}
    (hh : h ≠ .closed) (hc : tget name d.filers = some c) (hf : HasFrame c pos p)
    (hp : p.length < 2 ^ 64) :
    fileReadAt d name h RECORD_LENGTH_WIDTH pos = some (putUint64 (p.length % 2 ^ 64)) ∧
    fileReadAt d name h (getUint64 (putUint64 (p.length % 2 ^ 64))) (pos + RECORD_LENGTH_WIDTH)
      = some p := by
  obtain ⟨pre, post, hce, hpre⟩ := hf
  have hlen : c.length = pos + 8 + p.length + post.length := by
    rw [hce]
    simp [putUint64_length, hpre]
    omega
  have hg : getUint64 (putUint64 (p.length % 2 ^ 64)) = p.length := by
    rw [getUint64_putUint64, Nat.mod_mod, Nat.mod_eq_of_lt hp]
  have hd1 : c.drop pos = putUint64 (p.length % 2 ^ 64) ++ (p ++ post) := by
    rw [hce, ← hpre]
    simp [List.append_assoc]
  have hd2 : c.drop (pos + 8) = p ++ post := by
    rw [← List.drop_drop, hd1]
    exact List.drop_left' (putUint64_length _)
  constructor
  · cases h with
    | closed => exact absurd rfl hh
    | readWrite =>
      simp only [fileReadAt, hc, RECORD_LENGTH_WIDTH]
      rw [if_pos (by omega), hd1]
      exact congrArg some (List.take_left' (putUint64_length _))
    | readOnly =>
      simp only [fileReadAt, hc, RECORD_LENGTH_WIDTH]
      rw [if_pos (by omega), hd1]
      exact congrArg some (List.take_left' (putUint64_length _))
  · rw [hg]
    cases h with
    | closed => exact absurd rfl hh
    | readWrite =>
      simp only [fileReadAt, hc, RECORD_LENGTH_WIDTH]
      rw [if_pos (by omega), hd2]
      exact congrArg some (List.take_left' rfl)
    | readOnly =>
      simp only [fileReadAt, hc, RECORD_LENGTH_WIDTH]
      rw [if_pos (by omega), hd2]
      exact congrArg some (List.take_left' rfl)

theorem filer.Read_flushed {d d1 : Disk} {f f1 : filer} {c p : Bytes} {pos : Nat}
    (hfl : filer.Flush d f = (d1, f1, true)) (hh : f1.file ≠ .closed)
    (hc : tget f1.name d1.filers = some c) (hf : HasFrame c pos p) (hp : p.length < 2 ^ 64) :
    filer.Read d f pos = (d1, f1, .ok p) := by
  obtain ⟨h1, h2⟩ := fileReadAt_frame hh hc hf hp
  simp only [filer.Read, hfl, h1, h2]

theorem filer.Read_open {d : Disk} {f : filer} {c p : Bytes} {pos : Nat}
    (h : OpenFiler d f c) (hf : HasFrame c pos p) (hp : p.length < 2 ^ 64) :
    ∃ d' f', filer.Read d f pos = (d', f', .ok p) ∧ OpenFiler d' f' c ∧
      f'.name = f.name ∧ f'.size = f.size ∧ Elsewhere d d' f.name := by
  obtain ⟨d1, f1, hfl, ho, _, hg, hn, hs, he⟩ := filer.Flush_open h
  refine ⟨d1, f1, filer.Read_flushed hfl ?_ (hn ▸ hg) hf hp, ho, hn, hs, he⟩
  rw [ho.1]
  decide

theorem filer.Read_reopened {d : Disk} {name : Nat} {c p : Bytes} {pos : Nat}
    (hc : tget name d.filers = some c) (hf : HasFrame c pos p) (hp : p.length < 2 ^ 64) :
    filer.Read d (newFiler d name .readOnly) pos = (d, newFiler d name .readOnly, .ok p) := by
  refine filer.Read_flushed ?_ ?_ hc hf hp
  · simp [filer.Flush, newFiler]
  · simp [newFiler]
/-! ## Indexer -/

theorem indexer.Write_ok (i : indexer) (n pos : Nat) (hs : i.size = n) (hn : n < 2 ^ 32 - 1)
    (ha : tget n i.mapper = none) :
    i.Write n pos =
      ({ i with mapper := i.mapper ++ [(n, pos)], size := n + 1 }, .ok ()) := by
  have h1 : ¬ n > (i.size % 2 ^ 32 + 1) % 2 ^ 32 := by
    rw [hs]
    omega
  have h2 : (i.size + 1) % 2 ^ 64 = n + 1 := by
    rw [hs]
    omega
  simp only [indexer.Write, if_neg h1, ha, h2]

theorem indexer.Write_full (i : indexer) (pos : Nat) (hs : i.size = 2 ^ 32 - 1) :
    i.Write (2 ^ 32 - 1) pos = (i, .error .EOF) := by
  have h1 : 2 ^ 32 - 1 > (i.size % 2 ^ 32 + 1) % 2 ^ 32 := by
    rw [hs]
    norm_num
  simp only [indexer.Write, if_pos h1]

theorem subU64_eq (a b : Nat) (hab : b ≤ a) (ha : a < 2 ^ 64) : subU64 a b = a - b := by
  unfold subU64
  omega

theorem toInt64_small (k : Nat) (hk : k < 2 ^ 32) : toInt64 k = (k : Int) := by
  unfold toInt64
  have h1 : k % 2 ^ 64 = k := Nat.mod_eq_of_lt (by omega)
  rw [h1, if_pos (by omega)]

theorem indexer.Read_ok (i : indexer) (k pos : Nat) (hk : k < i.size)
    (hs : i.size ≤ 2 ^ 32 - 1) (hg : tget k i.mapper = some pos) :
    i.Read (k : Int) = .ok (k, pos) := by
  have h0 : ¬ i.size = 0 := by omega
  have h1 : ¬ ((k : Int) = -1) := by omega
  have h2 : ((k : Int) % 2 ^ 32).toNat = k := by omega
  have h3 : ¬ k > i.size % 2 ^ 32 := by omega
  simp only [indexer.Read, if_neg h0, if_neg h1, h2, if_neg h3, hg]

/-! ## Segmenter -/

theorem getElem?_snoc_lt {α : Type} (l : List α) (x : α) (i : Nat) (h : i < l.length) :
    (l ++ [x])[i]? = l[i]? := by
  rw [List.getElem?_append_left h]

theorem getElem?_snoc_eq {α : Type} (l : List α) (x : α) : (l ++ [x])[l.length]? = some x := by
  simp

theorem frame_length (p : Bytes) : (putUint64 (p.length % 2 ^ 64) ++ p).length = p.length + 8 := by
  simp [putUint64_length]
  omega

theorem SegInv.agree {cd : Codec} {cfg : Config} {recs : List Record} {d d' : Disk}
    {s : segmenter} {lo hi : Nat} (h : SegInv cd cfg recs d s lo hi)
    (ha : DiskAgree d d' s.baseOffset) : SegInv cd cfg recs d' s lo hi := by
  refine { h with ifile := ?_, content := ?_ }
  · rw [ha.2]
    exact h.ifile
  · obtain ⟨c, hc, hp⟩ := h.content
    refine ⟨c, ?_, hp⟩
    unfold SegContent at hc ⊢
    by_cases hcl : s.closed = true
    · rw [if_pos hcl] at hc ⊢
      rw [h.fname, ha.1, ← h.fname]
      exact hc
    · rw [if_neg hcl] at hc ⊢
      obtain ⟨⟨h1, h2, x, hx, hxc⟩, hsz⟩ := hc
      refine ⟨⟨h1, h2, x, ?_, hxc⟩, hsz⟩
      rw [h.fname, ha.1, ← h.fname]
      exact hx

theorem SegInv.grow {cd : Codec} {cfg : Config} {recs : List Record} {d : Disk}
    {s : segmenter} {lo hi : Nat} (h : SegInv cd cfg recs d s lo hi)
    (hh : hi ≤ recs.length) (ext : List Record) : SegInv cd cfg (recs ++ ext) d s lo hi := by
  refine { h with content := ?_ }
  obtain ⟨c, hc, hp⟩ := h.content
  refine ⟨c, hc, fun i r' h1 h2 h3 => hp i r' h1 h2 ?_⟩
  rw [← List.getElem?_append_left (show i < recs.length by omega)]
  exact h3

theorem segmenter.Append_inv {cd : Codec} {cfg : Config} {recs : List Record} {d : Disk}
    {s : segmenter} {lo : Nat} (r : Record)
    (h : SegInv cd cfg recs d s lo recs.length) (hopen : s.closed = false)
    (hroom : recs.length - lo < cfg.MaxIndexSize) (hcap : recs.length - lo < 2 ^ 32 - 1)
    (hb : cfg.InitialOffset + recs.length + 1 < 2 ^ 64) :
    ∃ d' s', s.Append cd d r = (d', s', .ok (cfg.InitialOffset + recs.length)) ∧
      SegInv cd cfg (recs ++ [r]) d' s' lo (recs.length + 1) ∧ s'.closed = false ∧
      s'.baseOffset = s.baseOffset ∧ Elsewhere d d' s.baseOffset := by
  obtain ⟨c, hc, hp⟩ := h.content
  unfold SegContent at hc
  rw [if_neg (by simp [hopen])] at hc
  obtain ⟨hof, hsz⟩ := hc
  have hle := h.le
  obtain ⟨d', f', hfa, hof', hn', hs', he⟩ :=
    filer.Append_open (cd.marshal { r with Offset := cfg.InitialOffset + recs.length }) hof
  have hmax : s.IsMaxed = false := by
    simp only [segmenter.IsMaxed, indexer.Size, h.size, h.config]
    exact decide_eq_false (by omega)
  have hrel : subU64 s.nextOffset s.baseOffset % 2 ^ 32 = recs.length - lo := by
    rw [h.next, h.base, subU64_eq _ _ (by omega) (by omega)]
    omega
  have hwr := indexer.Write_ok s.indexer (recs.length - lo) s.filer.size h.size hcap
    (h.absent _ (le_refl _))
  have hnext : (s.nextOffset + 1) % 2 ^ 64 = cfg.InitialOffset + (recs.length + 1) := by
    rw [h.next]
    omega
  refine ⟨d', { s with
      filer := f',
      indexer := { s.indexer with mapper := s.indexer.mapper ++ [(recs.length - lo, s.filer.size)],
                                  size := recs.length - lo + 1 },
      nextOffset := cfg.InitialOffset + (recs.length + 1) }, ?_, ?_, hopen, rfl, h.fname ▸ he⟩
  · simp only [segmenter.Append, hmax, Bool.false_eq_true, if_false, h.next, hfa]
    rw [← h.next, hrel, hwr, hnext, h.next]
  · refine
      { base := h.base, next := rfl, le := by omega, cap := by omega, config := h.config,
        size := by simp only; omega,
        mlen := by simp only [List.length_append, h.mlen, List.length_singleton]; omega,
        absent := ?_, fname := by simp only [hn']; exact h.fname, iname := h.iname,
        ifile := by rw [he.1]; exact h.ifile, content := ?_ }
    · intro k hk
      rw [tget_append_none _ _ _ _ (h.absent k (by omega)), if_neg (by omega)]
    · refine ⟨c ++ (putUint64
          ((cd.marshal { r with Offset := cfg.InitialOffset + recs.length }).length % 2 ^ 64) ++
            cd.marshal { r with Offset := cfg.InitialOffset + recs.length }), ?_, ?_⟩
      · unfold SegContent
        rw [if_neg (by simp [hopen])]
        refine ⟨hof', ?_⟩
        simp only [hs', hsz, List.length_append, frame_length]
        rw [← List.length_append, frame_length]
      · intro i r' h1 h2 h3
        by_cases hi : i < recs.length
        · rw [getElem?_snoc_lt recs r i hi] at h3
          obtain ⟨pos, hg, hf⟩ := hp i r' h1 hi h3
          exact ⟨pos, tget_append_some _ _ _ _ _ hg, hf.append _⟩
        · have hi' : i = recs.length := by omega
          subst hi'
          rw [getElem?_snoc_eq] at h3
          cases h3
          refine ⟨s.filer.size, ?_, ?_⟩
          · rw [tget_append_none _ _ _ _ (h.absent _ (le_refl _)), if_pos rfl]
          · rw [hsz]
            exact HasFrame.last _ _

theorem segmenter.Append_full {cd : Codec} {cfg : Config} {recs : List Record} {d : Disk}
    {s : segmenter} {lo : Nat} (r : Record)
    (h : SegInv cd cfg recs d s lo recs.length) (hopen : s.closed = false)
    (hroom : recs.length - lo < cfg.MaxIndexSize) (hcap : recs.length - lo = 2 ^ 32 - 1)
    (hb : cfg.InitialOffset + recs.length < 2 ^ 64) :
    ∃ d' s', s.Append cd d r = (d', s', .error .EOF) ∧
      SegInv cd cfg recs d' s' lo recs.length ∧ s'.closed = false ∧
      s'.baseOffset = s.baseOffset ∧ Elsewhere d d' s.baseOffset := by
  obtain ⟨c, hc, hp⟩ := h.content
  unfold SegContent at hc
  rw [if_neg (by simp [hopen])] at hc
  obtain ⟨hof, hsz⟩ := hc
  have hle := h.le
  obtain ⟨d', f', hfa, hof', hn', hs', he⟩ :=
    filer.Append_open (cd.marshal { r with Offset := cfg.InitialOffset + recs.length }) hof
  have hmax : s.IsMaxed = false := by
    simp only [segmenter.IsMaxed, indexer.Size, h.size, h.config]
    exact decide_eq_false (by omega)
  have hrel : subU64 s.nextOffset s.baseOffset % 2 ^ 32 = 2 ^ 32 - 1 := by
    rw [h.next, h.base, subU64_eq _ _ (by omega) (by omega)]
    omega
  have hwr := indexer.Write_full s.indexer s.filer.size (by rw [h.size, hcap])
  refine ⟨d', { s with filer := f' }, ?_, ?_, hopen, rfl, h.fname ▸ he⟩
  · simp only [segmenter.Append, hmax, Bool.false_eq_true, if_false, h.next, hfa]
    rw [← h.next, hrel, hwr]
  · refine { h with fname := by simp only [hn']; exact h.fname,
                    ifile := by rw [he.1]; exact h.ifile, content := ?_ }
    refine ⟨c ++ (putUint64
          ((cd.marshal { r with Offset := cfg.InitialOffset + recs.length }).length % 2 ^ 64) ++
            cd.marshal { r with Offset := cfg.InitialOffset + recs.length }), ?_, ?_⟩
    · unfold SegContent
      rw [if_neg (by simp [hopen])]
      refine ⟨hof', ?_⟩
      simp only [hs', hsz, List.length_append, frame_length]
      rw [← List.length_append, frame_length]
    · intro i r' h1 h2 h3
      obtain ⟨pos, hg, hf⟩ := hp i r' h1 h2 h3
      exact ⟨pos, hg, hf.append _⟩

theorem segmenter.Close_inv {cd : Codec} {cfg : Config} {recs : List Record} {d : Disk}
    {s : segmenter} {lo hi : Nat} (h : SegInv cd cfg recs d s lo hi)
    (hopen : s.closed = false) :
    ∃ d' s', s.Close d = (d', s', .ok ()) ∧ SegInv cd cfg recs d' s' lo hi ∧
      s'.closed = true ∧ s'.baseOffset = s.baseOffset ∧
      ∀ k, k ≠ s.baseOffset → DiskAgree d d' k := by
  obtain ⟨c, hc, hp⟩ := h.content
  unfold SegContent at hc
  rw [if_neg (by simp [hopen])] at hc
  obtain ⟨hof, hsz⟩ := hc
  have hof1 : OpenFiler (s.indexer.Close d) s.filer c := hof
  obtain ⟨d2, f2, hfl, ho2, hbuf2, hg2, hn2, hs2, he2⟩ := filer.Flush_open hof1
  have hcl : s.filer.Close (s.indexer.Close d) = (d2, { f2 with file := .closed }, .ok ()) := by
    simp only [filer.Close, hfl]
    rw [ho2.1]
  refine ⟨d2, { s with filer := { f2 with file := .closed }, closed := true }, ?_, ?_, rfl, rfl,
    ?_⟩
  · simp only [segmenter.Close, hcl]
  · refine { h with fname := by simp only [hn2]; exact h.fname, ifile := ?_, content := ?_ }
    · rw [he2.1]
      simp only [indexer.Close, h.iname]
      rw [tget_tput_same]
      simp
    · refine ⟨c, ?_, hp⟩
      unfold SegContent
      rw [if_pos rfl]
      simp only [hn2]
      exact hg2
  · intro k hk
    refine ⟨?_, ?_⟩
    · rw [he2.2 k (by rw [h.fname]; exact hk)]
      rfl
    · rw [he2.1]
      simp only [indexer.Close]
      exact tget_tput_other _ _ _ _ (by rw [h.iname]; exact hk)

theorem newSegmenter_fresh (cd : Codec) (cfg : Config) (recs : List Record) (d : Disk) (k : Nat)
    (hf : tget (cfg.InitialOffset + k) d.filers = none)
    (hi : tget (cfg.InitialOffset + k) d.indexes = none) :
    ∃ d' s, newSegmenter d (cfg.InitialOffset + k) cfg = (d', s) ∧
      SegInv cd cfg recs d' s k k ∧ s.closed = false ∧
      s.baseOffset = cfg.InitialOffset + k ∧
      ∀ k', k' ≠ cfg.InitialOffset + k → DiskAgree d d' k' := by
  refine ⟨{ filers := tput (cfg.InitialOffset + k) [] d.filers,
            indexes := tput (cfg.InitialOffset + k) none d.indexes },
          { filer := { name := cfg.InitialOffset + k, file := .readWrite, buf := [], err := false,
                       size := 0 },
            indexer := { name := cfg.InitialOffset + k, size := 0, mapper := [] },
            baseOffset := cfg.InitialOffset + k, nextOffset := cfg.InitialOffset + k,
            config := cfg, closed := false, retired := [] }, ?_, ?_, ?_, ?_, ?_⟩
  · simp [newSegmenter, hf, hi, newFiler, newIndexer, tget_tput_same, indexer.Read]
  · refine { base := rfl, next := rfl, le := le_refl _, cap := by omega, config := rfl,
             size := by simp, mlen := by simp, absent := fun _ _ => rfl, fname := rfl,
             iname := rfl, ifile := ?_, content := ?_ }
    · simp [tget_tput_same]
    · refine ⟨[], ?_, ?_⟩
      · unfold SegContent
        simp only [Bool.false_eq_true, if_false]
        exact ⟨⟨rfl, rfl, [], tget_tput_same _ _ _, rfl⟩, rfl⟩
      · intro i r h1 h2
        omega
  · rfl
  · rfl
  · intro k' hk'
    exact ⟨tget_tput_other _ _ _ _ hk', tget_tput_other _ _ _ _ hk'⟩

theorem segmenter.Read_inv {cd : Codec} {cfg : Config} {recs : List Record} {d : Disk}
    {s : segmenter} {lo hi : Nat} (h : SegInv cd cfg recs d s lo hi) (hcd : cd.Lawful)
    (i : Nat) (r : Record) (h1 : lo ≤ i) (h2 : i < hi) (h3 : recs[i]? = some r)
    (hv : r.Value.length < 2 ^ 63) (hb : cfg.InitialOffset + hi < 2 ^ 64) :
    (s.Read cd d (cfg.InitialOffset + i)).2.2 =
      .ok { r with Offset := cfg.InitialOffset + i } := by
  obtain ⟨c, hc, hp⟩ := h.content
  obtain ⟨pos, hg, hfr⟩ := hp i r h1 h2 h3
  have hcap := h.cap
  obtain ⟨hlen, hun⟩ := hcd { r with Offset := cfg.InitialOffset + i } (by simp only; omega) hv
  have hidx : s.indexer.Read (toInt64 (subU64 (cfg.InitialOffset + i) s.baseOffset)) =
      .ok (i - lo, pos) := by
    rw [h.base, subU64_eq _ _ (by omega) (by omega),
      show cfg.InitialOffset + i - (cfg.InitialOffset + lo) = i - lo by omega,
      toInt64_small _ (by omega)]
    exact indexer.Read_ok _ _ _ (by rw [h.size]; omega) (by rw [h.size]; omega) hg
  unfold SegContent at hc
  by_cases hcl : s.closed = true
  · rw [if_pos hcl] at hc
    simp only [segmenter.Read, hidx, hcl, if_true, hc, filer.Read_reopened hc hfr hlen, hun]
  · rw [if_neg hcl] at hc
    obtain ⟨d', f', hrd, _⟩ := filer.Read_open hc.1 hfr hlen
    simp only [segmenter.Read, hidx, hcl, Bool.false_eq_true, if_false, hrd, hun]
/-! ## The log invariant -/

theorem Elsewhere.toAgree {d d' : Disk} {name k : Nat} (h : Elsewhere d d' name) (hk : k ≠ name) :
    DiskAgree d d' k :=
  ⟨h.2 k hk, by rw [h.1]⟩

theorem DiskAgree.compose {d d1 d2 : Disk} {k : Nat} (h1 : DiskAgree d d1 k)
    (h2 : DiskAgree d1 d2 k) : DiskAgree d d2 k :=
  ⟨h2.1.trans h1.1, h2.2.trans h1.2⟩

theorem LogPre.update_active {cd : Codec} {cfg : Config} {recs : List Record} {st : State}
    (ext : List Record) (d1 : Disk) (s1 : segmenter) (h : LogPre cd cfg recs st)
    (h1 : SegInv cd cfg (recs ++ ext) d1 s1 ((st.heap.length - 1) * cfg.MaxIndexSize)
      (recs ++ ext).length)
    (hcl : s1.closed = false)
    (he : Elsewhere st.disk d1 (cfg.InitialOffset + (st.heap.length - 1) * cfg.MaxIndexSize))
    (hle : (recs ++ ext).length ≤ st.heap.length * cfg.MaxIndexSize)
    (hb : cfg.InitialOffset + (recs ++ ext).length < 2 ^ 64) :
    LogPre cd cfg (recs ++ ext)
      { st with disk := d1, heap := st.heap.set (st.heap.length - 1) s1 } := by
  have hlen := h.len_pos
  have hnl : recs.length ≤ (recs ++ ext).length := by simp
  have hlo := h.lo
  have hsucc : (st.heap.length - 1 + 1) * cfg.MaxIndexSize
      = (st.heap.length - 1) * cfg.MaxIndexSize + cfg.MaxIndexSize := Nat.succ_mul _ _
  have hlen1 : st.heap.length - 1 + 1 = st.heap.length := by omega
  rw [hlen1] at hsucc
  refine
    { cfg_eq := h.cfg_eq, npos := h.npos, bound := hb,
      segs := by simp only [List.length_set]; exact h.segs,
      active := by simp only [List.length_set]; exact h.active,
      len_pos := by simp only [List.length_set]; exact hlen,
      lo := by simp only [List.length_set]; omega,
      hi := by simp only [List.length_set]; exact hle,
      seg := ?_, last_open := ?_, fresh := ?_ }
  · intro j s hj
    simp only at hj ⊢
    by_cases hja : j = st.heap.length - 1
    · subst hja
      rw [List.getElem?_set_self (by omega)] at hj
      cases hj
      rw [hlen1, Nat.min_eq_right hle]
      exact h1
    · rw [List.getElem?_set_ne (Ne.symm hja)] at hj
      have hjl : j < st.heap.length := by
        by_contra hc
        rw [List.getElem?_eq_none (by omega)] at hj
        cases hj
      have hmul : (j + 1) * cfg.MaxIndexSize ≤ (st.heap.length - 1) * cfg.MaxIndexSize :=
        Nat.mul_le_mul_right _ (by omega)
      have hjs : (j + 1) * cfg.MaxIndexSize = j * cfg.MaxIndexSize + cfg.MaxIndexSize :=
        Nat.succ_mul _ _
      have hold := h.seg j s hj
      have hnp := h.npos
      rw [Nat.min_eq_left (by omega)] at hold ⊢
      refine (hold.grow (by omega) ext).agree (he.toAgree ?_)
      rw [hold.base]
      omega
  · intro s hs
    simp only [List.length_set] at hs
    rw [List.getElem?_set_self (by omega)] at hs
    cases hs
    exact hcl
  · intro k hk
    simp only [List.length_set] at hk ⊢
    obtain ⟨f1, f2⟩ := h.fresh k hk
    rw [he.1, he.2 k (by omega)]
    exact ⟨f1, f2⟩

theorem LogPre.extend {cd : Codec} {cfg : Config} {recs : List Record} {st : State}
    (h : LogPre cd cfg recs st)
    (hfull : recs.length = st.heap.length * cfg.MaxIndexSize)
    (dF : Disk) (hF : List segmenter) (sA snew : segmenter)
    (hlen : hF.length = st.heap.length + 1)
    (hnew : hF[st.heap.length]? = some snew)
    (hA : hF[st.heap.length - 1]? = some sA)
    (hother : ∀ j, j ≠ st.heap.length - 1 → j ≠ st.heap.length → hF[j]? = st.heap[j]?)
    (hsA : SegInv cd cfg recs dF sA ((st.heap.length - 1) * cfg.MaxIndexSize) recs.length)
    (hsnew : SegInv cd cfg recs dF snew recs.length recs.length)
    (hopen : snew.closed = false)
    (hagree : ∀ k, k ≠ cfg.InitialOffset + (st.heap.length - 1) * cfg.MaxIndexSize →
      k ≠ cfg.InitialOffset + recs.length → DiskAgree st.disk dF k) :
    LogInv cd cfg recs
      { disk := dF, heap := hF,
        r := { st.r with segments := st.r.segments ++ [st.heap.length],
                         activeSegment := some st.heap.length } } := by
  have hpos := h.len_pos
  have hnp := h.npos
  have hsucc : (st.heap.length - 1 + 1) * cfg.MaxIndexSize
      = (st.heap.length - 1) * cfg.MaxIndexSize + cfg.MaxIndexSize := Nat.succ_mul _ _
  have hlen1 : st.heap.length - 1 + 1 = st.heap.length := by omega
  rw [hlen1] at hsucc
  have hsucc2 : (st.heap.length + 1) * cfg.MaxIndexSize
      = st.heap.length * cfg.MaxIndexSize + cfg.MaxIndexSize := Nat.succ_mul _ _
  have hF1 : hF.length - 1 = st.heap.length := by omega
  refine ⟨
    { cfg_eq := h.cfg_eq, npos := h.npos, bound := h.bound,
      segs := by simp only [hlen, h.segs, List.range_succ],
      active := by simp only [hF1],
      len_pos := by simp only [hlen]; omega,
      lo := by simp only [hF1]; omega,
      hi := by simp only [hlen]; omega,
      seg := ?_, last_open := ?_, fresh := ?_ }, by simp only [hlen]; omega⟩
  · intro j s hj
    simp only at hj ⊢
    by_cases hjn : j = st.heap.length
    · subst hjn
      rw [hnew] at hj
      cases hj
      rw [Nat.min_eq_right (by omega), ← hfull]
      exact hsnew
    · by_cases hja : j = st.heap.length - 1
      · subst hja
        rw [hA] at hj
        cases hj
        rw [hlen1, Nat.min_eq_right (by omega)]
        exact hsA
      · rw [hother j hja hjn] at hj
        have hjl : j < st.heap.length := by
          by_contra hc
          rw [List.getElem?_eq_none (by omega)] at hj
          cases hj
        have hmul : (j + 1) * cfg.MaxIndexSize ≤ (st.heap.length - 1) * cfg.MaxIndexSize :=
          Nat.mul_le_mul_right _ (by omega)
        have hjs : (j + 1) * cfg.MaxIndexSize = j * cfg.MaxIndexSize + cfg.MaxIndexSize :=
          Nat.succ_mul _ _
        have hold := h.seg j s hj
        refine hold.agree (hagree _ ?_ ?_)
        · rw [hold.base]
          omega
        · rw [hold.base]
          omega
  · intro s hs
    simp only [hF1] at hs
    rw [hnew] at hs
    cases hs
    exact hopen
  · intro k hk
    simp only [hF1] at hk ⊢
    obtain ⟨f1, f2⟩ := h.fresh k (by omega)
    obtain ⟨a1, a2⟩ := hagree k (by omega) (by omega)
    rw [a1, a2]
    exact ⟨f1, f2⟩
theorem LogPre.rollover {cd : Codec} {cfg : Config} {recs : List Record} {st : State}
    (h : LogPre cd cfg recs st)
    (hfull : recs.length = st.heap.length * cfg.MaxIndexSize) :
    LogInv cd cfg recs (recorder.newSegmenter st (cfg.InitialOffset + recs.length)) := by
  have hpos := h.len_pos
  have hnp := h.npos
  have hsucc : (st.heap.length - 1 + 1) * cfg.MaxIndexSize
      = (st.heap.length - 1) * cfg.MaxIndexSize + cfg.MaxIndexSize := Nat.succ_mul _ _
  have hlen1 : st.heap.length - 1 + 1 = st.heap.length := by omega
  rw [hlen1] at hsucc
  obtain ⟨hf1, hf2⟩ := h.fresh (cfg.InitialOffset + recs.length) (by omega)
  obtain ⟨d2, snew, hns, hsn, hopen, hbase, hag⟩ :=
    newSegmenter_fresh cd cfg recs st.disk recs.length hf1 hf2
  obtain ⟨s, hs⟩ : ∃ s, st.heap[st.heap.length - 1]? = some s :=
    ⟨_, List.getElem?_eq_getElem (by omega)⟩
  have hs1 : (st.heap ++ [snew])[st.heap.length - 1]? = some s := by
    rw [List.getElem?_append_left (by omega)]
    exact hs
  have hsinv := h.seg _ s hs
  rw [hlen1, Nat.min_eq_right (by omega)] at hsinv
  have hsd2 : SegInv cd cfg recs d2 s ((st.heap.length - 1) * cfg.MaxIndexSize) recs.length :=
    hsinv.agree (hag _ (by rw [hsinv.base]; omega))
  by_cases hb0 : s.BaseOffset ≠ cfg.InitialOffset
  · obtain ⟨d3, s', hcl, hs', _, hb', hag'⟩ := segmenter.Close_inv hsd2 (h.last_open s hs)
    have hres : recorder.newSegmenter st (cfg.InitialOffset + recs.length) =
        { disk := d3, heap := (st.heap ++ [snew]).set (st.heap.length - 1) s',
          r := { st.r with segments := st.r.segments ++ [st.heap.length],
                           activeSegment := some st.heap.length } } := by
      simp only [recorder.newSegmenter, h.cfg_eq, hns, h.active, hs1, hb0, hcl, ne_eq,
        not_false_eq_true, if_true]
    rw [hres]
    refine h.extend hfull d3 _ s' snew (by simp) ?_ ?_ ?_ hs' ?_ hopen ?_
    · rw [List.getElem?_set_ne (by omega)]
      simp
    · rw [List.getElem?_set_self (by simp; omega)]
    · intro j hj1 hj2
      rw [List.getElem?_set_ne (Ne.symm hj1)]
      by_cases hjl : j < st.heap.length
      · rw [List.getElem?_append_left hjl]
      · rw [List.getElem?_eq_none (by simp; omega), List.getElem?_eq_none (by omega)]
    · exact hsn.agree (hag' _ (by rw [hbase, hsinv.base]; omega))
    · intro k hk1 hk2
      exact (hag k hk2).compose (hag' k (by rw [hsinv.base]; exact hk1))
  · have hres : recorder.newSegmenter st (cfg.InitialOffset + recs.length) =
        { disk := d2, heap := st.heap ++ [snew],
          r := { st.r with segments := st.r.segments ++ [st.heap.length],
                           activeSegment := some st.heap.length } } := by
      simp only [recorder.newSegmenter, h.cfg_eq, hns, h.active, hs1, hb0, if_false]
    rw [hres]
    refine h.extend hfull d2 _ s snew (by simp) ?_ hs1 ?_ hsd2 hsn hopen ?_
    · simp
    · intro j hj1 hj2
      by_cases hjl : j < st.heap.length
      · rw [List.getElem?_append_left hjl]
      · rw [List.getElem?_eq_none (by simp; omega), List.getElem?_eq_none (by omega)]
    · intro k _ hk2
      exact hag k hk2

theorem LogInv.active_seg {cd : Codec} {cfg : Config} {recs : List Record} {st : State}
    (h : LogInv cd cfg recs st) :
    ∃ s, st.heap[st.heap.length - 1]? = some s ∧ s.closed = false ∧
      SegInv cd cfg recs st.disk s ((st.heap.length - 1) * cfg.MaxIndexSize) recs.length := by
  have hpos := h.1.len_pos
  have hlen1 : st.heap.length - 1 + 1 = st.heap.length := by omega
  obtain ⟨s, hs⟩ : ∃ s, st.heap[st.heap.length - 1]? = some s :=
    ⟨_, List.getElem?_eq_getElem (by omega)⟩
  have hsinv := h.1.seg _ s hs
  rw [hlen1, Nat.min_eq_right (le_of_lt h.2)] at hsinv
  exact ⟨s, hs, h.1.last_open s hs, hsinv⟩

theorem LogInv.append_ok {cd : Codec} {cfg : Config} {recs : List Record} {st : State}
    (h : LogInv cd cfg recs st) (r : Record)
    (hb : cfg.InitialOffset + recs.length + 1 < 2 ^ 64)
    (hcap : recs.length - (st.heap.length - 1) * cfg.MaxIndexSize < 2 ^ 32 - 1) :
    (recorder.Append cd st r).2 = .ok (cfg.InitialOffset + recs.length) ∧
      LogInv cd cfg (recs ++ [r]) (recorder.Append cd st r).1 := by
  have hpos := h.1.len_pos
  have hnp := h.1.npos
  have hlo := h.1.lo
  have hstrict := h.2
  have hsucc : (st.heap.length - 1 + 1) * cfg.MaxIndexSize
      = (st.heap.length - 1) * cfg.MaxIndexSize + cfg.MaxIndexSize := Nat.succ_mul _ _
  have hlen1 : st.heap.length - 1 + 1 = st.heap.length := by omega
  rw [hlen1] at hsucc
  obtain ⟨s, hs, hopen, hsinv⟩ := h.active_seg
  obtain ⟨d1, s1, happ, hs1, hcl1, hb1, he⟩ :=
    segmenter.Append_inv r hsinv hopen (by omega) hcap hb
  have hlenr : (recs ++ [r]).length = recs.length + 1 := by simp
  rw [← hlenr] at hs1
  rw [hsinv.base] at he
  have pre := h.1.update_active [r] d1 s1 hs1 hcl1 he (by rw [hlenr]; omega)
    (by rw [hlenr]; omega)
  have hmaxed : s1.IsMaxed = decide (recs.length + 1 - (st.heap.length - 1) * cfg.MaxIndexSize
      ≥ cfg.MaxIndexSize) := by
    simp only [segmenter.IsMaxed, indexer.Size, hs1.size, hs1.config, hlenr]
  by_cases hm : recs.length + 1 - (st.heap.length - 1) * cfg.MaxIndexSize ≥ cfg.MaxIndexSize
  · have hres : recorder.Append cd st r =
        (recorder.newSegmenter { st with disk := d1, heap := st.heap.set (st.heap.length - 1) s1 }
          (cfg.InitialOffset + (recs ++ [r]).length), .ok (cfg.InitialOffset + recs.length)) := by
      have hoff : (cfg.InitialOffset + recs.length + 1) % 2 ^ 64
          = cfg.InitialOffset + (recs ++ [r]).length := by
        rw [hlenr]
        omega
      simp only [recorder.Append, h.1.active, hs, happ, hmaxed, hm, decide_True, if_true, hoff]
    rw [hres]
    refine ⟨rfl, pre.rollover ?_⟩
    simp only [List.length_set, hlenr]
    omega
  · have hres : recorder.Append cd st r =
        ({ st with disk := d1, heap := st.heap.set (st.heap.length - 1) s1 },
          .ok (cfg.InitialOffset + recs.length)) := by
      simp only [recorder.Append, h.1.active, hs, happ, hmaxed, hm, decide_False,
        Bool.false_eq_true, if_false]
    rw [hres]
    refine ⟨rfl, pre, ?_⟩
    simp only [List.length_set, hlenr]
    omega

theorem LogInv.append_full {cd : Codec} {cfg : Config} {recs : List Record} {st : State}
    (h : LogInv cd cfg recs st) (r : Record)
    (hcap : recs.length - (st.heap.length - 1) * cfg.MaxIndexSize = 2 ^ 32 - 1) :
    (recorder.Append cd st r).2 = .error .EOF ∧
      LogInv cd cfg recs (recorder.Append cd st r).1 ∧
      (recorder.Append cd st r).1.heap.length = st.heap.length := by
  have hpos := h.1.len_pos
  have hstrict := h.2
  have hsucc : (st.heap.length - 1 + 1) * cfg.MaxIndexSize
      = (st.heap.length - 1) * cfg.MaxIndexSize + cfg.MaxIndexSize := Nat.succ_mul _ _
  have hlen1 : st.heap.length - 1 + 1 = st.heap.length := by omega
  rw [hlen1] at hsucc
  obtain ⟨s, hs, hopen, hsinv⟩ := h.active_seg
  obtain ⟨d1, s1, happ, hs1, hcl1, hb1, he⟩ :=
    segmenter.Append_full r hsinv hopen (by omega) hcap h.1.bound
  rw [hsinv.base] at he
  have hnil : recs ++ [] = recs := List.append_nil _
  have pre := h.1.update_active [] d1 s1 (by rw [hnil]; exact hs1) hcl1 he
    (by rw [hnil]; exact h.1.hi) (by rw [hnil]; exact h.1.bound)
  rw [hnil] at pre
  have hres : recorder.Append cd st r =
      ({ st with disk := d1, heap := st.heap.set (st.heap.length - 1) s1 }, .error .EOF) := by
    simp only [recorder.Append, h.1.active, hs, happ]
  rw [hres]
  refine ⟨rfl, ⟨pre, ?_⟩, ?_⟩
  · simp only [List.length_set]
    exact h.2
  · simp only [List.length_set]

theorem NewRecorder_inv (cd : Codec) (dir : String) (cfg : Config)
    (hn : 1 ≤ cfg.MaxIndexSize) (hb : cfg.InitialOffset < 2 ^ 64) :
    LogInv cd cfg [] (NewRecorder Disk.empty dir cfg) := by
  obtain ⟨d2, snew, hns, hsn, hopen, hbase, hag⟩ :=
    newSegmenter_fresh cd cfg [] Disk.empty 0 rfl rfl
  rw [Nat.add_zero] at hns
  have hcfg : (if cfg.MaxIndexSize = 0 then { cfg with MaxIndexSize := 100 } else cfg) = cfg := by
    rw [if_neg (by omega)]
  have hres : NewRecorder Disk.empty dir cfg =
      { disk := d2, heap := [snew],
        r := { Dir := dir, Config := cfg, activeSegment := some 0, segments := [0] } } := by
    have hns' : newSegmenter { filers := [], indexes := [] } cfg.InitialOffset cfg = (d2, snew) :=
      hns
    simp only [NewRecorder, hcfg, recorder.setup, Disk.empty, List.map_nil, List.append_nil,
      List.insertionSort, recorder.setupLoop, recorder.newSegmenter, hns']
    rfl
  rw [hres]
  refine ⟨
    { cfg_eq := rfl, npos := hn, bound := by simpa using hb, segs := rfl, active := rfl,
      len_pos := by simp, lo := by simp, hi := by simp, seg := ?_, last_open := ?_,
      fresh := ?_ }, by simp; omega⟩
  · intro j s hj
    cases j with
    | zero =>
      simp only [List.getElem?_cons_zero, Option.some.injEq] at hj
      subst hj
      simpa using hsn
    | succ j => simp at hj
  · intro s hs
    simp only [List.length_singleton, Nat.sub_self, List.getElem?_cons_zero,
      Option.some.injEq] at hs
    subst hs
    exact hopen
  · intro k hk
    simp only [List.length_singleton, Nat.sub_self, Nat.zero_mul, Nat.add_zero] at hk
    obtain ⟨a1, a2⟩ := hag k (by omega)
    rw [a1, a2]
    exact ⟨rfl, rfl⟩

/-! ## Runs of appends -/

theorem appendAll_nil (cd : Codec) (st : State) : appendAll cd st [] = (st, []) := rfl

theorem appendAll_cons (cd : Codec) (st : State) (r : Record) (rs : List Record) :
    appendAll cd st (r :: rs) =
      ((appendAll cd (recorder.Append cd st r).1 rs).1,
        (recorder.Append cd st r).2 :: (appendAll cd (recorder.Append cd st r).1 rs).2) := rfl

theorem appendAll_append (cd : Codec) (st : State) (xs ys : List Record) :
    appendAll cd st (xs ++ ys) =
      ((appendAll cd (appendAll cd st xs).1 ys).1,
        (appendAll cd st xs).2 ++ (appendAll cd (appendAll cd st xs).1 ys).2) := by
  induction xs generalizing st with
  | nil => rfl
  | cons x xs ih =>
    rw [List.cons_append, appendAll_cons, ih, appendAll_cons]
    rfl

theorem range_succ_map_ok (b m : Nat) :
    (List.range (m + 1)).map (fun i => (Except.ok (b + i) : Except Error Nat)) =
      Except.ok b :: (List.range m).map (fun i => (Except.ok (b + 1 + i) : Except Error Nat)) := by
  rw [List.range_succ_eq_map, List.map_cons, List.map_map]
  refine congrArg₂ _ rfl (List.map_congr_left fun i _ => ?_)
  simp only [Function.comp, Nat.succ_eq_add_one]
  congr 1
  omega

theorem appendAll_ok {cd : Codec} {cfg : Config} (rs : List Record) :
    ∀ (recs : List Record) (st : State), LogInv cd cfg recs st →
      (cfg.MaxIndexSize < 2 ^ 32 ∨ recs.length + rs.length ≤ 2 ^ 32 - 1) →
      cfg.InitialOffset + recs.length + rs.length < 2 ^ 64 →
      (appendAll cd st rs).2 =
          (List.range rs.length).map (fun i => Except.ok (cfg.InitialOffset + recs.length + i)) ∧
        LogInv cd cfg (recs ++ rs) (appendAll cd st rs).1 := by
  induction rs with
  | nil =>
    intro recs st h _ _
    simpa [appendAll_nil] using h
  | cons r rs ih =>
    intro recs st h hsmall hb
    have hlen : (r :: rs).length = rs.length + 1 := rfl
    rw [hlen] at hsmall hb
    have hstrict := h.2
    have hpos := h.1.len_pos
    have hsucc : (st.heap.length - 1 + 1) * cfg.MaxIndexSize
        = (st.heap.length - 1) * cfg.MaxIndexSize + cfg.MaxIndexSize := Nat.succ_mul _ _
    have hlen1 : st.heap.length - 1 + 1 = st.heap.length := by omega
    rw [hlen1] at hsucc
    obtain ⟨h1, h2⟩ := h.append_ok r (by omega) (by omega)
    have hl : (recs ++ [r]).length = recs.length + 1 := by simp
    obtain ⟨i1, i2⟩ := ih (recs ++ [r]) _ h2 (by rw [hl]; omega) (by rw [hl]; omega)
    rw [appendAll_cons, hlen, range_succ_map_ok]
    refine ⟨?_, ?_⟩
    · simp only [h1, i1, hl, Nat.add_assoc]
    · simpa [List.append_assoc] using i2

theorem appendAll_stuck {cd : Codec} {cfg : Config} {recs : List Record} (rs : List Record) :
    ∀ (st : State), LogInv cd cfg recs st →
      recs.length - (st.heap.length - 1) * cfg.MaxIndexSize = 2 ^ 32 - 1 →
      (appendAll cd st rs).2 = List.replicate rs.length (Except.error Error.EOF) ∧
        LogInv cd cfg recs (appendAll cd st rs).1 := by
  induction rs with
  | nil =>
    intro st h _
    exact ⟨rfl, h⟩
  | cons r rs ih =>
    intro st h hc
    obtain ⟨h1, h2, h3⟩ := h.append_full r hc
    obtain ⟨i1, i2⟩ := ih _ h2 (by rw [h3]; exact hc)
    rw [appendAll_cons]
    refine ⟨?_, i2⟩
    simp only [h1, i1, List.length_cons, List.replicate_succ]

theorem appendAll_inv {cd : Codec} {cfg : Config} (rs : List Record) :
    ∀ (recs : List Record) (st : State), LogInv cd cfg recs st →
      cfg.InitialOffset + recs.length + rs.length < 2 ^ 64 →
      ∃ m, m ≤ rs.length ∧ LogInv cd cfg (recs ++ rs.take m) (appendAll cd st rs).1 ∧
        (appendAll cd st rs).2 =
          (List.range m).map (fun i => Except.ok (cfg.InitialOffset + recs.length + i)) ++
            List.replicate (rs.length - m) (Except.error Error.EOF) := by
  induction rs with
  | nil =>
    intro recs st h _
    exact ⟨0, le_refl _, by simpa [appendAll_nil] using h, rfl⟩
  | cons r rs ih =>
    intro recs st h hb
    have hlen : (r :: rs).length = rs.length + 1 := rfl
    rw [hlen] at hb
    obtain ⟨s, _, _, hsinv⟩ := h.active_seg
    have hcap := hsinv.cap
    by_cases hc : recs.length - (st.heap.length - 1) * cfg.MaxIndexSize < 2 ^ 32 - 1
    · obtain ⟨h1, h2⟩ := h.append_ok r (by omega) hc
      have hl : (recs ++ [r]).length = recs.length + 1 := by simp
      obtain ⟨m, hm, i1, i2⟩ := ih (recs ++ [r]) _ h2 (by rw [hl]; omega)
      refine ⟨m + 1, by rw [hlen]; omega, ?_, ?_⟩
      · rw [appendAll_cons]
        simpa [List.append_assoc] using i1
      · rw [appendAll_cons, range_succ_map_ok, hlen, h1, i2, hl]
        simp [Nat.add_assoc]
    · obtain ⟨i1, i2⟩ := appendAll_stuck (r :: rs) st h (by omega)
      refine ⟨0, Nat.zero_le _, by simpa using i2, ?_⟩
      rw [i1]
      simp
/-! ## Frame of `Close` and `Remove` in an arbitrary state -/

theorem fileWrite_frame {d d' : Disk} {name : Nat} {h : Handle} {p : Bytes}
    (hw : fileWrite d name h p = some d') : Elsewhere d d' name := by
  cases h with
  | readWrite =>
    simp only [fileWrite] at hw
    cases hg : tget name d.filers with
    | none =>
      rw [hg] at hw
      cases hw
      exact Elsewhere.same _ _
    | some c =>
      rw [hg] at hw
      cases hw
      exact ⟨rfl, fun k hk => tget_tput_other _ _ _ _ hk⟩
  | readOnly => simp [fileWrite] at hw
  | closed => simp [fileWrite] at hw

theorem filer.Flush_frame (d : Disk) (f : filer) :
    (filer.Flush d f).2.1.name = f.name ∧ Elsewhere d (filer.Flush d f).1 f.name := by
  unfold filer.Flush
  by_cases h1 : f.err = true
  · rw [if_pos h1]
    exact ⟨rfl, Elsewhere.same _ _⟩
  · rw [if_neg h1]
    by_cases h2 : f.buf = []
    · rw [if_pos h2]
      exact ⟨rfl, Elsewhere.same _ _⟩
    · rw [if_neg h2]
      cases hw : fileWrite d f.name f.file f.buf with
      | none => exact ⟨rfl, Elsewhere.same _ _⟩
      | some d' => exact ⟨rfl, fileWrite_frame hw⟩

theorem filer.Close_frame (d : Disk) (f : filer) :
    (filer.Close d f).2.1.name = f.name ∧ Elsewhere d (filer.Close d f).1 f.name := by
  obtain ⟨h1, h2⟩ := filer.Flush_frame d f
  unfold filer.Close
  rcases hfl : filer.Flush d f with ⟨d1, f1, b⟩
  rw [hfl] at h1 h2
  cases b with
  | false => exact ⟨h1, h2⟩
  | true =>
    cases hf : f1.file with
    | closed => simp only [hf]; exact ⟨h1, h2⟩
    | readWrite => simp only [hf]; exact ⟨h1, h2⟩
    | readOnly => simp only [hf]; exact ⟨h1, h2⟩

theorem SegFrame.unchanged (d : Disk) (s : segmenter) : SegFrame d s d s :=
  ⟨rfl, rfl, rfl, rfl, fun _ _ => rfl, fun _ _ => rfl⟩

theorem segmenter.Close_segframe (d : Disk) (s : segmenter) :
    SegFrame d s (s.Close d).1 (s.Close d).2.1 := by
  obtain ⟨h1, h2⟩ := filer.Close_frame (s.indexer.Close d) s.filer
  have hidx : ∀ k, k ≠ s.indexer.name →
      tget k (s.indexer.Close d).indexes = tget k d.indexes :=
    fun k hk => tget_tput_other _ _ _ _ hk
  rcases hcl : filer.Close (s.indexer.Close d) s.filer with ⟨d2, f2, res⟩
  rw [hcl] at h1 h2
  cases res with
  | error e =>
    simp only [segmenter.Close, hcl]
    exact ⟨rfl, rfl, h1, rfl, fun k hk => h2.2 k hk, fun k hk => by
      simp only at h2 ⊢
      rw [h2.1]
      exact hidx k hk⟩
  | ok u =>
    simp only [segmenter.Close, hcl]
    exact ⟨rfl, rfl, h1, rfl, fun k hk => h2.2 k hk, fun k hk => by
      simp only at h2 ⊢
      rw [h2.1]
      exact hidx k hk⟩

theorem segmenter.Remove_frame (d : Disk) (s : segmenter) :
    SegFrame d s (s.Remove d).1 (s.Remove d).2.1 := by
  have hcf := segmenter.Close_segframe d s
  by_cases hc : s.Closed = true
  · cases h1 : tget s.indexer.name d.indexes with
    | none =>
      simp only [segmenter.Remove, hc, if_true, h1]
      exact SegFrame.unchanged _ _
    | some v =>
      cases h2 : tget s.filer.name d.filers with
      | none =>
        simp only [segmenter.Remove, hc, if_true, h1, h2]
        exact ⟨rfl, rfl, rfl, rfl, fun _ _ => rfl, fun k hk => tget_tdel_other _ _ _ hk⟩
      | some w =>
        simp only [segmenter.Remove, hc, if_true, h1, h2]
        exact ⟨rfl, rfl, rfl, rfl, fun k hk => tget_tdel_other _ _ _ hk,
          fun k hk => tget_tdel_other _ _ _ hk⟩
  · rcases hcl : s.Close d with ⟨d1, s1, res⟩
    rw [hcl] at hcf
    obtain ⟨c1, c2, c3, c4, c5, c6⟩ := hcf
    simp only at c1 c2 c3 c4 c5 c6
    cases res with
    | error e =>
      simp only [segmenter.Remove, hc, Bool.false_eq_true, if_false, hcl]
      exact ⟨c1, c2, c3, c4, c5, c6⟩
    | ok u =>
      cases h1 : tget s1.indexer.name d1.indexes with
      | none =>
        simp only [segmenter.Remove, hc, Bool.false_eq_true, if_false, hcl, h1]
        exact ⟨c1, c2, c3, c4, c5, c6⟩
      | some v =>
        cases h2 : tget s1.filer.name d1.filers with
        | none =>
          simp only [segmenter.Remove, hc, Bool.false_eq_true, if_false, hcl, h1, h2]
          refine ⟨c1, c2, c3, c4, c5, fun k hk => ?_⟩
          simp only
          rw [tget_tdel_other _ _ _ (by rw [c4]; exact hk)]
          exact c6 k hk
        | some w =>
          simp only [segmenter.Remove, hc, Bool.false_eq_true, if_false, hcl, h1, h2]
          refine ⟨c1, c2, c3, c4, fun k hk => ?_, fun k hk => ?_⟩
          · simp only
            rw [tget_tdel_other _ _ _ (by rw [c3]; exact hk)]
            exact c5 k hk
          · simp only
            rw [tget_tdel_other _ _ _ (by rw [c4]; exact hk)]
            exact c6 k hk

/-! ## The loop of `Truncate` -/

theorem survives_set (lowest : Nat) (heap : List segmenter) (id : Nat) (s s1 : segmenter)
    (hs : heap[id]? = some s) (hn : s1.nextOffset = s.nextOffset) (id' : Nat) :
    recorder.survives lowest (heap.set id s1) id' = recorder.survives lowest heap id' := by
  unfold recorder.survives
  by_cases h : id = id'
  · subst h
    have hl : id < heap.length := by
      by_contra hc
      rw [List.getElem?_eq_none (by omega)] at hs
      cases hs
    rw [List.getElem?_set_self hl, hs]
    simp only [segmenter.NextOffset, hn]
  · rw [List.getElem?_set_ne h]

theorem truncateLoop_ok (lowest : Nat) :
    ∀ (ids : List Nat) (d : Disk) (heap : List segmenter) (acc : List Nat) (d' : Disk)
      (heap' : List segmenter) (segs : List Nat),
      recorder.truncateLoop lowest d heap acc ids = (d', heap', .ok segs) →
      segs = acc ++ ids.filter (recorder.survives lowest heap) ∧
      heap'.length = heap.length ∧
      (∀ (id : Nat) (s : segmenter), heap[id]? = some s → ∃ s', heap'[id]? = some s' ∧
        s'.nextOffset = s.nextOffset ∧ s'.filer.name = s.filer.name ∧
        s'.indexer.name = s.indexer.name ∧
        (¬ s.nextOffset ≤ (lowest + 1) % 2 ^ 64 → s' = s)) ∧
      (∀ k, (∀ id ∈ ids, ∀ s, heap[id]? = some s → s.nextOffset ≤ (lowest + 1) % 2 ^ 64 →
          s.filer.name ≠ k) → tget k d'.filers = tget k d.filers) ∧
      (∀ k, (∀ id ∈ ids, ∀ s, heap[id]? = some s → s.nextOffset ≤ (lowest + 1) % 2 ^ 64 →
          s.indexer.name ≠ k) → tget k d'.indexes = tget k d.indexes) := by
  intro ids
  induction ids with
  | nil =>
    intro d heap acc d' heap' segs h
    simp only [recorder.truncateLoop, Prod.mk.injEq, Except.ok.injEq] at h
    obtain ⟨rfl, rfl, rfl⟩ := h
    exact ⟨by simp, rfl, fun id s hs => ⟨s, hs, rfl, rfl, rfl, fun _ => rfl⟩,
      fun _ _ => rfl, fun _ _ => rfl⟩
  | cons id rest ih =>
    intro d heap acc d' heap' segs h
    cases hs : heap[id]? with
    | none => simp [recorder.truncateLoop, hs] at h
    | some s =>
      by_cases hrm : s.nextOffset ≤ (lowest + 1) % 2 ^ 64
      · have hfr := segmenter.Remove_frame d s
        rcases hre : s.Remove d with ⟨d1, s1, res⟩
        rw [hre] at hfr
        obtain ⟨f1, f2, f3, f4, f5, f6⟩ := hfr
        simp only at f1 f2 f3 f4 f5 f6
        cases res with
        | error e =>
          simp only [recorder.truncateLoop, hs, segmenter.NextOffset, hrm, if_true, hre] at h
          simp at h
        | ok u =>
          simp only [recorder.truncateLoop, hs, segmenter.NextOffset, hrm, if_true, hre] at h
          obtain ⟨i1, i2, i3, i4, i5⟩ := ih _ _ _ _ _ _ h
          have hsv : recorder.survives lowest heap id = false := by
            simp only [recorder.survives, hs, segmenter.NextOffset, hrm, decide_True,
              Bool.not_true]
          have hl : id < heap.length := by
            by_contra hc
            rw [List.getElem?_eq_none (by omega)] at hs
            cases hs
          refine ⟨?_, ?_, ?_, ?_, ?_⟩
          · rw [i1, List.filter_cons, hsv]
            simp only [Bool.false_eq_true, if_false]
            congr 1
            exact List.filter_congr fun x _ => survives_set lowest heap id s s1 hs f1 x
          · rw [i2, List.length_set]
          · intro id0 s0 h0
            by_cases he : id = id0
            · subst he
              rw [hs] at h0
              cases h0
              obtain ⟨s', g1, g2, g3, g4, _⟩ := i3 id s1 (List.getElem?_set_self hl)
              exact ⟨s', g1, g2.trans f1, g3.trans f3, g4.trans f4, fun hn => absurd hrm hn⟩
            · exact i3 id0 s0 (by rw [List.getElem?_set_ne he]; exact h0)
          · intro k hk
            rw [i4 k ?_, f5 k (Ne.symm (hk id (List.mem_cons_self _ _) s hs hrm))]
            intro id0 hid0 s0 h0 hn0
            by_cases he : id = id0
            · subst he
              rw [List.getElem?_set_self hl] at h0
              cases h0
              rw [f3]
              exact hk id (List.mem_cons_self _ _) s hs hrm
            · rw [List.getElem?_set_ne he] at h0
              exact hk id0 (List.mem_cons_of_mem _ hid0) s0 h0 hn0
          · intro k hk
            rw [i5 k ?_, f6 k (Ne.symm (hk id (List.mem_cons_self _ _) s hs hrm))]
            intro id0 hid0 s0 h0 hn0
            by_cases he : id = id0
            · subst he
              rw [List.getElem?_set_self hl] at h0
              cases h0
              rw [f4]
              exact hk id (List.mem_cons_self _ _) s hs hrm
            · rw [List.getElem?_set_ne he] at h0
              exact hk id0 (List.mem_cons_of_mem _ hid0) s0 h0 hn0
      · simp only [recorder.truncateLoop, hs, segmenter.NextOffset, hrm, if_false] at h
        obtain ⟨i1, i2, i3, i4, i5⟩ := ih _ _ _ _ _ _ h
        have hsv : recorder.survives lowest heap id = true := by
          simp only [recorder.survives, hs, segmenter.NextOffset, hrm, decide_False,
            Bool.not_false]
        refine ⟨?_, i2, i3, ?_, ?_⟩
        · rw [i1, List.filter_cons, hsv]
          simp
        · intro k hk
          exact i4 k fun id0 hid0 => hk id0 (List.mem_cons_of_mem _ hid0)
        · intro k hk
          exact i5 k fun id0 hid0 => hk id0 (List.mem_cons_of_mem _ hid0)
/-! ## Routing of `recorder.Read` -/

theorem findSegment_none (heap : List segmenter) (off : Nat) (ids : List Nat)
    (h : ∀ id ∈ ids, ∀ s, heap[id]? = some s → ¬ (s.baseOffset ≤ off ∧ off < s.nextOffset)) :
    recorder.findSegment heap off ids = none := by
  induction ids with
  | nil => rfl
  | cons id rest ih =>
    have ihr := ih fun id' hid' => h id' (List.mem_cons_of_mem _ hid')
    cases hs : heap[id]? with
    | none => simp only [recorder.findSegment, hs, ihr]
    | some s =>
      have hn := h id (List.mem_cons_self _ _) s hs
      simp only [recorder.findSegment, hs, segmenter.BaseOffset, segmenter.NextOffset, hn,
        if_false, ihr]

theorem findSegment_unique (heap : List segmenter) (off : Nat) (ids : List Nat) (j : Nat)
    (s : segmenter) (hj : j ∈ ids) (hs : heap[j]? = some s)
    (hin : s.baseOffset ≤ off ∧ off < s.nextOffset)
    (hu : ∀ id ∈ ids, ∀ s', heap[id]? = some s' →
      s'.baseOffset ≤ off ∧ off < s'.nextOffset → id = j) :
    recorder.findSegment heap off ids = some j := by
  induction ids with
  | nil => cases hj
  | cons id rest ih =>
    by_cases he : id = j
    · subst he
      simp only [recorder.findSegment, hs, segmenter.BaseOffset, segmenter.NextOffset, hin,
        and_self, if_true]
    · have hjr : j ∈ rest := by
        cases hj with
        | head => exact absurd rfl he
        | tail _ h => exact h
      have ihr := ih hjr fun id' hid' => hu id' (List.mem_cons_of_mem _ hid')
      cases hs' : heap[id]? with
      | none => simp only [recorder.findSegment, hs', ihr]
      | some s' =>
        have hn : ¬ (s'.baseOffset ≤ off ∧ off < s'.nextOffset) :=
          fun hc => he (hu id (List.mem_cons_self _ _) s' hs' hc)
        simp only [recorder.findSegment, hs', segmenter.BaseOffset, segmenter.NextOffset, hn,
          if_false, ihr]

theorem Read_none (cd : Codec) (st : State) (off : Nat)
    (h : ∀ id ∈ st.r.segments, ∀ s, st.heap[id]? = some s →
      ¬ (s.baseOffset ≤ off ∧ off < s.nextOffset)) :
    recorder.Read cd st off = (st, .error (.OffsetOutOfRange off)) := by
  simp only [recorder.Read, findSegment_none st.heap off st.r.segments h]

theorem Read_owner {cd : Codec} {cfg : Config} {recs : List Record} {st : State}
    {s : segmenter} {lo hi : Nat} (hcd : cd.Lawful) (j : Nat) (hj : j ∈ st.r.segments)
    (hs : st.heap[j]? = some s) (hinv : SegInv cd cfg recs st.disk s lo hi)
    (i : Nat) (r : Record) (h1 : lo ≤ i) (h2 : i < hi) (h3 : recs[i]? = some r)
    (hv : r.Value.length < 2 ^ 63) (hb : cfg.InitialOffset + hi < 2 ^ 64)
    (hu : ∀ id ∈ st.r.segments, ∀ s', st.heap[id]? = some s' →
      s'.baseOffset ≤ cfg.InitialOffset + i ∧ cfg.InitialOffset + i < s'.nextOffset → id = j) :
    (recorder.Read cd st (cfg.InitialOffset + i)).2 =
      .ok { r with Offset := cfg.InitialOffset + i } := by
  have hin : s.baseOffset ≤ cfg.InitialOffset + i ∧ cfg.InitialOffset + i < s.nextOffset := by
    rw [hinv.base, hinv.next]
    omega
  have hf := findSegment_unique st.heap _ st.r.segments j s hj hs hin hu
  have hrd := segmenter.Read_inv hinv hcd i r h1 h2 h3 hv hb
  have hnl : ¬ s.NextOffset ≤ cfg.InitialOffset + i := by
    simp only [segmenter.NextOffset]
    omega
  simp only [recorder.Read, hf, hs, hnl, if_false]
  exact hrd

/-! ## Offsets of the segments of a log -/

theorem LogPre.lt_len {cd : Codec} {cfg : Config} {recs : List Record} {st : State}
    (_h : LogPre cd cfg recs st) {j : Nat} {s : segmenter} (hs : st.heap[j]? = some s) :
    j < st.heap.length := by
  by_contra hc
  rw [List.getElem?_eq_none (by omega)] at hs
  cases hs

theorem LogPre.disjoint {cd : Codec} {cfg : Config} {recs : List Record} {st : State}
    (h : LogPre cd cfg recs st) {j j' : Nat} {s s' : segmenter} {off : Nat}
    (hs : st.heap[j]? = some s) (hs' : st.heap[j']? = some s')
    (hin : s.baseOffset ≤ off ∧ off < s.nextOffset)
    (hin' : s'.baseOffset ≤ off ∧ off < s'.nextOffset) : j' = j := by
  have b1 := (h.seg j s hs).base
  have n1 := (h.seg j s hs).next
  have b2 := (h.seg j' s' hs').base
  have n2 := (h.seg j' s' hs').next
  rw [b1, n1] at hin
  rw [b2, n2] at hin'
  by_contra hne
  rcases Nat.lt_or_gt_of_ne hne with hlt | hlt
  · have hm : (j' + 1) * cfg.MaxIndexSize ≤ j * cfg.MaxIndexSize :=
      Nat.mul_le_mul_right _ (by omega)
    omega
  · have hm : (j + 1) * cfg.MaxIndexSize ≤ j' * cfg.MaxIndexSize :=
      Nat.mul_le_mul_right _ (by omega)
    omega

theorem LogPre.owner {cd : Codec} {cfg : Config} {recs : List Record} {st : State}
    (h : LogPre cd cfg recs st) (i : Nat) (hi : i < recs.length) :
    ∃ s, st.heap[i / cfg.MaxIndexSize]? = some s ∧
      i / cfg.MaxIndexSize ∈ st.r.segments ∧
      i / cfg.MaxIndexSize * cfg.MaxIndexSize ≤ i ∧
      i < min ((i / cfg.MaxIndexSize + 1) * cfg.MaxIndexSize) recs.length := by
  have hnp := h.npos
  have h1 : i / cfg.MaxIndexSize * cfg.MaxIndexSize ≤ i := Nat.div_mul_le_self _ _
  have h2 : i < (i / cfg.MaxIndexSize + 1) * cfg.MaxIndexSize := by
    have := (Nat.div_lt_iff_lt_mul (show 0 < cfg.MaxIndexSize by omega)).1
      (Nat.lt_succ_self (i / cfg.MaxIndexSize))
    exact this
  have hlen : i / cfg.MaxIndexSize < st.heap.length := by
    by_contra hc
    have hm : st.heap.length * cfg.MaxIndexSize ≤ i / cfg.MaxIndexSize * cfg.MaxIndexSize :=
      Nat.mul_le_mul_right _ (by omega)
    have := h.hi
    omega
  refine ⟨st.heap[i / cfg.MaxIndexSize], List.getElem?_eq_getElem hlen, ?_, h1, ?_⟩
  · rw [h.segs]
    exact List.mem_range.2 hlen
  · exact lt_min h2 hi

theorem LogPre.read {cd : Codec} {cfg : Config} {recs : List Record} {st : State}
    (h : LogPre cd cfg recs st) (hcd : cd.Lawful) (i : Nat) (r : Record)
    (h3 : recs[i]? = some r) (hv : r.Value.length < 2 ^ 63) :
    (recorder.Read cd st (cfg.InitialOffset + i)).2 =
      .ok { r with Offset := cfg.InitialOffset + i } := by
  have hi : i < recs.length := by
    by_contra hc
    rw [List.getElem?_eq_none (by omega)] at h3
    cases h3
  obtain ⟨s, hs, hmem, h1, h2⟩ := h.owner i hi
  have hinv := h.seg _ s hs
  have hb := h.bound
  refine Read_owner hcd _ hmem hs hinv i r h1 h2 h3 hv
    (by have := Nat.min_le_right ((i / cfg.MaxIndexSize + 1) * cfg.MaxIndexSize) recs.length
        omega) ?_
  intro id _ s' hs' hin'
  refine h.disjoint hs hs' ?_ hin'
  rw [hinv.base, hinv.next]
  omega

/-! ## The serializer used to run the model -/

theorem plainCodec_lawful : plainCodec.Lawful := by
  intro r ho hv
  have hl : (putUint64 r.Offset ++ r.Value).length = 8 + r.Value.length := by
    rw [List.length_append, putUint64_length]
  refine ⟨?_, ?_⟩
  · show (putUint64 r.Offset ++ r.Value).length < 2 ^ 64
    rw [hl]
    omega
  · show (if 8 ≤ (putUint64 r.Offset ++ r.Value).length then
        some ({ Value := (putUint64 r.Offset ++ r.Value).drop 8,
                Offset := getUint64 ((putUint64 r.Offset ++ r.Value).take 8) } : Record)
      else none) = some r
    rw [if_pos (by rw [hl]; omega), List.drop_left' (putUint64_length _),
      List.take_left' (putUint64_length _), getUint64_putUint64, Nat.mod_eq_of_lt ho]

/-! ## Claims -/

/-- C1 (amended): on a log freshly created on an empty directory, with any initial
offset `b`, any capacity `1 ≤ N < 2 ^ 32` and no offset overflow (`b + n < 2 ^ 64`),
every one of `n` appends succeeds, the `i`-th returning `b + i`, and afterwards
`Read (b + i)` returns the record with the `i`-th value and offset `b + i`, whatever
number of appends and rollovers followed. -/
theorem C1_round_trip (cd : Codec) (hcd : cd.Lawful) (dir : String) (cfg : Config)
    (rs : List Record) (hN : 1 ≤ cfg.MaxIndexSize) (hN32 : cfg.MaxIndexSize < 2 ^ 32)
    (hb : cfg.InitialOffset + rs.length < 2 ^ 64)
    (hv : ∀ r ∈ rs, r.Value.length < 2 ^ 63) :
    (appendAll cd (NewRecorder Disk.empty dir cfg) rs).2 =
        (List.range rs.length).map (fun i => Except.ok (cfg.InitialOffset + i)) ∧
      ∀ i r, rs[i]? = some r →
        (recorder.Read cd (appendAll cd (NewRecorder Disk.empty dir cfg) rs).1
            (cfg.InitialOffset + i)).2 =
          .ok { Value := r.Value, Offset := cfg.InitialOffset + i } := by
  have h0 := NewRecorder_inv cd dir cfg hN (by omega)
  obtain ⟨h1, h2⟩ := appendAll_ok rs [] _ h0 (Or.inl hN32) (by simpa using hb)
  rw [List.nil_append] at h2
  refine ⟨by simpa using h1, fun i r hr => ?_⟩
  exact h2.1.read hcd i r hr (hv r (List.getElem?_mem hr))

/-- Witness of C1: capacity 3, initial offset 0, five appends of `hello`. -/
theorem C1_round_trip_witness :
    plainCodec.Lawful ∧ 1 ≤ 3 ∧ 3 < 2 ^ 32 ∧ 0 + 5 < 2 ^ 64 ∧
      (recorder.Read plainCodec
        (appendAll plainCodec
          (NewRecorder Disk.empty "log" { MaxIndexSize := 3, InitialOffset := 0 })
          (List.replicate 5 { Value := [104, 101, 108, 108, 111], Offset := 0 })).1
        (0 + 4)).2 = .ok { Value := [104, 101, 108, 108, 111], Offset := 0 + 4 } :=
  ⟨plainCodec_lawful, by decide, by decide, by decide,
    (C1_round_trip plainCodec plainCodec_lawful "log" { MaxIndexSize := 3, InitialOffset := 0 }
      (List.replicate 5 { Value := [104, 101, 108, 108, 111], Offset := 0 })
      (by decide) (by decide) (by decide) (by decide)).2 4 _ rfl⟩

theorem append_after_full (cd : Codec) (dir : String) (cfg : Config) (rs : List Record)
    (x : Record) (hN : cfg.MaxIndexSize = 2 ^ 32) (hb : cfg.InitialOffset = 0)
    (hl : rs.length = 2 ^ 32 - 1) :
    (appendAll cd (NewRecorder Disk.empty dir cfg) (rs ++ [x])).2.getLast?
      = some (.error .EOF) := by
  have h0 := NewRecorder_inv cd dir cfg (by omega) (by omega)
  obtain ⟨_, h2⟩ := appendAll_ok rs [] _ h0 (Or.inr (by simp only [List.length_nil]; omega))
    (by simp only [List.length_nil]; omega)
  rw [List.nil_append] at h2
  have hlo := h2.1.lo
  have hone : (appendAll cd (NewRecorder Disk.empty dir cfg) rs).1.heap.length - 1 = 0 := by
    by_contra hc
    have hm : 1 * cfg.MaxIndexSize ≤
        ((appendAll cd (NewRecorder Disk.empty dir cfg) rs).1.heap.length - 1)
          * cfg.MaxIndexSize := Nat.mul_le_mul_right _ (by omega)
    omega
  obtain ⟨h3, _, _⟩ := h2.append_full x (by rw [hone]; omega)
  rw [appendAll_append, appendAll_cons, appendAll_nil, h3, ← List.concat_eq_append,
    List.concat_eq_append, List.getLast?_concat]

/-- Counterexample to C1 as stated: with capacity `2 ^ 32` and initial offset 0
(no offset overflow), the last of `2 ^ 32` appends of an empty value fails with the
end-of-stream error: `indexer.Write` compares the relative offset `2 ^ 32 - 1` with
`uint32(size) + 1`, which has wrapped to 0. -/
theorem C1_counterexample :
    (appendAll plainCodec
      (NewRecorder Disk.empty "log" { MaxIndexSize := 2 ^ 32, InitialOffset := 0 })
      (List.replicate (2 ^ 32 - 1) { Value := [], Offset := 0 }
        ++ [{ Value := [], Offset := 0 }])).2.getLast? = some (.error .EOF) :=
  append_after_full plainCodec "log" { MaxIndexSize := 2 ^ 32, InitialOffset := 0 }
    (List.replicate (2 ^ 32 - 1) { Value := [], Offset := 0 }) { Value := [], Offset := 0 }
    rfl rfl (List.length_replicate _ _)

/-- The bound `b + n < 2 ^ 64` of C1 cannot be relaxed to `b + n ≤ 2 ^ 64`: with initial
offset `2 ^ 64 - 1` the single append returns `2 ^ 64 - 1`, the next offset wraps to 0,
and `Read(2 ^ 64 - 1)` is out of range. -/
theorem top_offset_unreadable :
    (appendAll plainCodec
      (NewRecorder Disk.empty "log" { MaxIndexSize := 3, InitialOffset := 2 ^ 64 - 1 })
      [{ Value := [1], Offset := 0 }]).2 = [.ok (2 ^ 64 - 1)] ∧
    (recorder.Read plainCodec (freshLog plainCodec
      { MaxIndexSize := 3, InitialOffset := 2 ^ 64 - 1 } [{ Value := [1], Offset := 0 }])
      (2 ^ 64 - 1)).2 = .error (.OffsetOutOfRange (2 ^ 64 - 1)) := by
  decide

theorem filterMap_oks (b m k : Nat) :
    ((List.range m).map (fun i => (Except.ok (b + i) : Except Error Nat)) ++
        List.replicate k (Except.error Error.EOF)).filterMap Except.toOption =
      (List.range m).map (fun i => b + i) := by
  rw [List.filterMap_append, List.filterMap_map]
  have h1 : (List.replicate k (Except.error Error.EOF : Except Error Nat)).filterMap
      Except.toOption = [] := by
    induction k with
    | zero => rfl
    | succ k ih => rw [List.replicate_succ, List.filterMap_cons_none rfl, ih]
  rw [h1, List.append_nil]
  induction (List.range m) with
  | nil => rfl
  | cons a l ih =>
    rw [List.filterMap_cons_some (f := Except.toOption ∘ fun i => Except.ok (b + i))
      (b := b + a) rfl, ih, List.map_cons]

/-- C2 (amended): on a log freshly created on an empty directory with initial offset
`b` and any capacity `N ≥ 1`, as long as no offset overflows (`b` plus the number of
`Append` calls stays below `2 ^ 64`), the `i`-th successful `Append` (0-based) returns
exactly `b + i`, across any number of rollovers. -/
theorem C2_monotonic_offsets (cd : Codec) (dir : String) (cfg : Config) (rs : List Record)
    (hN : 1 ≤ cfg.MaxIndexSize) (hb : cfg.InitialOffset + rs.length < 2 ^ 64)
    (i off : Nat)
    (hi : ((appendAll cd (NewRecorder Disk.empty dir cfg) rs).2.filterMap
      Except.toOption)[i]? = some off) :
    off = cfg.InitialOffset + i := by
  have h0 := NewRecorder_inv cd dir cfg hN (by omega)
  obtain ⟨m, _, _, h3⟩ := appendAll_inv rs [] _ h0 (by simpa using hb)
  rw [h3, filterMap_oks] at hi
  simp only [List.length_nil, Nat.add_zero, List.getElem?_map, Option.map_eq_some'] at hi
  obtain ⟨a, ha, rfl⟩ := hi
  rw [List.getElem?_range (by
    by_contra hc
    rw [List.getElem?_eq_none (by simpa using hc)] at ha
    cases ha)] at ha
  cases ha
  rfl

/-- Witness of C2: capacity 2, initial offset 7, the third append (after one
rollover) returns 9. -/
theorem C2_monotonic_offsets_witness :
    1 ≤ 2 ∧ 7 + 3 < 2 ^ 64 ∧
      ((appendAll plainCodec
        (NewRecorder Disk.empty "log" { MaxIndexSize := 2, InitialOffset := 7 })
        (List.replicate 3 { Value := [1], Offset := 0 })).2.filterMap Except.toOption)[2]?
        = some 9 ∧ 9 = 7 + 2 :=
  ⟨by decide, by decide, by decide,
    C2_monotonic_offsets plainCodec "log" { MaxIndexSize := 2, InitialOffset := 7 }
      (List.replicate 3 { Value := [1], Offset := 0 }) (by decide) (by decide) 2 9 (by decide)⟩

/-- Counterexample to C2 as stated: with initial offset `b = 2 ^ 64 - 1` the second
successful append (`i = 1`) returns 0, not `b + 1`: `nextOffset++` wraps. -/
theorem C2_counterexample :
    ((appendAll plainCodec
      (NewRecorder Disk.empty "log" { MaxIndexSize := 3, InitialOffset := 2 ^ 64 - 1 })
      [{ Value := [], Offset := 0 }, { Value := [], Offset := 0 }]).2.filterMap
        Except.toOption)[1]? = some 0 ∧ 0 ≠ (2 ^ 64 - 1) + 1 := by
  decide

/-- C3 (the code at the failing input): capacity 3, initial offset 0, four appends.
Before the reopening `HighestOffset` is 3 and `Read(3)` returns the fourth record;
after `Close` and a new log on the same directory `HighestOffset` is 2 and `Read(3)`
fails: the last segment holds one record, `newIndexer` sets `size = len - 1 = 0`, and
`Read(-1)` then reports an empty index. -/
theorem C3_recovery_diverges :
    (recorder.Close (freshLog plainCodec { MaxIndexSize := 3, InitialOffset := 0 }
        (List.replicate 4 { Value := [104, 105], Offset := 0 }))).2 = .ok () ∧
    recorder.HighestOffset (freshLog plainCodec { MaxIndexSize := 3, InitialOffset := 0 }
        (List.replicate 4 { Value := [104, 105], Offset := 0 })) = .ok 3 ∧
    recorder.HighestOffset (reopen (freshLog plainCodec { MaxIndexSize := 3, InitialOffset := 0 }
        (List.replicate 4 { Value := [104, 105], Offset := 0 }))) = .ok 2 ∧
    (recorder.Read plainCodec (freshLog plainCodec { MaxIndexSize := 3, InitialOffset := 0 }
        (List.replicate 4 { Value := [104, 105], Offset := 0 })) 3).2
      = .ok { Value := [104, 105], Offset := 3 } ∧
    (recorder.Read plainCodec
        (reopen (freshLog plainCodec { MaxIndexSize := 3, InitialOffset := 0 }
          (List.replicate 4 { Value := [104, 105], Offset := 0 }))) 3).2
      = .error (.OffsetOutOfRange 3) := by
  decide

/-- C4 (the code at the failing input): capacity 3, initial offset 0, one append
(`HighestOffset` is 0), then `Close` and a new log on the same directory. The first
`Append` on the reopened log fails with `ErrDuplicateOffset` instead of returning 1;
after three appends (a full segment and an empty active one) it fails with the
end-of-stream error. -/
theorem C4_append_after_reopen_diverges :
    recorder.HighestOffset (freshLog plainCodec { MaxIndexSize := 3, InitialOffset := 0 }
        [{ Value := [104, 105], Offset := 0 }]) = .ok 0 ∧
    (recorder.Append plainCodec
        (reopen (freshLog plainCodec { MaxIndexSize := 3, InitialOffset := 0 }
          [{ Value := [104, 105], Offset := 0 }]))
        { Value := [104, 105], Offset := 0 }).2 = .error .DuplicateOffset ∧
    (recorder.Append plainCodec
        (reopen (freshLog plainCodec { MaxIndexSize := 3, InitialOffset := 0 }
          (List.replicate 3 { Value := [104, 105], Offset := 0 })))
        { Value := [104, 105], Offset := 0 }).2 = .error .EOF := by
  decide

theorem LogInv.lowest {cd : Codec} {cfg : Config} {recs : List Record} {st : State}
    (h : LogInv cd cfg recs st) : recorder.LowestOffset st = .ok cfg.InitialOffset := by
  have hpos := h.1.len_pos
  obtain ⟨s, hs⟩ : ∃ s, st.heap[0]? = some s := ⟨_, List.getElem?_eq_getElem hpos⟩
  have hb := (h.1.seg 0 s hs).base
  obtain ⟨n, hn⟩ : ∃ n, st.heap.length = n + 1 := ⟨st.heap.length - 1, by omega⟩
  have hsegs : st.r.segments = 0 :: (List.range n).map Nat.succ := by
    rw [h.1.segs, hn, List.range_succ_eq_map]
  simp only [recorder.LowestOffset, hsegs, hs, segmenter.BaseOffset, hb]
  simp

theorem LogInv.highest {cd : Codec} {cfg : Config} {recs : List Record} {st : State}
    (h : LogInv cd cfg recs st) :
    recorder.HighestOffset st =
      .ok (if cfg.InitialOffset + recs.length = 0 then 0
        else cfg.InitialOffset + recs.length - 1) := by
  have hpos := h.1.len_pos
  obtain ⟨s, hs, _, hsinv⟩ := h.active_seg
  have hl : st.r.segments.getLast? = some (st.heap.length - 1) := by
    rw [h.1.segs, List.getLast?_range, if_neg (by omega)]
  simp only [recorder.HighestOffset, hl, hs, segmenter.NextOffset, hsinv.next]
  by_cases hz : cfg.InitialOffset + recs.length = 0
  · simp only [hz, if_true]
  · simp only [hz, if_false]

/-- C5 (amended): in every state reached from a fresh log by `Append` calls without
offset overflow (`b` plus the number of calls below `2 ^ 64`), `LowestOffset` and
`HighestOffset` return values `lo` and `hi`, and for every offset `o < lo` or
`o ≥ hi + 1` the call `Read(o)` fails with the offset-out-of-range error and leaves
the log untouched (no segment is read). -/
theorem C5_out_of_range (cd : Codec) (dir : String) (cfg : Config) (rs : List Record)
    (hN : 1 ≤ cfg.MaxIndexSize) (hb : cfg.InitialOffset + rs.length < 2 ^ 64) :
    ∃ lo hi,
      recorder.LowestOffset (appendAll cd (NewRecorder Disk.empty dir cfg) rs).1 = .ok lo ∧
      recorder.HighestOffset (appendAll cd (NewRecorder Disk.empty dir cfg) rs).1 = .ok hi ∧
      ∀ o, o < lo ∨ hi + 1 ≤ o →
        recorder.Read cd (appendAll cd (NewRecorder Disk.empty dir cfg) rs).1 o =
          ((appendAll cd (NewRecorder Disk.empty dir cfg) rs).1,
            .error (.OffsetOutOfRange o)) := by
  have h0 := NewRecorder_inv cd dir cfg hN (by omega)
  obtain ⟨m, _, h2, _⟩ := appendAll_inv rs [] _ h0 (by simpa using hb)
  refine ⟨_, _, h2.lowest, h2.highest, fun o ho => Read_none cd _ o ?_⟩
  intro id _ s hs hin
  have hsi := h2.1.seg id s hs
  rw [hsi.base, hsi.next] at hin
  have hmin := Nat.min_le_right ((id + 1) * cfg.MaxIndexSize) ([] ++ List.take m rs).length
  by_cases hz : cfg.InitialOffset + ([] ++ List.take m rs).length = 0
  · rw [if_pos hz] at ho
    omega
  · rw [if_neg hz] at ho
    omega

/-- Witness of C5: capacity 3, initial offset 0, five appends; `Read(5)` is out of
range. -/
theorem C5_out_of_range_witness :
    1 ≤ 3 ∧ 0 + 5 < 2 ^ 64 ∧
    ∃ lo hi,
      recorder.LowestOffset (appendAll plainCodec
        (NewRecorder Disk.empty "log" { MaxIndexSize := 3, InitialOffset := 0 })
        (List.replicate 5 { Value := [1], Offset := 0 })).1 = .ok lo ∧
      recorder.HighestOffset (appendAll plainCodec
        (NewRecorder Disk.empty "log" { MaxIndexSize := 3, InitialOffset := 0 })
        (List.replicate 5 { Value := [1], Offset := 0 })).1 = .ok hi ∧
      ∀ o, o < lo ∨ hi + 1 ≤ o →
        recorder.Read plainCodec (appendAll plainCodec
          (NewRecorder Disk.empty "log" { MaxIndexSize := 3, InitialOffset := 0 })
          (List.replicate 5 { Value := [1], Offset := 0 })).1 o =
          ((appendAll plainCodec
            (NewRecorder Disk.empty "log" { MaxIndexSize := 3, InitialOffset := 0 })
            (List.replicate 5 { Value := [1], Offset := 0 })).1,
            .error (.OffsetOutOfRange o)) :=
  ⟨by decide, by decide,
    C5_out_of_range plainCodec "log" { MaxIndexSize := 3, InitialOffset := 0 }
      (List.replicate 5 { Value := [1], Offset := 0 }) (by decide) (by decide)⟩

/-- Counterexample to C5 as stated: initial offset `2 ^ 64 - 1`, capacity 1, two
appends. The offsets wrap, `LowestOffset` is `2 ^ 64 - 1`, and `Read(0)`, although
`0 < LowestOffset`, reaches the second segment and returns its record. -/
theorem C5_counterexample :
    recorder.LowestOffset (freshLog plainCodec
        { MaxIndexSize := 1, InitialOffset := 2 ^ 64 - 1 }
        [{ Value := [1], Offset := 0 }, { Value := [2], Offset := 0 }]) = .ok (2 ^ 64 - 1) ∧
    0 < 2 ^ 64 - 1 ∧
    (recorder.Read plainCodec (freshLog plainCodec
        { MaxIndexSize := 1, InitialOffset := 2 ^ 64 - 1 }
        [{ Value := [1], Offset := 0 }, { Value := [2], Offset := 0 }]) 0).2
      = .ok { Value := [2], Offset := 0 } := by
  decide

theorem filterMap_eq_map_of_some {α β : Type} (f : α → Option β) (g : α → β) (l : List α)
    (h : ∀ x ∈ l, f x = some (g x)) : l.filterMap f = l.map g := by
  induction l with
  | nil => rfl
  | cons a l ih =>
    rw [List.filterMap_cons_some (h a (List.mem_cons_self _ _)), List.map_cons,
      ih fun x hx => h x (List.mem_cons_of_mem _ hx)]

/-- C8 (amended): on a fresh log with capacity `N ≥ 1` and initial offset `b`, without
offset overflow, after `k * N + r` successful appends (`0 ≤ r < N`) the log holds
exactly `k + 1` segments, also when `r = 0` (the rollover is eager: the segment that
follows a full one exists already, and is empty); their base offsets are
`b, b + N, ..., b + k * N` in order. -/
theorem C8_rollover (cd : Codec) (dir : String) (cfg : Config) (rs : List Record)
    (hN : 1 ≤ cfg.MaxIndexSize) (hb : cfg.InitialOffset + rs.length < 2 ^ 64)
    (k r : Nat) (hr : r < cfg.MaxIndexSize)
    (hcount : ((appendAll cd (NewRecorder Disk.empty dir cfg) rs).2.filterMap
      Except.toOption).length = k * cfg.MaxIndexSize + r) :
    (appendAll cd (NewRecorder Disk.empty dir cfg) rs).1.r.segments.length = k + 1 ∧
    (appendAll cd (NewRecorder Disk.empty dir cfg) rs).1.r.segments.filterMap
        (fun id => ((appendAll cd (NewRecorder Disk.empty dir cfg) rs).1.heap[id]?).map
          segmenter.BaseOffset) =
      (List.range (k + 1)).map (fun j => cfg.InitialOffset + j * cfg.MaxIndexSize) := by
  have h0 := NewRecorder_inv cd dir cfg hN (by omega)
  obtain ⟨m, hm, h2, h3⟩ := appendAll_inv rs [] _ h0 (by simpa using hb)
  rw [h3, filterMap_oks, List.length_map, List.length_range] at hcount
  have hlen : ([] ++ List.take m rs).length = m := by
    rw [List.nil_append, List.length_take]
    omega
  have hlo := h2.1.lo
  have hhi := h2.2
  have hpos := h2.1.len_pos
  rw [hlen] at hlo hhi
  have hk : (appendAll cd (NewRecorder Disk.empty dir cfg) rs).1.heap.length = k + 1 := by
    have hs1 : (k + 1) * cfg.MaxIndexSize = k * cfg.MaxIndexSize + cfg.MaxIndexSize :=
      Nat.succ_mul _ _
    by_contra hne
    rcases Nat.lt_or_gt_of_ne hne with hlt | hgt
    · have hmul : (appendAll cd (NewRecorder Disk.empty dir cfg) rs).1.heap.length
          * cfg.MaxIndexSize ≤ k * cfg.MaxIndexSize := Nat.mul_le_mul_right _ (by omega)
      omega
    · have hmul : (k + 1) * cfg.MaxIndexSize ≤
          ((appendAll cd (NewRecorder Disk.empty dir cfg) rs).1.heap.length - 1)
            * cfg.MaxIndexSize := Nat.mul_le_mul_right _ (by omega)
      omega
  rw [h2.1.segs, hk]
  refine ⟨List.length_range _, filterMap_eq_map_of_some _ _ _ fun j hj => ?_⟩
  have hjl : j < (appendAll cd (NewRecorder Disk.empty dir cfg) rs).1.heap.length := by
    rw [hk]
    exact List.mem_range.1 hj
  rw [List.getElem?_eq_getElem hjl, Option.map_some']
  exact congrArg some (h2.1.seg j _ (List.getElem?_eq_getElem hjl)).base

/-- Witness of C8: capacity 3, initial offset 10, six appends (`k = 2`, `r = 0`): three
segments, with base offsets 10, 13 and 16. -/
theorem C8_rollover_witness :
    1 ≤ 3 ∧ 10 + 6 < 2 ^ 64 ∧ 0 < 3 ∧
    (appendAll plainCodec (NewRecorder Disk.empty "log" { MaxIndexSize := 3, InitialOffset := 10 })
      (List.replicate 6 { Value := [1], Offset := 0 })).1.r.segments.length = 2 + 1 ∧
    (appendAll plainCodec (NewRecorder Disk.empty "log" { MaxIndexSize := 3, InitialOffset := 10 })
      (List.replicate 6 { Value := [1], Offset := 0 })).1.r.segments.filterMap
        (fun id => ((appendAll plainCodec
          (NewRecorder Disk.empty "log" { MaxIndexSize := 3, InitialOffset := 10 })
          (List.replicate 6 { Value := [1], Offset := 0 })).1.heap[id]?).map
          segmenter.BaseOffset) =
      (List.range (2 + 1)).map (fun j => 10 + j * 3) :=
  ⟨by decide, by decide, by decide,
    C8_rollover plainCodec "log" { MaxIndexSize := 3, InitialOffset := 10 }
      (List.replicate 6 { Value := [1], Offset := 0 }) (by decide) (by decide) 2 0 (by decide)
      (by decide)⟩

/-- Counterexample to C8 as stated: capacity 1, initial offset `2 ^ 64 - 1`, one append
(`k = 1`, `r = 0`). The log holds two segments, not one, and the second base offset
is 0, not `b + N`. Without any overflow (capacity 3, initial offset 0, three appends,
`k = 1`, `r = 0`) the log holds two segments as well, with base offsets 0 and 3. -/
theorem C8_counterexample :
    ((appendAll plainCodec
        (NewRecorder Disk.empty "log" { MaxIndexSize := 1, InitialOffset := 2 ^ 64 - 1 })
        [{ Value := [1], Offset := 0 }]).2.filterMap Except.toOption).length = 1 * 1 + 0 ∧
    (freshLog plainCodec { MaxIndexSize := 1, InitialOffset := 2 ^ 64 - 1 }
        [{ Value := [1], Offset := 0 }]).r.segments.length = 2 ∧
    (freshLog plainCodec { MaxIndexSize := 1, InitialOffset := 2 ^ 64 - 1 }
        [{ Value := [1], Offset := 0 }]).heap.map segmenter.BaseOffset = [2 ^ 64 - 1, 0] ∧
    (freshLog plainCodec { MaxIndexSize := 3, InitialOffset := 0 }
        (List.replicate 3 { Value := [1], Offset := 0 })).r.segments.length = 2 ∧
    (freshLog plainCodec { MaxIndexSize := 3, InitialOffset := 0 }
        (List.replicate 3 { Value := [1], Offset := 0 })).heap.map segmenter.BaseOffset
      = [0, 3] := by
  decide

/-- C9 (the code at the failing input): capacity 1, initial offset 0, two appends.
The log holds the segments 0 (never closed), 1 (closed when segment 2 was created) and
2; reading `Reader()` to the end fails at segment 1, whose filer file is closed:
`Reader` does not reopen the filer of a closed segment as `segmenter.Read` does. After
one append (no closed segment) the stream is the single frame, and parsing it gives
back the serialized record. -/
theorem C9_reader_diverges :
    (recorder.ReadAll 8 (freshLog plainCodec { MaxIndexSize := 1, InitialOffset := 0 }
        [{ Value := [104], Offset := 0 }, { Value := [105], Offset := 0 }])).2
      = some (.error .FileError) ∧
    (freshLog plainCodec { MaxIndexSize := 1, InitialOffset := 0 }
        [{ Value := [104], Offset := 0 }, { Value := [105], Offset := 0 }]).heap.map
          segmenter.Closed = [false, true, false] ∧
    (recorder.ReadAll 8 (freshLog plainCodec { MaxIndexSize := 1, InitialOffset := 0 }
        [{ Value := [104], Offset := 0 }])).2
      = some (.ok (frames [plainCodec.marshal { Value := [104], Offset := 0 }])) ∧
    parseFrames 1 (frames [plainCodec.marshal { Value := [104], Offset := 0 }])
      = some [plainCodec.marshal { Value := [104], Offset := 0 }] := by
  decide

theorem framesSize_snoc (ps : List Bytes) (p : Bytes) :
    framesSize (ps ++ [p]) = framesSize ps + (8 + p.length) := by
  simp [framesSize]

theorem frames_length (ps : List Bytes) : (frames ps).length = framesSize ps := by
  induction ps with
  | nil => rfl
  | cons q ps ih =>
    have hq : framesSize (q :: ps) = (8 + q.length) + framesSize ps := by
      simp only [framesSize, List.map_cons, List.sum_cons]
    rw [hq, ← ih]
    simp only [frames, List.length_append, putUint64_length]

theorem filerAppendAll_open (ps : List Bytes) :
    ∀ (d : Disk) (f : filer) (c : Bytes), OpenFiler d f c → f.size = c.length →
      ∃ d' f' outs, filerAppendAll d f ps = (d', f', outs) ∧
        OpenFiler d' f' (c ++ frames ps) ∧ f'.size = c.length + framesSize ps ∧
        f'.name = f.name ∧
        ∀ (i : Nat) (p : Bytes), ps[i]? = some p →
          outs[i]? = some (Except.ok (8 + p.length, c.length + framesSize (ps.take i))) := by
  induction ps with
  | nil =>
    intro d f c ho hs
    exact ⟨d, f, [], rfl, by simpa [frames] using ho, by simpa [framesSize] using hs, rfl,
      fun i p hp => by simp at hp⟩
  | cons q ps ih =>
    intro d f c ho hs
    obtain ⟨d1, f1, ha, ho1, hn1, hs1, _⟩ := filer.Append_open q ho
    have hs1' : f1.size = (c ++ (putUint64 (q.length % 2 ^ 64) ++ q)).length := by
      rw [hs1, hs, List.length_append, frame_length]
    obtain ⟨d2, f2, outs, hr, ho2, hs2, hn2, hout⟩ := ih d1 f1 _ ho1 hs1'
    refine ⟨d2, f2, .ok (q.length + 8, f.size) :: outs, ?_, ?_, ?_, hn2.trans hn1, ?_⟩
    · simp only [filerAppendAll, ha, hr]
    · simpa [frames, List.append_assoc] using ho2
    · rw [hs2, List.length_append, frame_length]
      simp only [framesSize, List.map_cons, List.sum_cons]
      omega
    · intro i p hp
      cases i with
      | zero =>
        simp only [List.getElem?_cons_zero, Option.some.injEq] at hp
        subst hp
        simp [framesSize, hs, Nat.add_comm]
      | succ i =>
        simp only [List.getElem?_cons_succ] at hp
        rw [List.getElem?_cons_succ, hout i p hp, List.length_append, frame_length]
        simp only [framesSize, List.take_succ_cons, List.map_cons, List.sum_cons]
        congr 3
        omega

/-- C10: for every list of payloads appended in order to an empty filer, the `i`-th
`Append` succeeds and returns `n_i = 8 + len(p_i)` bytes written and the position
`pos_i`, the sum of `8 + len(p_j)` over `j < i`; the cached size after the `i`-th
append is `pos_i + n_i`; and the cached size is the number of bytes written, those
flushed to the file plus those still in the buffer. -/
theorem C10_filer_positions (d : Disk) (name : Nat) (ps : List Bytes) :
    (∀ (i : Nat) (p : Bytes), ps[i]? = some p →
      (filerAppendAll (createFiler d name).1 (createFiler d name).2 ps).2.2[i]? =
        some (Except.ok (8 + p.length, framesSize (ps.take i))) ∧
      (filerAppendAll (createFiler d name).1 (createFiler d name).2 (ps.take (i + 1))).2.1.size =
        framesSize (ps.take i) + (8 + p.length)) ∧
    (filerAppendAll (createFiler d name).1 (createFiler d name).2 ps).2.1.size =
      framesSize ps ∧
    (filerAppendAll (createFiler d name).1 (createFiler d name).2 ps).2.1.size =
      ((tget name (filerAppendAll (createFiler d name).1 (createFiler d name).2 ps).1.filers).getD []
        ++ (filerAppendAll (createFiler d name).1 (createFiler d name).2 ps).2.1.buf).length := by
  have hopen : OpenFiler (createFiler d name).1 (createFiler d name).2 [] :=
    ⟨rfl, rfl, [], tget_tput_same _ _ _, rfl⟩
  have hsize : (createFiler d name).2.size = ([] : Bytes).length := by
    simp [createFiler, newFiler, tget_tput_same]
  have hname : (createFiler d name).2.name = name := rfl
  refine ⟨fun i p hp => ⟨?_, ?_⟩, ?_, ?_⟩
  · obtain ⟨d', f', outs, hr, _, _, _, hout⟩ := filerAppendAll_open ps _ _ _ hopen hsize
    rw [hr]
    simpa using hout i p hp
  · obtain ⟨d', f', outs, hr, _, hs, _, _⟩ :=
      filerAppendAll_open (ps.take (i + 1)) _ _ _ hopen hsize
    rw [hr]
    have hi : i < ps.length := by
      by_contra hc
      rw [List.getElem?_eq_none (by omega)] at hp
      cases hp
    have ht : ps.take (i + 1) = ps.take i ++ [p] := by
      rw [List.take_succ, hp]
      rfl
    simp only [hs, List.length_nil, Nat.zero_add, ht, framesSize_snoc]
  · obtain ⟨d', f', outs, hr, _, hs, _, _⟩ := filerAppendAll_open ps _ _ _ hopen hsize
    rw [hr]
    simpa using hs
  · obtain ⟨d', f', outs, hr, ho, hs, hn, _⟩ := filerAppendAll_open ps _ _ _ hopen hsize
    rw [hr]
    obtain ⟨_, _, x, hx, hc⟩ := ho
    rw [hn, hname] at hx
    simp only [hx, Option.getD_some, hc, hs, List.nil_append, frames_length, List.length_nil,
      Nat.zero_add]

theorem Truncate_ok_inv (st : State) (lowest : Nat)
    (hok : (recorder.Truncate st lowest).2 = .ok ()) :
    ∃ d1 heap1 segs, recorder.truncateLoop lowest st.disk st.heap [] st.r.segments
        = (d1, heap1, .ok segs) ∧
      recorder.Truncate st lowest =
        ({ disk := d1, heap := heap1, r := { st.r with segments := segs } }, .ok ()) := by
  rcases hl : recorder.truncateLoop lowest st.disk st.heap [] st.r.segments with ⟨d1, heap1, res⟩
  cases res with
  | error e =>
    simp only [recorder.Truncate, hl] at hok
    cases hok
  | ok segs =>
    refine ⟨d1, heap1, segs, rfl, ?_⟩
    simp only [recorder.Truncate, hl]

/-- C7: for every `lowest < 2 ^ 64 - 1` and every log state whose segments own distinct
files, a successful `Truncate(lowest)` leaves the segment list equal to the previous
list with exactly the segments satisfying `next_offset ≤ lowest + 1` removed (the
others in their order), and every surviving segment is unchanged: the same segment
value (base offset, next offset, index, filer) and the same two files on disk. -/
theorem C7_truncate_frame (st : State) (lowest : Nat) (hlow : lowest < 2 ^ 64 - 1)
    (hdis : FilesDisjoint st) (hok : (recorder.Truncate st lowest).2 = .ok ()) :
    (recorder.Truncate st lowest).1.r.segments =
        st.r.segments.filter (fun id =>
          match st.heap[id]? with
          | some s => decide (¬ s.NextOffset ≤ lowest + 1)
          | none => false) ∧
      ∀ id ∈ (recorder.Truncate st lowest).1.r.segments,
        ∃ s, st.heap[id]? = some s ∧ (recorder.Truncate st lowest).1.heap[id]? = some s ∧
          tget s.filer.name (recorder.Truncate st lowest).1.disk.filers =
            tget s.filer.name st.disk.filers ∧
          tget s.indexer.name (recorder.Truncate st lowest).1.disk.indexes =
            tget s.indexer.name st.disk.indexes := by
  obtain ⟨d1, heap1, segs, hl, hres⟩ := Truncate_ok_inv st lowest hok
  obtain ⟨i1, _, i3, i4, i5⟩ := truncateLoop_ok lowest _ _ _ _ _ _ _ hl
  have hmod : (lowest + 1) % 2 ^ 64 = lowest + 1 := Nat.mod_eq_of_lt (by omega)
  rw [List.nil_append] at i1
  rw [hres]
  simp only
  have hmem : ∀ id, id ∈ segs ↔ id ∈ st.r.segments ∧
      ∃ s, st.heap[id]? = some s ∧ ¬ s.nextOffset ≤ (lowest + 1) % 2 ^ 64 := by
    intro id
    rw [i1, List.mem_filter]
    refine and_congr_right fun _ => ?_
    unfold recorder.survives
    cases hs : st.heap[id]? with
    | none => simp
    | some s => simp [segmenter.NextOffset]
  refine ⟨?_, ?_⟩
  · rw [i1]
    refine List.filter_congr fun id _ => ?_
    unfold recorder.survives
    cases hs : st.heap[id]? with
    | none => rfl
    | some s =>
      simp only [hmod]
      by_cases hc : s.NextOffset ≤ lowest + 1 <;> simp [hc]
  · intro id hid
    obtain ⟨hin, s, hs, hsv⟩ := (hmem id).1 hid
    obtain ⟨s', hs', _, _, _, heq⟩ := i3 id s hs
    rw [heq hsv] at hs'
    have hsmem : s ∈ st.r.segments.filterMap (fun id => st.heap[id]?) :=
      List.mem_filterMap.2 ⟨id, hin, hs⟩
    have hsym : Symmetric (fun x y : segmenter =>
        x.filer.name ≠ y.filer.name ∧ x.indexer.name ≠ y.indexer.name) :=
      fun x y h => ⟨Ne.symm h.1, Ne.symm h.2⟩
    have hne : ∀ id0 ∈ st.r.segments, ∀ s0, st.heap[id0]? = some s0 →
        s0.nextOffset ≤ (lowest + 1) % 2 ^ 64 →
        s0.filer.name ≠ s.filer.name ∧ s0.indexer.name ≠ s.indexer.name := by
      intro id0 hid0 s0 hs0 hrm0
      have hs0mem : s0 ∈ st.r.segments.filterMap (fun id => st.heap[id]?) :=
        List.mem_filterMap.2 ⟨id0, hid0, hs0⟩
      have hdiff : s0 ≠ s := fun h => hsv (h ▸ hrm0)
      exact List.Pairwise.forall hsym hdis hs0mem hsmem hdiff
    exact ⟨s, hs, hs',
      i4 _ fun id0 hid0 s0 hs0 hrm0 => (hne id0 hid0 s0 hs0 hrm0).1,
      i5 _ fun id0 hid0 s0 hs0 hrm0 => (hne id0 hid0 s0 hs0 hrm0).2⟩

/-- Witness of C7: capacity 3, initial offset 0, four appends, `Truncate(2)`. -/
theorem C7_truncate_frame_witness :
    2 < 2 ^ 64 - 1 ∧
    FilesDisjoint (freshLog plainCodec { MaxIndexSize := 3, InitialOffset := 0 }
      (List.replicate 4 { Value := [1], Offset := 0 })) ∧
    (recorder.Truncate (freshLog plainCodec { MaxIndexSize := 3, InitialOffset := 0 }
      (List.replicate 4 { Value := [1], Offset := 0 })) 2).2 = .ok () ∧
    (recorder.Truncate (freshLog plainCodec { MaxIndexSize := 3, InitialOffset := 0 }
      (List.replicate 4 { Value := [1], Offset := 0 })) 2).1.r.segments =
        (freshLog plainCodec { MaxIndexSize := 3, InitialOffset := 0 }
          (List.replicate 4 { Value := [1], Offset := 0 })).r.segments.filter (fun id =>
          match (freshLog plainCodec { MaxIndexSize := 3, InitialOffset := 0 }
            (List.replicate 4 { Value := [1], Offset := 0 })).heap[id]? with
          | some s => decide (¬ s.NextOffset ≤ 2 + 1)
          | none => false) :=
  ⟨by decide, by decide, by decide,
    (C7_truncate_frame (freshLog plainCodec { MaxIndexSize := 3, InitialOffset := 0 }
      (List.replicate 4 { Value := [1], Offset := 0 })) 2 (by decide) (by decide)
      (by decide)).1⟩

/-! ## `Truncate` on a log built by appends -/

theorem segmenter.Remove_closed {cd : Codec} {cfg : Config} {recs : List Record} {d : Disk}
    {s : segmenter} {lo hi : Nat} (h : SegInv cd cfg recs d s lo hi) (hc : s.closed = true) :
    (s.Remove d).2.2 = .ok () := by
  obtain ⟨c, hcont, _⟩ := h.content
  unfold SegContent at hcont
  rw [if_pos hc] at hcont
  have hi := h.ifile
  rw [← h.iname] at hi
  cases hx : tget s.indexer.name d.indexes with
  | none => exact absurd hx hi
  | some v => simp only [segmenter.Remove, segmenter.Closed, hc, if_true, hx, hcont]

theorem segmenter.Remove_inv {cd : Codec} {cfg : Config} {recs : List Record} {d : Disk}
    {s : segmenter} {lo hi : Nat} (h : SegInv cd cfg recs d s lo hi) :
    (s.Remove d).2.2 = .ok () := by
  by_cases hc : s.closed = true
  · exact segmenter.Remove_closed h hc
  · obtain ⟨d1, s1, hcl, hs1, hc1, _, _⟩ := segmenter.Close_inv h (by simpa using hc)
    obtain ⟨c, hcont, _⟩ := hs1.content
    unfold SegContent at hcont
    rw [if_pos hc1] at hcont
    have hi := hs1.ifile
    rw [← hs1.iname] at hi
    cases hx : tget s1.indexer.name d1.indexes with
    | none => exact absurd hx hi
    | some v =>
      simp only [segmenter.Remove, segmenter.Closed, hc, Bool.false_eq_true, if_false, hcl, hx,
        hcont]

theorem truncateLoop_succeeds {cd : Codec} {cfg : Config} {recs : List Record} (lowest : Nat) :
    ∀ (ids : List Nat) (d : Disk) (heap : List segmenter) (acc : List Nat),
      ids.Nodup →
      (∀ id ∈ ids, ∃ s lo hi, heap[id]? = some s ∧ SegInv cd cfg recs d s lo hi) →
      (∀ id ∈ ids, ∀ id' ∈ ids, id ≠ id' → ∀ s s', heap[id]? = some s → heap[id']? = some s' →
        s.baseOffset ≠ s'.baseOffset) →
      ∃ segs, (recorder.truncateLoop lowest d heap acc ids).2.2 = .ok segs := by
  intro ids
  induction ids with
  | nil =>
    intro d heap acc _ _ _
    exact ⟨acc, rfl⟩
  | cons id rest ih =>
    intro d heap acc hnd hinv hbase
    obtain ⟨s, lo, hi, hs, hsi⟩ := hinv id (List.mem_cons_self _ _)
    have hnd' := (List.nodup_cons.1 hnd)
    by_cases hrm : s.nextOffset ≤ (lowest + 1) % 2 ^ 64
    · have hok := segmenter.Remove_inv hsi
      have hfr := segmenter.Remove_frame d s
      rcases hre : s.Remove d with ⟨d1, s1, res⟩
      rw [hre] at hok hfr
      simp only at hok
      subst hok
      obtain ⟨_, _, _, _, f5, f6⟩ := hfr
      simp only at f5 f6
      have hrest := ih d1 (heap.set id s1) acc hnd'.2 ?_ ?_
      · simp only [recorder.truncateLoop, hs, segmenter.NextOffset, hrm, if_true, hre]
        exact hrest
      · intro id' hid'
        have hne : id ≠ id' := fun h => hnd'.1 (h ▸ hid')
        obtain ⟨s', lo', hi', hs', hsi'⟩ := hinv id' (List.mem_cons_of_mem _ hid')
        refine ⟨s', lo', hi', by rw [List.getElem?_set_ne hne]; exact hs', hsi'.agree ?_⟩
        have hb := hbase id (List.mem_cons_self _ _) id' (List.mem_cons_of_mem _ hid') hne
          s s' hs hs'
        exact ⟨f5 _ (by rw [hsi.fname]; exact Ne.symm hb),
          f6 _ (by rw [hsi.iname]; exact Ne.symm hb)⟩
      · intro a ha a' ha' hne sa sa' hsa hsa'
        have hne1 : id ≠ a := fun h => hnd'.1 (h ▸ ha)
        have hne2 : id ≠ a' := fun h => hnd'.1 (h ▸ ha')
        rw [List.getElem?_set_ne hne1] at hsa
        rw [List.getElem?_set_ne hne2] at hsa'
        exact hbase a (List.mem_cons_of_mem _ ha) a' (List.mem_cons_of_mem _ ha') hne sa sa'
          hsa hsa'
    · have hrest := ih d heap (acc ++ [id]) hnd'.2
        (fun id' hid' => hinv id' (List.mem_cons_of_mem _ hid'))
        (fun a ha a' ha' => hbase a (List.mem_cons_of_mem _ ha) a' (List.mem_cons_of_mem _ ha'))
      simp only [recorder.truncateLoop, hs, segmenter.NextOffset, hrm, if_false]
      exact hrest

theorem LogPre.base_ne {cd : Codec} {cfg : Config} {recs : List Record} {st : State}
    (h : LogPre cd cfg recs st) {j j' : Nat} {s s' : segmenter}
    (hs : st.heap[j]? = some s) (hs' : st.heap[j']? = some s') (hne : j ≠ j') :
    s.baseOffset ≠ s'.baseOffset := by
  rw [(h.seg j s hs).base, (h.seg j' s' hs').base]
  have hnp := h.npos
  rcases Nat.lt_or_gt_of_ne hne with hlt | hlt
  · have hm : (j + 1) * cfg.MaxIndexSize ≤ j' * cfg.MaxIndexSize :=
      Nat.mul_le_mul_right _ (by omega)
    have hj : (j + 1) * cfg.MaxIndexSize = j * cfg.MaxIndexSize + cfg.MaxIndexSize :=
      Nat.succ_mul _ _
    omega
  · have hm : (j' + 1) * cfg.MaxIndexSize ≤ j * cfg.MaxIndexSize :=
      Nat.mul_le_mul_right _ (by omega)
    have hj : (j' + 1) * cfg.MaxIndexSize = j' * cfg.MaxIndexSize + cfg.MaxIndexSize :=
      Nat.succ_mul _ _
    omega

theorem LogPre.truncate_ok {cd : Codec} {cfg : Config} {recs : List Record} {st : State}
    (h : LogPre cd cfg recs st) (lowest : Nat) :
    (recorder.Truncate st lowest).2 = .ok () := by
  obtain ⟨segs, hsegs⟩ := @truncateLoop_succeeds cd cfg recs lowest
    st.r.segments st.disk st.heap [] (by rw [h.segs]; exact List.nodup_range _)
    (fun id hid => by
      rw [h.segs] at hid
      have hl := List.mem_range.1 hid
      exact ⟨_, _, _, List.getElem?_eq_getElem hl, h.seg id _ (List.getElem?_eq_getElem hl)⟩)
    (fun id _ id' _ hne s s' hs hs' => h.base_ne hs hs' hne)
  rcases hl : recorder.truncateLoop lowest st.disk st.heap [] st.r.segments with ⟨d1, heap1, res⟩
  rw [hl] at hsegs
  simp only at hsegs
  subst hsegs
  simp only [recorder.Truncate, hl]

theorem LogPre.truncate_read {cd : Codec} {cfg : Config} {recs : List Record} {st : State}
    (h : LogPre cd cfg recs st) (hcd : cd.Lawful) (lowest : Nat) (i : Nat) (r : Record)
    (h3 : recs[i]? = some r) (hv : r.Value.length < 2 ^ 63) :
    ∃ s, st.heap[i / cfg.MaxIndexSize]? = some s ∧ i / cfg.MaxIndexSize ∈ st.r.segments ∧
      s.baseOffset ≤ cfg.InitialOffset + i ∧ cfg.InitialOffset + i < s.nextOffset ∧
      (s.nextOffset ≤ (lowest + 1) % 2 ^ 64 →
        (recorder.Read cd (recorder.Truncate st lowest).1 (cfg.InitialOffset + i)).2 =
          .error (.OffsetOutOfRange (cfg.InitialOffset + i))) ∧
      (¬ s.nextOffset ≤ (lowest + 1) % 2 ^ 64 →
        (recorder.Read cd (recorder.Truncate st lowest).1 (cfg.InitialOffset + i)).2 =
          .ok { r with Offset := cfg.InitialOffset + i }) := by
  have hi : i < recs.length := by
    by_contra hc
    rw [List.getElem?_eq_none (by omega)] at h3
    cases h3
  obtain ⟨s, hs, hmem, h1, h2⟩ := h.owner i hi
  have hinv := h.seg _ s hs
  have hb := h.bound
  have hin : s.baseOffset ≤ cfg.InitialOffset + i ∧ cfg.InitialOffset + i < s.nextOffset := by
    rw [hinv.base, hinv.next]
    omega
  obtain ⟨d1, heap1, segs, hl, hres⟩ := Truncate_ok_inv st lowest (h.truncate_ok lowest)
  obtain ⟨i1, _, i3, i4, i5⟩ := truncateLoop_ok lowest _ _ _ _ _ _ _ hl
  rw [List.nil_append] at i1
  have hmemS : ∀ id, id ∈ segs ↔ id ∈ st.r.segments ∧
      ∃ s, st.heap[id]? = some s ∧ ¬ s.nextOffset ≤ (lowest + 1) % 2 ^ 64 := by
    intro id
    rw [i1, List.mem_filter]
    refine and_congr_right fun _ => ?_
    unfold recorder.survives
    cases hs : st.heap[id]? with
    | none => simp
    | some s => simp [segmenter.NextOffset]
  have hsame : ∀ id ∈ segs, ∀ s', heap1[id]? = some s' → st.heap[id]? = some s' := by
    intro id hid s' hs'
    obtain ⟨_, s0, hs0, hsv0⟩ := (hmemS id).1 hid
    obtain ⟨s1, hs1, _, _, _, heq⟩ := i3 id s0 hs0
    rw [heq hsv0, hs'] at hs1
    rw [hs0]
    exact hs1.symm
  refine ⟨s, hs, hmem, hin.1, hin.2, fun hrm => ?_, fun hsv => ?_⟩
  · rw [hres]
    have := Read_none cd
      { disk := d1, heap := heap1, r := { st.r with segments := segs } }
      (cfg.InitialOffset + i) (by
        intro id hid s' hs' hin'
        have hs0 := hsame id hid s' hs'
        have hij := h.disjoint hs hs0 hin hin'
        subst hij
        obtain ⟨_, s0, hs0', hsv0⟩ := (hmemS _).1 hid
        rw [hs] at hs0'
        cases hs0'
        exact hsv0 hrm)
    rw [this]
  · rw [hres]
    obtain ⟨s1, hs1, _, _, _, heq⟩ := i3 _ s hs
    rw [heq hsv] at hs1
    have hne : ∀ id0 ∈ st.r.segments, ∀ s0, st.heap[id0]? = some s0 →
        s0.nextOffset ≤ (lowest + 1) % 2 ^ 64 → s0.baseOffset ≠ s.baseOffset := by
      intro id0 _ s0 hs0 hrm0
      refine h.base_ne hs0 hs fun he => ?_
      subst he
      rw [hs] at hs0
      cases hs0
      exact hsv hrm0
    have hinv1 : SegInv cd cfg recs d1 s (i / cfg.MaxIndexSize * cfg.MaxIndexSize)
        (min ((i / cfg.MaxIndexSize + 1) * cfg.MaxIndexSize) recs.length) := by
      refine hinv.agree ⟨?_, ?_⟩
      · rw [← hinv.fname]
        exact i4 _ fun id0 hid0 s0 hs0 hrm0 => by
          rw [(h.seg id0 s0 hs0).fname, hinv.fname]
          exact hne id0 hid0 s0 hs0 hrm0
      · rw [← hinv.iname]
        exact i5 _ fun id0 hid0 s0 hs0 hrm0 => by
          rw [(h.seg id0 s0 hs0).iname, hinv.iname]
          exact hne id0 hid0 s0 hs0 hrm0
    refine @Read_owner cd cfg recs
      { disk := d1, heap := heap1, r := { st.r with segments := segs } } s _ _
      hcd (i / cfg.MaxIndexSize) ((hmemS _).2 ⟨hmem, s, hs, hsv⟩) hs1 hinv1 i r h1 h2 h3 hv
      (by have := Nat.min_le_right ((i / cfg.MaxIndexSize + 1) * cfg.MaxIndexSize) recs.length
          omega) ?_
    intro id hid s' hs' hin'
    exact h.disjoint hs (hsame id hid s' hs') hin hin'

/-- C6 (amended): for a log built from fresh by appends without offset overflow (`b`
plus the number of `Append` calls below `2 ^ 64`) and every `L < 2 ^ 64 - 1`,
`Truncate(L)` succeeds, and afterwards, for every offset `o` returned by one of the
appends: the offset has an owning segment; if that segment had `next_offset ≤ L + 1`
then `Read(o)` fails with the offset-out-of-range error; otherwise `Read(o)` succeeds
and returns the same record as before the truncation. -/
theorem C6_truncate_reads (cd : Codec) (hcd : cd.Lawful) (dir : String) (cfg : Config)
    (rs : List Record) (hN : 1 ≤ cfg.MaxIndexSize)
    (hb : cfg.InitialOffset + rs.length < 2 ^ 64)
    (hv : ∀ r ∈ rs, r.Value.length < 2 ^ 63) (L : Nat) (hL : L < 2 ^ 64 - 1) :
    (recorder.Truncate (appendAll cd (NewRecorder Disk.empty dir cfg) rs).1 L).2 = .ok () ∧
    ∀ (i off : Nat), (appendAll cd (NewRecorder Disk.empty dir cfg) rs).2[i]? = some (.ok off) →
      ∃ id s, id ∈ (appendAll cd (NewRecorder Disk.empty dir cfg) rs).1.r.segments ∧
        (appendAll cd (NewRecorder Disk.empty dir cfg) rs).1.heap[id]? = some s ∧
        s.BaseOffset ≤ off ∧ off < s.NextOffset ∧
        (s.NextOffset ≤ L + 1 →
          (recorder.Read cd
            (recorder.Truncate (appendAll cd (NewRecorder Disk.empty dir cfg) rs).1 L).1 off).2
            = .error (.OffsetOutOfRange off)) ∧
        (¬ s.NextOffset ≤ L + 1 →
          (recorder.Read cd
            (recorder.Truncate (appendAll cd (NewRecorder Disk.empty dir cfg) rs).1 L).1 off).2
            = (recorder.Read cd (appendAll cd (NewRecorder Disk.empty dir cfg) rs).1 off).2 ∧
          ∃ r, rs[i]? = some r ∧
            (recorder.Read cd (appendAll cd (NewRecorder Disk.empty dir cfg) rs).1 off).2
              = .ok { Value := r.Value, Offset := off }) := by
  have h0 := NewRecorder_inv cd dir cfg hN (by omega)
  obtain ⟨m, hm, h2, h3⟩ := appendAll_inv rs [] _ h0 (by simpa using hb)
  rw [List.nil_append] at h2
  have hmod : (L + 1) % 2 ^ 64 = L + 1 := Nat.mod_eq_of_lt (by omega)
  refine ⟨h2.1.truncate_ok L, fun i off hi => ?_⟩
  rw [h3] at hi
  have him : i < m := by
    by_contra hc
    rw [List.getElem?_append_right (by simpa using hc)] at hi
    simp only [List.length_map, List.length_range] at hi
    by_cases hlt : i - m < rs.length - m
    · rw [List.getElem?_eq_getElem (by simpa using hlt)] at hi
      simp at hi
    · rw [List.getElem?_eq_none (by simpa using hlt)] at hi
      cases hi
  rw [List.getElem?_append_left (by simpa using him),
    List.getElem?_eq_getElem (by simpa using him)] at hi
  simp only [List.getElem_map, List.getElem_range, List.length_nil, Nat.add_zero,
    Option.some.injEq, Except.ok.injEq] at hi
  subst hi
  have hir : i < rs.length := by omega
  have hr : (List.take m rs)[i]? = some rs[i] := by
    rw [List.getElem?_take_of_lt him, List.getElem?_eq_getElem hir]
  have hvr := hv rs[i] (List.getElem_mem _)
  obtain ⟨s, hs, hmem, hb1, hb2, hrm, hsv⟩ := h2.1.truncate_read hcd L i rs[i] hr hvr
  rw [hmod] at hrm hsv
  refine ⟨_, s, hmem, hs, hb1, hb2, hrm, fun hn => ?_⟩
  have hbefore := h2.1.read hcd i rs[i] hr hvr
  exact ⟨by rw [hsv hn, hbefore], rs[i], List.getElem?_eq_getElem hir, hbefore⟩

/-- Witness of C6: capacity 3, initial offset 0, four appends, `Truncate(2)`: the
truncation succeeds, `Read(0)` is then out of range and `Read(3)` still returns the
fourth record. -/
theorem C6_truncate_reads_witness :
    plainCodec.Lawful ∧ 1 ≤ 3 ∧ 0 + 4 < 2 ^ 64 ∧ 2 < 2 ^ 64 - 1 ∧
    (recorder.Truncate (appendAll plainCodec
      (NewRecorder Disk.empty "log" { MaxIndexSize := 3, InitialOffset := 0 })
      (List.replicate 4 { Value := [1], Offset := 0 })).1 2).2 = .ok () ∧
    (recorder.Read plainCodec (recorder.Truncate (appendAll plainCodec
      (NewRecorder Disk.empty "log" { MaxIndexSize := 3, InitialOffset := 0 })
      (List.replicate 4 { Value := [1], Offset := 0 })).1 2).1 0).2
        = .error (.OffsetOutOfRange 0) ∧
    (recorder.Read plainCodec (recorder.Truncate (appendAll plainCodec
      (NewRecorder Disk.empty "log" { MaxIndexSize := 3, InitialOffset := 0 })
      (List.replicate 4 { Value := [1], Offset := 0 })).1 2).1 3).2
        = .ok { Value := [1], Offset := 3 } :=
  ⟨plainCodec_lawful, by decide, by decide, by decide,
    (C6_truncate_reads plainCodec plainCodec_lawful "log" { MaxIndexSize := 3, InitialOffset := 0 }
      (List.replicate 4 { Value := [1], Offset := 0 }) (by decide) (by decide) (by decide) 2
      (by decide)).1, by decide, by decide⟩

/-- Counterexample to C6 as stated: initial offset `2 ^ 64 - 1`, capacity 5, four appends,
which return the offsets `2 ^ 64 - 1`, 0, 1 and 2 (offsets are `uint64` and wrap) into
the one segment with base offset `2 ^ 64 - 1` and `next_offset = 3`. `Truncate(0)`
succeeds and removes nothing, since `3 > 0 + 1`; the segment that owns offset 1 has
`next_offset > L + 1`, yet `Read(1)` fails with the offset-out-of-range error (as it
does before the truncation): no segment has `base_offset ≤ 1 < next_offset`. -/
theorem C6_counterexample :
    (appendAll plainCodec
      (NewRecorder Disk.empty "log" { MaxIndexSize := 5, InitialOffset := 2 ^ 64 - 1 })
      (List.replicate 4 { Value := [1], Offset := 0 })).2 =
      [.ok (2 ^ 64 - 1), .ok 0, .ok 1, .ok 2] ∧
    (freshLog plainCodec { MaxIndexSize := 5, InitialOffset := 2 ^ 64 - 1 }
      (List.replicate 4 { Value := [1], Offset := 0 })).heap.map
        (fun s => (s.BaseOffset, s.NextOffset)) = [(2 ^ 64 - 1, 3)] ∧
    (recorder.Truncate (freshLog plainCodec { MaxIndexSize := 5, InitialOffset := 2 ^ 64 - 1 }
      (List.replicate 4 { Value := [1], Offset := 0 })) 0).2 = .ok () ∧
    (recorder.Truncate (freshLog plainCodec { MaxIndexSize := 5, InitialOffset := 2 ^ 64 - 1 }
      (List.replicate 4 { Value := [1], Offset := 0 })) 0).1.r.segments = [0] ∧
    ¬ (3 ≤ 0 + 1) ∧
    (recorder.Read plainCodec
      (recorder.Truncate (freshLog plainCodec { MaxIndexSize := 5, InitialOffset := 2 ^ 64 - 1 }
        (List.replicate 4 { Value := [1], Offset := 0 })) 0).1 1).2
        = .error (.OffsetOutOfRange 1) ∧
    (recorder.Read plainCodec
      (freshLog plainCodec { MaxIndexSize := 5, InitialOffset := 2 ^ 64 - 1 }
        (List.replicate 4 { Value := [1], Offset := 0 })) 1).2
        = .error (.OffsetOutOfRange 1) := by
  decide

/-! ## The filer round trip -/

theorem frames_append (ps qs : List Bytes) : frames (ps ++ qs) = frames ps ++ frames qs := by
  induction ps with
  | nil => rfl
  | cons p ps ih =>
    show putUint64 (p.length % 2 ^ 64) ++ p ++ frames (ps ++ qs) =
      putUint64 (p.length % 2 ^ 64) ++ p ++ frames ps ++ frames qs
    rw [ih, List.append_assoc (putUint64 (p.length % 2 ^ 64) ++ p)]

theorem frames_hasFrame (ps : List Bytes) (i : Nat) (p : Bytes) (hi : ps[i]? = some p) :
    HasFrame (frames ps) (framesSize (ps.take i)) p := by
  have hlt : i < ps.length := by
    by_contra hc
    rw [List.getElem?_eq_none (by omega)] at hi
    cases hi
  have hsplit : ps = ps.take i ++ p :: ps.drop (i + 1) := by
    have h1 : ps.drop i = p :: ps.drop (i + 1) := by
      rw [List.drop_eq_getElem_cons hlt]
      congr 1
      rw [List.getElem?_eq_getElem hlt] at hi
      exact Option.some.inj hi
    rw [← h1, List.take_append_drop]
  refine ⟨frames (ps.take i), frames (ps.drop (i + 1)), ?_, frames_length _⟩
  conv_lhs => rw [hsplit]
  rw [frames_append]
  simp only [frames, List.append_assoc]

theorem HasFrame.decode {c p : Bytes} {pos : Nat} (hf : HasFrame c pos p)
    (hp : p.length < 2 ^ 64) :
    getUint64 ((c.drop pos).take 8) = p.length ∧ (c.drop (pos + 8)).take p.length = p := by
  obtain ⟨pre, post, hce, hpre⟩ := hf
  have hd1 : c.drop pos = putUint64 (p.length % 2 ^ 64) ++ (p ++ post) := by
    rw [hce, ← hpre]
    simp [List.append_assoc]
  have hd2 : c.drop (pos + 8) = p ++ post := by
    rw [← List.drop_drop, hd1]
    exact List.drop_left' (putUint64_length _)
  constructor
  · rw [hd1, List.take_left' (putUint64_length _), getUint64_putUint64, Nat.mod_mod,
      Nat.mod_eq_of_lt hp]
  · rw [hd2]
    exact List.take_left' rfl

/-- C11: for every list of payloads (Go byte slices, so each shorter than `2 ^ 63`
bytes) appended in order to an empty filer, and every `i`, the `i`-th `Append` returns a
position `pos_i` and `Read(pos_i)` on the filer after all the appends succeeds and
returns exactly the `i`-th payload, whether or not further payloads were appended after
it and whether or not the bytes were still in the write buffer; after the read the
buffer is empty, the file holds the frames of all payloads, its eight bytes at `pos_i`
decode big-endian to `len(p_i)` and the payload is the `len(p_i)` bytes at
`pos_i + 8`. -/
theorem C11_filer_round_trip (d : Disk) (name : Nat) (ps : List Bytes)
    (hp : ∀ p ∈ ps, p.length < 2 ^ 63) (i : Nat) (p : Bytes) (hi : ps[i]? = some p) :
    ∃ (pos : Nat) (d1 : Disk) (f1 : filer),
      (filerAppendAll (createFiler d name).1 (createFiler d name).2 ps).2.2[i]? =
        some (Except.ok (8 + p.length, pos)) ∧
      filer.Read (filerAppendAll (createFiler d name).1 (createFiler d name).2 ps).1
        (filerAppendAll (createFiler d name).1 (createFiler d name).2 ps).2.1 pos =
        (d1, f1, .ok p) ∧
      f1.buf = [] ∧ tget name d1.filers = some (frames ps) ∧
      getUint64 (((frames ps).drop pos).take 8) = p.length ∧
      ((frames ps).drop (pos + 8)).take p.length = p := by
  have hopen : OpenFiler (createFiler d name).1 (createFiler d name).2 [] :=
    ⟨rfl, rfl, [], tget_tput_same _ _ _, rfl⟩
  have hsize : (createFiler d name).2.size = ([] : Bytes).length := by
    simp [createFiler, newFiler, tget_tput_same]
  have hname : (createFiler d name).2.name = name := rfl
  have hpl : p.length < 2 ^ 64 := by
    have := hp p (List.getElem?_mem hi)
    omega
  obtain ⟨d', f', outs, hr, ho, _, hn, hout⟩ := filerAppendAll_open ps _ _ _ hopen hsize
  rw [List.nil_append] at ho
  have hfr := frames_hasFrame ps i p hi
  obtain ⟨d1, f1, hfl, ho1, hb1, hg1, hn1, _, _⟩ := filer.Flush_open ho
  have hrd : filer.Read d' f' (framesSize (ps.take i)) = (d1, f1, .ok p) := by
    refine filer.Read_flushed hfl ?_ (hn1 ▸ hg1) hfr hpl
    rw [ho1.1]
    decide
  refine ⟨framesSize (ps.take i), d1, f1, ?_, ?_, hb1, ?_, (hfr.decode hpl).1,
    (hfr.decode hpl).2⟩
  · rw [hr]
    simpa using hout i p hi
  · rw [hr]
    exact hrd
  · rw [← hname, ← hn]
    exact hg1

/-- C11 at a concrete input: three payloads, the second empty; all three frames are
still in the write buffer (the file is empty) when the second is read. -/
theorem C11_filer_round_trip_witness :
    (∀ p ∈ ([[1, 2, 3], [], [7]] : List Bytes), p.length < 2 ^ 63) ∧
    ([[1, 2, 3], [], [7]] : List Bytes)[1]? = some [] ∧
    tget 0 (filerAppendAll (createFiler Disk.empty 0).1 (createFiler Disk.empty 0).2
      [[1, 2, 3], [], [7]]).1.filers = some [] ∧
    ∃ (pos : Nat) (d1 : Disk) (f1 : filer),
      (filerAppendAll (createFiler Disk.empty 0).1 (createFiler Disk.empty 0).2
        [[1, 2, 3], [], [7]]).2.2[1]? = some (Except.ok (8 + ([] : Bytes).length, pos)) ∧
      filer.Read (filerAppendAll (createFiler Disk.empty 0).1 (createFiler Disk.empty 0).2
          [[1, 2, 3], [], [7]]).1
        (filerAppendAll (createFiler Disk.empty 0).1 (createFiler Disk.empty 0).2
          [[1, 2, 3], [], [7]]).2.1 pos = (d1, f1, .ok []) ∧
      f1.buf = [] ∧ tget 0 d1.filers = some (frames [[1, 2, 3], [], [7]]) ∧
      getUint64 (((frames [[1, 2, 3], [], [7]]).drop pos).take 8) = ([] : Bytes).length ∧
      ((frames [[1, 2, 3], [], [7]]).drop (pos + 8)).take ([] : Bytes).length = [] :=
  ⟨by decide, by decide, by decide,
    C11_filer_round_trip Disk.empty 0 [[1, 2, 3], [], [7]] (by decide) 1 [] (by decide)⟩
/-! ## The outcome of `indexer.Write` -/

theorem tget_append_other {α : Type} (m : List (Nat × α)) (k off : Nat) (v : α)
    (hk : k ≠ off) : tget k (m ++ [(off, v)]) = tget k m := by
  induction m with
  | nil => simp [tget, Ne.symm hk]
  | cons x m ih =>
    obtain ⟨k', v'⟩ := x
    show (if k' = k then some v' else tget k (m ++ [(off, v)])) =
      if k' = k then some v' else tget k m
    rw [ih]

/-- C15: in every indexer state with `size < 2 ^ 32 - 1` (in particular every state
reached from an empty indexer by fewer than `2 ^ 32 - 1` successful writes),
`Write(off, pos)` fails with the end-of-stream error if `off > size + 1`; otherwise it
fails with `ErrDuplicateOffset` if `off` is a key of the mapping; otherwise it succeeds,
the mapping then sends `off` to `pos`, `size` has grown by exactly 1 and every other key
is mapped as before. In both failure cases the indexer is unchanged. -/
theorem C15_write_outcome (i : indexer) (off pos : Nat) (hs : i.size < 2 ^ 32 - 1) :
    (i.size + 1 < off → i.Write off pos = (i, .error .EOF)) ∧
    (off ≤ i.size + 1 → ∀ q, tget off i.mapper = some q →
      i.Write off pos = (i, .error .DuplicateOffset)) ∧
    (off ≤ i.size + 1 → tget off i.mapper = none →
      (i.Write off pos).2 = .ok () ∧
      tget off (i.Write off pos).1.mapper = some pos ∧
      (i.Write off pos).1.size = i.size + 1 ∧
      (i.Write off pos).1.name = i.name ∧
      ∀ k, k ≠ off → tget k (i.Write off pos).1.mapper = tget k i.mapper) := by
  have h1 : (i.size % 2 ^ 32 + 1) % 2 ^ 32 = i.size + 1 := by omega
  have h2 : (i.size + 1) % 2 ^ 64 = i.size + 1 := by omega
  refine ⟨fun h => ?_, fun h q hq => ?_, fun h hn => ?_⟩
  · simp only [indexer.Write, h1]
    rw [if_pos h]
  · simp only [indexer.Write, h1]
    rw [if_neg (by omega), hq]
  · have hw : i.Write off pos =
        ({ i with mapper := i.mapper ++ [(off, pos)], size := i.size + 1 }, .ok ()) := by
      simp only [indexer.Write, h1, h2]
      rw [if_neg (by omega), hn]
    rw [hw]
    refine ⟨rfl, ?_, rfl, rfl, fun k hk => tget_append_other _ _ _ _ hk⟩
    show tget off (i.mapper ++ [(off, pos)]) = some pos
    rw [tget_append_none off off pos i.mapper hn, if_pos rfl]

/-- C15 at a concrete input: the indexer of the test after its two writes, and a
third write at the next slot. -/
theorem C15_write_outcome_witness :
    (2 : Nat) < 2 ^ 32 - 1 ∧
    ((2 + 1 < 2 → indexer.Write { name := 0, size := 2, mapper := [(0, 0), (1, 10)] } 2 25 =
        ({ name := 0, size := 2, mapper := [(0, 0), (1, 10)] }, .error .EOF)) ∧
    (2 ≤ 2 + 1 → ∀ q, tget 2 [(0, 0), (1, 10)] = some q →
      indexer.Write { name := 0, size := 2, mapper := [(0, 0), (1, 10)] } 2 25 =
        ({ name := 0, size := 2, mapper := [(0, 0), (1, 10)] }, .error .DuplicateOffset)) ∧
    (2 ≤ 2 + 1 → tget 2 [(0, 0), (1, 10)] = none →
      (indexer.Write { name := 0, size := 2, mapper := [(0, 0), (1, 10)] } 2 25).2 = .ok () ∧
      tget 2 (indexer.Write { name := 0, size := 2, mapper := [(0, 0), (1, 10)] } 2 25).1.mapper
        = some 25 ∧
      (indexer.Write { name := 0, size := 2, mapper := [(0, 0), (1, 10)] } 2 25).1.size
        = 2 + 1 ∧
      (indexer.Write { name := 0, size := 2, mapper := [(0, 0), (1, 10)] } 2 25).1.name = 0 ∧
      ∀ k, k ≠ 2 →
        tget k (indexer.Write { name := 0, size := 2, mapper := [(0, 0), (1, 10)] } 2 25).1.mapper
          = tget k [(0, 0), (1, 10)])) :=
  ⟨by decide, C15_write_outcome { name := 0, size := 2, mapper := [(0, 0), (1, 10)] } 2 25
    (by decide)⟩

/-! ## The configuration of a new log -/

theorem newSegmenter_config (st : State) (off : Nat) :
    (recorder.newSegmenter st off).r.Config = st.r.Config ∧
      (recorder.newSegmenter st off).r.Dir = st.r.Dir := by
  unfold recorder.newSegmenter
  simp only
  split
  · exact ⟨rfl, rfl⟩
  · split
    · exact ⟨rfl, rfl⟩
    · split
      · exact ⟨rfl, rfl⟩
      · exact ⟨rfl, rfl⟩

theorem setupLoop_config (n : Nat) : ∀ (l : List Nat) (st : State), l.length ≤ n →
    (recorder.setupLoop st l).r.Config = st.r.Config ∧
      (recorder.setupLoop st l).r.Dir = st.r.Dir := by
  induction n with
  | zero =>
    intro l st hl
    cases l with
    | nil => exact ⟨rfl, rfl⟩
    | cons b t => simp at hl
  | succ n ih =>
    intro l st hl
    cases l with
    | nil => exact ⟨rfl, rfl⟩
    | cons b t =>
      cases t with
      | nil => exact newSegmenter_config st b
      | cons b2 rest =>
        have hr : rest.length ≤ n := by
          simp only [List.length_cons] at hl
          omega
        have h1 := ih rest (recorder.newSegmenter st b) hr
        have h2 := newSegmenter_config st b
        exact ⟨h1.1.trans h2.1, h1.2.trans h2.2⟩

theorem setup_config (st : State) :
    (recorder.setup st).r.Config = st.r.Config ∧ (recorder.setup st).r.Dir = st.r.Dir := by
  unfold recorder.setup
  simp only
  have h1 := setupLoop_config _ (List.insertionSort (fun a b : Nat => a ≤ b)
    (st.disk.filers.map Prod.fst ++ st.disk.indexes.map Prod.fst)) st (Nat.le_refl _)
  split
  · have h2 := newSegmenter_config (recorder.setupLoop st (List.insertionSort
      (fun a b : Nat => a ≤ b) (st.disk.filers.map Prod.fst ++ st.disk.indexes.map Prod.fst)))
      (recorder.setupLoop st (List.insertionSort
      (fun a b : Nat => a ≤ b) (st.disk.filers.map Prod.fst ++ st.disk.indexes.map Prod.fst))).r.Config.InitialOffset
    exact ⟨h2.1.trans h1.1, h2.2.trans h1.2⟩
  · exact h1

/-- C20: for every directory content, every directory name and every `Config c`, the
log returned by `NewRecorder(dir, c)` has `Configuration().Segment.MaxIndexSize` equal
to 100 when `c.Segment.MaxIndexSize` is 0 and to `c.Segment.MaxIndexSize` otherwise,
while `Configuration().Segment.InitialOffset` and `Directory()` are the values passed
in. -/
theorem C20_default_capacity (d : Disk) (dir : String) (c : Config) :
    (recorder.Configuration (NewRecorder d dir c)).MaxIndexSize =
      (if c.MaxIndexSize = 0 then 100 else c.MaxIndexSize) ∧
    (recorder.Configuration (NewRecorder d dir c)).InitialOffset = c.InitialOffset ∧
    recorder.Directory (NewRecorder d dir c) = dir := by
  unfold recorder.Configuration recorder.Directory NewRecorder
  simp only
  rw [(setup_config _).1, (setup_config _).2]
  refine ⟨?_, ?_, rfl⟩
  · by_cases h : c.MaxIndexSize = 0
    · simp [h]
    · simp [h]
  · by_cases h : c.MaxIndexSize = 0
    · simp [h]
    · simp [h]
/-! ## A single segment: appends up to the capacity -/

theorem newSegmenter_anyConfig (d : Disk) (b : Nat) (c c' : Config) :
    newSegmenter d b c' =
      ((newSegmenter d b c).1, { (newSegmenter d b c).2 with config := c' }) := by
  cases h1 : tget b d.filers <;>
  cases h2 : tget b d.indexes <;>
  simp [newSegmenter, h1, h2, newIndexer]

theorem segmenter.Append_anyConfig (cd : Codec) (d : Disk) (s : segmenter) (r : Record)
    (c' : Config) (h : c'.MaxIndexSize = s.config.MaxIndexSize) :
    segmenter.Append cd d { s with config := c' } r =
      ((s.Append cd d r).1, { (s.Append cd d r).2.1 with config := c' },
        (s.Append cd d r).2.2) := by
  simp only [segmenter.Append, segmenter.IsMaxed, indexer.Size, h]
  split
  · rfl
  · rcases s.filer.Append d (cd.marshal { Value := r.Value, Offset := s.nextOffset })
      with ⟨d1, f1, res⟩
    cases res with
    | error e => rfl
    | ok np =>
      obtain ⟨n, pos⟩ := np
      simp only
      rcases s.indexer.Write (subU64 s.nextOffset s.baseOffset % 2 ^ 32) pos with ⟨i1, res⟩
      cases res with
      | error e => rfl
      | ok u => rfl

theorem segmenter.Read_anyConfig (cd : Codec) (d : Disk) (s : segmenter) (off : Nat)
    (c' : Config) :
    segmenter.Read cd d { s with config := c' } off =
      ((s.Read cd d off).1, { (s.Read cd d off).2.1 with config := c' },
        (s.Read cd d off).2.2) := by
  obtain ⟨f, ix, b, n, c, cl⟩ := s
  simp only [segmenter.Read]
  cases ix.Read (toInt64 (subU64 off b)) with
  | error e => rfl
  | ok np =>
    obtain ⟨k, pos⟩ := np
    simp only
    cases cl with
    | true =>
      simp only [if_true]
      cases tget f.name d.filers with
      | none => rfl
      | some x =>
        simp only
        rcases filer.Read d (newFiler d f.name Handle.readOnly) pos with ⟨d1, f1, res⟩
        cases res with
        | error e => rfl
        | ok p =>
          simp only
          cases cd.unmarshal p <;> rfl
    | false =>
      simp only [Bool.false_eq_true, if_false]
      rcases filer.Read d f pos with ⟨d1, f1, res⟩
      cases res with
      | error e => rfl
      | ok p =>
        simp only
        cases cd.unmarshal p <;> rfl

theorem segmenter.Append_keeps_config (cd : Codec) (d : Disk) (s : segmenter) (r : Record) :
    (s.Append cd d r).2.1.config = s.config := by
  simp only [segmenter.Append]
  split
  · rfl
  · rcases s.filer.Append d (cd.marshal { Value := r.Value, Offset := s.nextOffset })
      with ⟨d1, f1, res⟩
    cases res with
    | error e => rfl
    | ok np =>
      obtain ⟨n, pos⟩ := np
      simp only
      rcases s.indexer.Write (subU64 s.nextOffset s.baseOffset % 2 ^ 32) pos with ⟨i1, res⟩
      cases res with
      | error e => rfl
      | ok u => rfl

theorem segAppendAll_cons (cd : Codec) (d : Disk) (s : segmenter) (r : Record)
    (rs : List Record) :
    segAppendAll cd d s (r :: rs) =
      ((segAppendAll cd (s.Append cd d r).1 (s.Append cd d r).2.1 rs).1,
        (segAppendAll cd (s.Append cd d r).1 (s.Append cd d r).2.1 rs).2.1,
        (s.Append cd d r).2.2 ::
          (segAppendAll cd (s.Append cd d r).1 (s.Append cd d r).2.1 rs).2.2) := rfl

theorem segAppendAll_ok {cd : Codec} {cfg : Config} (rs : List Record) :
    ∀ (recs : List Record) (d : Disk) (s : segmenter),
      SegInv cd cfg recs d { s with config := cfg } 0 recs.length →
      s.config.MaxIndexSize = cfg.MaxIndexSize → s.closed = false →
      recs.length + rs.length ≤ cfg.MaxIndexSize →
      recs.length + rs.length ≤ 2 ^ 32 - 1 →
      cfg.InitialOffset + recs.length + rs.length < 2 ^ 64 →
      ∃ d' s', segAppendAll cd d s rs =
          (d', s', (List.range rs.length).map
            (fun i => Except.ok (cfg.InitialOffset + recs.length + i))) ∧
        SegInv cd cfg (recs ++ rs) d' { s' with config := cfg } 0 (recs.length + rs.length) ∧
        s'.config = s.config ∧ s'.closed = false := by
  induction rs with
  | nil =>
    intro recs d s h _ hop _ _ _
    exact ⟨d, s, rfl, by simpa using h, rfl, hop⟩
  | cons r rs ih =>
    intro recs d s h hcfg hop hroom hcap hb
    have hlen : (r :: rs).length = rs.length + 1 := rfl
    rw [hlen] at hroom hcap hb
    obtain ⟨d1, s1, ha, hinv, hop1, _, _⟩ :=
      segmenter.Append_inv r h hop (by show recs.length - 0 < cfg.MaxIndexSize; omega)
        (by omega) (by omega)
    rw [segmenter.Append_anyConfig cd d s r cfg hcfg.symm] at ha
    have ha1 : (s.Append cd d r).1 = d1 := congrArg Prod.fst ha
    have ha2 : { (s.Append cd d r).2.1 with config := cfg } = s1 :=
      congrArg (fun x => x.2.1) ha
    have ha3 : (s.Append cd d r).2.2 = .ok (cfg.InitialOffset + recs.length) :=
      congrArg (fun x => x.2.2) ha
    have hk := segmenter.Append_keeps_config cd d s r
    have hl : (recs ++ [r]).length = recs.length + 1 := by simp
    have hop2 : (s.Append cd d r).2.1.closed = false := by
      rw [← ha2] at hop1
      exact hop1
    obtain ⟨d2, s2, hr, hinv2, hc2, hop3⟩ :=
      ih (recs ++ [r]) d1 (s.Append cd d r).2.1 (by rw [ha2, hl]; exact hinv)
        (by rw [hk]; exact hcfg) hop2 (by rw [hl]; omega) (by rw [hl]; omega)
        (by rw [hl]; omega)
    refine ⟨d2, s2, ?_, ?_, hc2.trans hk, hop3⟩
    · rw [segAppendAll_cons, ha1, hr, ha3, hlen, range_succ_map_ok]
      simp only [hl, Nat.add_assoc]
    · rw [hl] at hinv2
      have e1 : recs ++ r :: rs = recs ++ [r] ++ rs := by simp
      have e2 : recs.length + (rs.length + 1) = recs.length + 1 + rs.length := by omega
      rw [hlen, e1, e2]
      exact hinv2

theorem segAppendAll_maxed (cd : Codec) (d : Disk) (s : segmenter) (h : s.IsMaxed = true)
    (extra : List Record) :
    segAppendAll cd d s extra = (d, s, extra.map (fun _ => Except.error Error.EOF)) := by
  induction extra with
  | nil => rfl
  | cons r rs ih =>
    have ha : s.Append cd d r = (d, s, .error .EOF) := by
      simp only [segmenter.Append, h, if_true]
    rw [segAppendAll_cons, ha, ih]
    rfl

theorem fresh_segment_inv (cd : Codec) (d : Disk) (b : Nat) (c : Config)
    (hf : tget b d.filers = none) (hx : tget b d.indexes = none) :
    SegInv cd { MaxIndexSize := c.MaxIndexSize, InitialOffset := b } [] (newSegmenter d b c).1
      { (newSegmenter d b c).2 with
        config := { MaxIndexSize := c.MaxIndexSize, InitialOffset := b } } 0 0 ∧
    (newSegmenter d b c).2.closed = false ∧ (newSegmenter d b c).2.config = c := by
  obtain ⟨d0, s0, hn, hinv, hop, _, _⟩ :=
    newSegmenter_fresh cd { MaxIndexSize := c.MaxIndexSize, InitialOffset := b } [] d 0 hf hx
  have hn' : newSegmenter d b { MaxIndexSize := c.MaxIndexSize, InitialOffset := b }
      = (d0, s0) := hn
  rw [newSegmenter_anyConfig d b { MaxIndexSize := c.MaxIndexSize, InitialOffset := b } c, hn']
  have hs0 := hinv.config
  obtain ⟨f, ix, bo, n, c0, cl⟩ := s0
  simp only at hs0
  subst hs0
  exact ⟨hinv, hop, rfl⟩
/-- C12 (amended): for a freshly created segment with base offset `b` and capacity `N`
with `N < 2 ^ 32` and `b + N < 2 ^ 64`, and every list of at most `N` records (values
that fit a Go slice, serializer lawful), the `i`-th `Append` succeeds and returns
`b + i`, `next_offset` is `b` plus the number of appends, the index holds as many
entries, and `Read(b + i)` returns the `i`-th value with its offset stamped `b + i`; the
segment is maxed exactly when `N` records were appended, and then every further
`Append` fails with the end-of-stream error and leaves the segment and the directory
unchanged. -/
theorem C12_segment_capacity (cd : Codec) (hcd : cd.Lawful) (d : Disk) (b : Nat) (c : Config)
    (hf : tget b d.filers = none) (hx : tget b d.indexes = none)
    (hN32 : c.MaxIndexSize < 2 ^ 32) (hb : b + c.MaxIndexSize < 2 ^ 64)
    (rs : List Record) (hlen : rs.length ≤ c.MaxIndexSize)
    (hv : ∀ r ∈ rs, r.Value.length < 2 ^ 63) :
    ∃ (d' : Disk) (s' : segmenter),
      segAppendAll cd (newSegmenter d b c).1 (newSegmenter d b c).2 rs =
        (d', s', (List.range rs.length).map (fun i => Except.ok (b + i))) ∧
      s'.NextOffset = b + rs.length ∧
      s'.indexer.Size = rs.length ∧
      (∀ (i : Nat) (r : Record), rs[i]? = some r →
        (s'.Read cd d' (b + i)).2.2 = .ok { Value := r.Value, Offset := b + i }) ∧
      s'.IsMaxed = decide (rs.length = c.MaxIndexSize) ∧
      (rs.length = c.MaxIndexSize → ∀ extra : List Record,
        segAppendAll cd d' s' extra = (d', s', extra.map (fun _ => Except.error Error.EOF))) := by
  obtain ⟨h0, hop, hc0⟩ := fresh_segment_inv cd d b c hf hx
  obtain ⟨d', s', hr, hinv, hc, _⟩ :=
    segAppendAll_ok rs [] (newSegmenter d b c).1 (newSegmenter d b c).2 h0
      (by rw [hc0]) hop (by simpa using hlen)
      (by simp only [List.length_nil, Nat.zero_add]; omega)
      (by simp only [List.length_nil, Nat.add_zero]; omega)
  simp only [List.length_nil, Nat.zero_add, Nat.add_zero, List.nil_append] at hr hinv
  have hsize : s'.indexer.size = rs.length := hinv.size
  have hmax : s'.IsMaxed = decide (rs.length = c.MaxIndexSize) := by
    simp only [segmenter.IsMaxed, indexer.Size, hsize, hc, hc0]
    by_cases he : rs.length = c.MaxIndexSize
    · simp [he]
    · have : ¬ (rs.length ≥ c.MaxIndexSize) := by omega
      simp [he, this]
  refine ⟨d', s', hr, hinv.next, hsize, fun i r hi => ?_, hmax, fun he extra => ?_⟩
  · have hlt : i < rs.length := by
      by_contra hcon
      rw [List.getElem?_eq_none (by omega)] at hi
      cases hi
    have h1 := segmenter.Read_inv hinv hcd i r (Nat.zero_le _) hlt hi
      (hv r (List.getElem?_mem hi)) (by show b + rs.length < 2 ^ 64; omega)
    rw [segmenter.Read_anyConfig] at h1
    exact h1
  · exact segAppendAll_maxed cd d' s' (by rw [hmax]; simp [he]) extra

/-- C12 at a concrete input: the segment of the test (base offset 16, capacity 5) and
five appends. -/
theorem C12_segment_capacity_witness :
    plainCodec.Lawful ∧ tget 16 Disk.empty.filers = none ∧ tget 16 Disk.empty.indexes = none ∧
    5 < 2 ^ 32 ∧ 16 + 5 < 2 ^ 64 ∧
    (List.replicate 5 ({ Value := [104, 105], Offset := 0 } : Record)).length ≤ 5 ∧
    ∃ (d' : Disk) (s' : segmenter),
      segAppendAll plainCodec
          (newSegmenter Disk.empty 16 { MaxIndexSize := 5, InitialOffset := 0 }).1
          (newSegmenter Disk.empty 16 { MaxIndexSize := 5, InitialOffset := 0 }).2
          (List.replicate 5 { Value := [104, 105], Offset := 0 }) =
        (d', s', (List.range
          (List.replicate 5 ({ Value := [104, 105], Offset := 0 } : Record)).length).map
            (fun i => Except.ok (16 + i))) ∧
      s'.NextOffset =
        16 + (List.replicate 5 ({ Value := [104, 105], Offset := 0 } : Record)).length ∧
      s'.indexer.Size =
        (List.replicate 5 ({ Value := [104, 105], Offset := 0 } : Record)).length ∧
      (∀ (i : Nat) (r : Record),
        (List.replicate 5 ({ Value := [104, 105], Offset := 0 } : Record))[i]? = some r →
        (s'.Read plainCodec d' (16 + i)).2.2 = .ok { Value := r.Value, Offset := 16 + i }) ∧
      s'.IsMaxed =
        decide ((List.replicate 5 ({ Value := [104, 105], Offset := 0 } : Record)).length = 5) ∧
      ((List.replicate 5 ({ Value := [104, 105], Offset := 0 } : Record)).length = 5 →
        ∀ extra : List Record,
          segAppendAll plainCodec d' s' extra =
            (d', s', extra.map (fun _ => Except.error Error.EOF))) :=
  ⟨plainCodec_lawful, by decide, by decide, by decide, by decide, by decide,
    C12_segment_capacity plainCodec plainCodec_lawful Disk.empty 16
      { MaxIndexSize := 5, InitialOffset := 0 } (by decide) (by decide) (by decide) (by decide)
      (List.replicate 5 { Value := [104, 105], Offset := 0 }) (by decide) (by decide)⟩

theorem segment_append_at_cap (cd : Codec) (rs : List Record) (x : Record)
    (hl : rs.length = 2 ^ 32 - 1) :
    (segAppendAll cd (newSegmenter Disk.empty 0 { MaxIndexSize := 2 ^ 32, InitialOffset := 0 }).1
      (newSegmenter Disk.empty 0 { MaxIndexSize := 2 ^ 32, InitialOffset := 0 }).2 rs).2.2 =
      (List.range rs.length).map (fun i => Except.ok (0 + i)) ∧
    (segmenter.Append cd
      (segAppendAll cd (newSegmenter Disk.empty 0 { MaxIndexSize := 2 ^ 32, InitialOffset := 0 }).1
        (newSegmenter Disk.empty 0 { MaxIndexSize := 2 ^ 32, InitialOffset := 0 }).2 rs).1
      (segAppendAll cd (newSegmenter Disk.empty 0 { MaxIndexSize := 2 ^ 32, InitialOffset := 0 }).1
        (newSegmenter Disk.empty 0 { MaxIndexSize := 2 ^ 32, InitialOffset := 0 }).2 rs).2.1
      x).2.2 = .error .EOF := by
  obtain ⟨h0, hop, hc0⟩ := fresh_segment_inv cd Disk.empty 0
    { MaxIndexSize := 2 ^ 32, InitialOffset := 0 } rfl rfl
  obtain ⟨d', s', hr, hinv, hc, hop'⟩ :=
    segAppendAll_ok rs [] _ _ h0 (by rw [hc0]) hop
      (by simp only [List.length_nil, Nat.zero_add]; omega)
      (by simp only [List.length_nil, Nat.zero_add]; omega)
      (by simp only [List.length_nil, Nat.add_zero]; omega)
  simp only [List.length_nil, Nat.zero_add, Nat.add_zero, List.nil_append] at hr hinv
  rw [hr]
  refine ⟨by simp, ?_⟩
  obtain ⟨d2, s2, ha, _⟩ := segmenter.Append_full x hinv hop'
    (by show rs.length - 0 < 2 ^ 32; omega) (by show rs.length - 0 = 2 ^ 32 - 1; omega)
    (by show 0 + rs.length < 2 ^ 64; omega)
  rw [segmenter.Append_anyConfig cd d' s' x _ (by rw [hc, hc0])] at ha
  exact congrArg (fun x => x.2.2) ha

/-- Counterexample to C12 as stated: with capacity `N = 2 ^ 32` and base offset 0, after
`2 ^ 32 - 1` successful appends the next `Append` (the one with `i = 2 ^ 32 - 1 < N`)
fails with the end-of-stream error: `indexer.Write` compares the relative offset with
`uint32(size) + 1`, which has wrapped to 0. And with base offset `2 ^ 64 - 1` and
capacity 3 the second `Append` returns 0 and leaves `next_offset` at 1: offsets are
`uint64` and wrap. -/
theorem C12_counterexample :
    ((segAppendAll plainCodec
        (newSegmenter Disk.empty 0 { MaxIndexSize := 2 ^ 32, InitialOffset := 0 }).1
        (newSegmenter Disk.empty 0 { MaxIndexSize := 2 ^ 32, InitialOffset := 0 }).2
        (List.replicate (2 ^ 32 - 1) { Value := [], Offset := 0 })).2.2 =
      (List.range (2 ^ 32 - 1)).map (fun i => Except.ok (0 + i)) ∧
    (segmenter.Append plainCodec
      (segAppendAll plainCodec
        (newSegmenter Disk.empty 0 { MaxIndexSize := 2 ^ 32, InitialOffset := 0 }).1
        (newSegmenter Disk.empty 0 { MaxIndexSize := 2 ^ 32, InitialOffset := 0 }).2
        (List.replicate (2 ^ 32 - 1) { Value := [], Offset := 0 })).1
      (segAppendAll plainCodec
        (newSegmenter Disk.empty 0 { MaxIndexSize := 2 ^ 32, InitialOffset := 0 }).1
        (newSegmenter Disk.empty 0 { MaxIndexSize := 2 ^ 32, InitialOffset := 0 }).2
        (List.replicate (2 ^ 32 - 1) { Value := [], Offset := 0 })).2.1
      { Value := [], Offset := 0 }).2.2 = .error .EOF) ∧
    (segAppendAll plainCodec
        (newSegmenter Disk.empty (2 ^ 64 - 1) { MaxIndexSize := 3, InitialOffset := 0 }).1
        (newSegmenter Disk.empty (2 ^ 64 - 1) { MaxIndexSize := 3, InitialOffset := 0 }).2
        [{ Value := [1], Offset := 0 }, { Value := [2], Offset := 0 }]).2.2 =
      [.ok (2 ^ 64 - 1), .ok 0] ∧
    (segAppendAll plainCodec
        (newSegmenter Disk.empty (2 ^ 64 - 1) { MaxIndexSize := 3, InitialOffset := 0 }).1
        (newSegmenter Disk.empty (2 ^ 64 - 1) { MaxIndexSize := 3, InitialOffset := 0 }).2
        [{ Value := [1], Offset := 0 }, { Value := [2], Offset := 0 }]).2.1.NextOffset = 1 :=
  ⟨by
      have h := segment_append_at_cap plainCodec
        (List.replicate (2 ^ 32 - 1) { Value := [], Offset := 0 })
        { Value := [], Offset := 0 } (List.length_replicate _ _)
      rw [List.length_replicate] at h
      exact h,
    by decide, by decide⟩
/-! ## Runs of indexer writes -/

theorem createIndexer_empty (d : Disk) (name : Nat) (c : Config) :
    (createIndexer d name c).2 = { name := name, size := 0, mapper := [] } := by
  simp [createIndexer, newIndexer, tget_tput_same]

theorem writeAll_cons (i : indexer) (off pos : Nat) (ws : List (Nat × Nat)) :
    indexer.writeAll i ((off, pos) :: ws) =
      ((indexer.writeAll (i.Write off pos).1 ws).1,
        (i.Write off pos).2 :: (indexer.writeAll (i.Write off pos).1 ws).2) := rfl

theorem writeAll_dense (qs : List Nat) : ∀ (i : indexer) (k : Nat), i.size = k →
    (∀ j, k ≤ j → tget j i.mapper = none) → k + qs.length ≤ 2 ^ 32 - 1 →
    indexer.writeAll i (List.enumFrom k qs) =
      ({ i with size := k + qs.length, mapper := i.mapper ++ List.enumFrom k qs },
        List.replicate qs.length (Except.ok ())) := by
  induction qs with
  | nil =>
    intro i k hs _ _
    subst hs
    simp [indexer.writeAll]
  | cons q qs ih =>
    intro i k hs ha hb
    have hlen : (q :: qs).length = qs.length + 1 := rfl
    rw [hlen] at hb
    have hw := indexer.Write_ok i k q hs (by omega) (ha k (Nat.le_refl k))
    have ha1 : ∀ j, k + 1 ≤ j → tget j (i.mapper ++ [(k, q)]) = none := by
      intro j hj
      rw [tget_append_none j k q i.mapper (ha j (by omega)), if_neg (by omega)]
    have h1 := ih { i with mapper := i.mapper ++ [(k, q)], size := k + 1 } (k + 1) rfl ha1
      (by omega)
    rw [List.enumFrom_cons, writeAll_cons, hw]
    simp only [h1, hlen, List.replicate_succ, List.append_assoc, List.singleton_append]
    refine congrArg₂ Prod.mk ?_ rfl
    have e : k + 1 + qs.length = k + (qs.length + 1) := by omega
    rw [e]

theorem indexer.Write_keys (i : indexer) (off pos : Nat) (hs : i.size < 2 ^ 32 - 1)
    (hk : ∀ k p, tget k i.mapper = some p → k ≤ i.size) :
    i.size ≤ (i.Write off pos).1.size ∧ (i.Write off pos).1.size ≤ i.size + 1 ∧
    ∀ k p, tget k (i.Write off pos).1.mapper = some p → k ≤ (i.Write off pos).1.size := by
  have h1 : (i.size % 2 ^ 32 + 1) % 2 ^ 32 = i.size + 1 := by omega
  have h2 : (i.size + 1) % 2 ^ 64 = i.size + 1 := by omega
  by_cases hgt : off > i.size + 1
  · have hw : i.Write off pos = (i, .error .EOF) := by
      simp only [indexer.Write, h1]
      rw [if_pos hgt]
    rw [hw]
    exact ⟨Nat.le_refl _, Nat.le_succ _, hk⟩
  · cases hg : tget off i.mapper with
    | some q =>
      have hw : i.Write off pos = (i, .error .DuplicateOffset) := by
        simp only [indexer.Write, h1]
        rw [if_neg hgt, hg]
      rw [hw]
      exact ⟨Nat.le_refl _, Nat.le_succ _, hk⟩
    | none =>
      have hw : i.Write off pos =
          ({ i with mapper := i.mapper ++ [(off, pos)], size := i.size + 1 }, .ok ()) := by
        simp only [indexer.Write, h1, h2]
        rw [if_neg hgt, hg]
      rw [hw]
      refine ⟨Nat.le_succ _, Nat.le_refl _, fun k p hp => ?_⟩
      show k ≤ i.size + 1
      cases hm : tget k i.mapper with
      | some w => exact Nat.le_succ_of_le (hk k w hm)
      | none =>
        have hp' : tget k (i.mapper ++ [(off, pos)]) = some p := hp
        rw [tget_append_none k off pos i.mapper hm] at hp'
        by_cases he : off = k
        · omega
        · rw [if_neg he] at hp'
          cases hp'

theorem writeAll_keys (ws : List (Nat × Nat)) : ∀ (i : indexer) (n : Nat), i.size ≤ n →
    (∀ k p, tget k i.mapper = some p → k ≤ i.size) → n + ws.length < 2 ^ 32 →
    (indexer.writeAll i ws).1.size ≤ n + ws.length ∧
    ∀ k p, tget k (indexer.writeAll i ws).1.mapper = some p →
      k ≤ (indexer.writeAll i ws).1.size := by
  induction ws with
  | nil =>
    intro i n hn hk _
    exact ⟨by simpa [indexer.writeAll] using hn, hk⟩
  | cons w ws ih =>
    intro i n hn hk hb
    obtain ⟨off, pos⟩ := w
    have hlen : ((off, pos) :: ws).length = ws.length + 1 := rfl
    rw [hlen] at hb
    obtain ⟨_, h2, h3⟩ := indexer.Write_keys i off pos (by omega) hk
    obtain ⟨i1, i2⟩ := ih (i.Write off pos).1 (n + 1) (by omega) h3 (by omega)
    rw [writeAll_cons, hlen]
    exact ⟨by show (indexer.writeAll (i.Write off pos).1 ws).1.size ≤ n + (ws.length + 1); omega,
      i2⟩

theorem indexer.Read_absent (i : indexer) (off : Nat) (hs : 0 < i.size) (hs32 : i.size < 2 ^ 32)
    (hoff : off < 2 ^ 32) (ha : tget off i.mapper = none) :
    i.Read (off : Int) = if off ≤ i.size then .error .RecordPosition else .error .EOF := by
  have h0 : ¬ i.size = 0 := by omega
  have h1 : ¬ ((off : Int) = -1) := by omega
  have h2 : ((off : Int) % 2 ^ 32).toNat = off := by omega
  have h3 : i.size % 2 ^ 32 = i.size := Nat.mod_eq_of_lt hs32
  simp only [indexer.Read, if_neg h0, if_neg h1, h2, h3]
  by_cases hle : off ≤ i.size
  · rw [if_neg (by omega), ha, if_pos hle]
  · rw [if_pos (by omega), if_neg hle]

theorem indexer.Read_key (i : indexer) (off pos : Nat) (hs : 0 < i.size)
    (hs32 : i.size < 2 ^ 32) (hle : off ≤ i.size) (hg : tget off i.mapper = some pos) :
    i.Read (off : Int) = .ok (off, pos) := by
  have h0 : ¬ i.size = 0 := by omega
  have h1 : ¬ ((off : Int) = -1) := by omega
  have h2 : ((off : Int) % 2 ^ 32).toNat = off := by omega
  have h3 : i.size % 2 ^ 32 = i.size := Nat.mod_eq_of_lt hs32
  simp only [indexer.Read, if_neg h0, if_neg h1, h2, h3]
  rw [if_neg (by omega), hg]
theorem tget_enumFrom_none (qs : List Nat) : ∀ (k j : Nat), j < k ∨ k + qs.length ≤ j →
    tget j (List.enumFrom k qs) = none := by
  induction qs with
  | nil =>
    intro k j _
    rfl
  | cons q qs ih =>
    intro k j hj
    have hlen : (q :: qs).length = qs.length + 1 := rfl
    rw [hlen] at hj
    rw [List.enumFrom_cons]
    show (if k = j then some q else tget j (List.enumFrom (k + 1) qs)) = none
    rw [if_neg (by omega)]
    exact ih (k + 1) j (by omega)

/-- C17 (amended): for every indexer reached from an empty one by fewer than `2 ^ 32`
`Write` calls (and not reloaded) that is non-empty (`size > 0`), and every relative
offset `off < 2 ^ 32`: when `off` is not a key of the mapping, `Read(off)` fails, with
`ErrRecordPosition` if `off ≤ size` and with the end-of-stream error if `off > size`;
when `off` is a key, `Read(off)` returns `(off, mapping[off])`; in particular, after
writes at `0, ..., n - 1` from empty, `Read(n)` fails with `ErrRecordPosition`. -/
theorem C17_read_absent (d : Disk) (name : Nat) (c : Config) (ws : List (Nat × Nat))
    (hlen : ws.length < 2 ^ 32)
    (hs : 0 < (indexer.writeAll (createIndexer d name c).2 ws).1.size)
    (off : Nat) (hoff : off < 2 ^ 32) :
    (tget off (indexer.writeAll (createIndexer d name c).2 ws).1.mapper = none →
      (indexer.writeAll (createIndexer d name c).2 ws).1.Read (off : Int) =
        if off ≤ (indexer.writeAll (createIndexer d name c).2 ws).1.size
        then .error .RecordPosition else .error .EOF) ∧
    (∀ pos, tget off (indexer.writeAll (createIndexer d name c).2 ws).1.mapper = some pos →
      (indexer.writeAll (createIndexer d name c).2 ws).1.Read (off : Int) = .ok (off, pos)) ∧
    (∀ qs : List Nat, ws = qs.enum → off = qs.length →
      (indexer.writeAll (createIndexer d name c).2 ws).1.Read (off : Int) =
        .error .RecordPosition) := by
  have hk := writeAll_keys ws (createIndexer d name c).2 0
    (by rw [createIndexer_empty])
    (by rw [createIndexer_empty]; intro k p hp; cases hp) (by omega)
  have hs32 : (indexer.writeAll (createIndexer d name c).2 ws).1.size < 2 ^ 32 := by omega
  refine ⟨fun ha => indexer.Read_absent _ off hs hs32 hoff ha,
    fun pos hg => indexer.Read_key _ off pos hs hs32 (hk.2 off pos hg) hg, fun qs hq hn => ?_⟩
  have hql : qs.length = ws.length := by rw [hq, List.enum_length]
  have hd := writeAll_dense qs { name := name, size := 0, mapper := [] } 0 rfl
    (fun j _ => rfl) (by omega)
  rw [createIndexer_empty] at hs ⊢
  rw [hq, List.enum] at hs ⊢
  rw [hd] at hs ⊢
  have ha : tget off (([] : Mapper) ++ List.enumFrom 0 qs) = none := by
    rw [List.nil_append]
    exact tget_enumFrom_none qs 0 off (Or.inr (by omega))
  rw [indexer.Read_absent _ off hs (by show 0 + qs.length < 2 ^ 32; omega) hoff ha]
  exact if_pos (by show off ≤ 0 + qs.length; omega)

/-- C17 at a concrete input: the two writes of the test, then `Read(2)`. -/
theorem C17_read_absent_witness :
    ([(0, 0), (1, 10)] : List (Nat × Nat)).length < 2 ^ 32 ∧
    0 < (indexer.writeAll (createIndexer Disk.empty 0 { MaxIndexSize := 0, InitialOffset := 0 }).2
      [(0, 0), (1, 10)]).1.size ∧
    (2 : Nat) < 2 ^ 32 ∧
    (indexer.writeAll (createIndexer Disk.empty 0 { MaxIndexSize := 0, InitialOffset := 0 }).2
      [(0, 0), (1, 10)]).1.Read ((2 : Nat) : Int) = .error .RecordPosition :=
  ⟨by decide, by decide, by decide,
    (C17_read_absent Disk.empty 0 { MaxIndexSize := 0, InitialOffset := 0 } [(0, 0), (1, 10)]
      (by decide) (by decide) 2 (by decide)).2.2 [0, 10] rfl rfl⟩

/-- Counterexample to C17 as stated: after the two writes of the test (`size = 2`),
offset 3 is not a key of the mapping, yet `Read(3)` fails with the end-of-stream error
of the guard `outOff > uint32(size)`, not with `ErrRecordPosition`. -/
theorem C17_counterexample :
    0 < (indexer.writeAll (createIndexer Disk.empty 0 { MaxIndexSize := 0, InitialOffset := 0 }).2
      [(0, 0), (1, 10)]).1.size ∧
    tget 3 (indexer.writeAll
      (createIndexer Disk.empty 0 { MaxIndexSize := 0, InitialOffset := 0 }).2
      [(0, 0), (1, 10)]).1.mapper = none ∧
    (indexer.writeAll (createIndexer Disk.empty 0 { MaxIndexSize := 0, InitialOffset := 0 }).2
      [(0, 0), (1, 10)]).1.Read 3 = .error .EOF ∧
    (indexer.writeAll (createIndexer Disk.empty 0 { MaxIndexSize := 0, InitialOffset := 0 }).2
      [(0, 0), (1, 10)]).1.Read 3 ≠ .error .RecordPosition := by
  decide
/-! ## The size of a reloaded index -/

theorem reloadIndexer_eq (d : Disk) (i : indexer) (c : Config) :
    (reloadIndexer d i c).2 =
      { name := i.name, size := (i.mapper.length + (2 ^ 64 - 1)) % 2 ^ 64, mapper := i.mapper } := by
  simp only [reloadIndexer, newIndexer, indexer.Close, tget_tput_same]

theorem dense_read_last (name : Nat) (qs : List Nat) (h1 : 1 ≤ qs.length)
    (h2 : qs.length < 2 ^ 32) :
    (indexer.writeAll { name := name, size := 0, mapper := [] } qs.enum).1.Read (-1) =
      .error .RecordPosition := by
  have hd := writeAll_dense qs { name := name, size := 0, mapper := [] } 0 rfl
    (fun j _ => rfl) (by omega)
  rw [List.enum, hd]
  have h0 : ¬ (0 + qs.length = 0) := by omega
  have h3 : (0 + qs.length) % 2 ^ 32 = qs.length := by omega
  have ha : tget qs.length (([] : Mapper) ++ List.enumFrom 0 qs) = none := by
    rw [List.nil_append]
    exact tget_enumFrom_none qs 0 qs.length (Or.inr (by omega))
  simp only [indexer.Read, if_neg h0, if_true, h3, ha]
  rw [if_neg (by omega)]

/-- C13 fails on the code: a fresh segment (base offset 16, capacity 5) receives three
successful appends and is closed; reconstructed from the same files with capacity 3 it
holds three index entries, yet `IsMaxed()` is false, because `newIndexer` sets `size` to
`len(mapper) - 1 = 2`. With one append and capacity 1 likewise. The scenario of the test
(five appends; capacity 3 gives true, capacity 6 gives false) cannot tell the two apart;
with five appends and capacity 5 the reconstructed segment is not maxed either. -/
theorem C13_maxed_after_reopen_diverges :
    (testSegment 3).2.2 = [.ok 16, .ok 17, .ok 18] ∧
    (segmenter.Close (testSegment 3).1 (testSegment 3).2.1).2.2 = .ok () ∧
    (reopenSegment (testSegment 3).1 (testSegment 3).2.1
      { MaxIndexSize := 3, InitialOffset := 0 }).2.indexer.mapper.length = 3 ∧
    (reopenSegment (testSegment 3).1 (testSegment 3).2.1
      { MaxIndexSize := 3, InitialOffset := 0 }).2.indexer.Size = 2 ∧
    (reopenSegment (testSegment 3).1 (testSegment 3).2.1
      { MaxIndexSize := 3, InitialOffset := 0 }).2.IsMaxed = false ∧
    (testSegment 1).2.2 = [.ok 16] ∧
    (reopenSegment (testSegment 1).1 (testSegment 1).2.1
      { MaxIndexSize := 1, InitialOffset := 0 }).2.IsMaxed = false ∧
    (testSegment 5).2.2 = [.ok 16, .ok 17, .ok 18, .ok 19, .ok 20] ∧
    (reopenSegment (testSegment 5).1 (testSegment 5).2.1
      { MaxIndexSize := 3, InitialOffset := 0 }).2.IsMaxed = true ∧
    (reopenSegment (testSegment 5).1 (testSegment 5).2.1
      { MaxIndexSize := 6, InitialOffset := 0 }).2.IsMaxed = false ∧
    (reopenSegment (testSegment 5).1 (testSegment 5).2.1
      { MaxIndexSize := 5, InitialOffset := 0 }).2.IsMaxed = false := by
  decide

/-- C14 fails on the code for `n = 1`: after `Write(0, 7)` on an empty indexer, `Close`
and `newIndexer` on the persisted snapshot, the mapping holds the entry but `size` is
`len(mapper) - 1 = 0`, so `Read(-1)` and `Read(0)` both fail with the end-of-stream
error of an empty index instead of returning `(0, 7)`. With the two writes of the test
the reloaded indexer returns `(1, 10)` from `Read(-1)` and `(i, q_i)` from `Read(i)`. -/
theorem C14_snapshot_recovery_diverges :
    (indexer.writeAll
      (createIndexer Disk.empty 0 { MaxIndexSize := 0, InitialOffset := 0 }).2 [(0, 7)]).2
      = [.ok ()] ∧
    (reloadIndexer testIndexerDisk (testIndexer [(0, 7)])
      { MaxIndexSize := 0, InitialOffset := 0 }).2.mapper = [(0, 7)] ∧
    (reloadIndexer testIndexerDisk (testIndexer [(0, 7)])
      { MaxIndexSize := 0, InitialOffset := 0 }).2.size = 0 ∧
    (reloadIndexer testIndexerDisk (testIndexer [(0, 7)])
      { MaxIndexSize := 0, InitialOffset := 0 }).2.Read (-1) = .error .EOF ∧
    (reloadIndexer testIndexerDisk (testIndexer [(0, 7)])
      { MaxIndexSize := 0, InitialOffset := 0 }).2.Read 0 = .error .EOF ∧
    (reloadIndexer testIndexerDisk (testIndexer [(0, 0), (1, 10)])
      { MaxIndexSize := 0, InitialOffset := 0 }).2.Read (-1) = .ok (1, 10) ∧
    (reloadIndexer testIndexerDisk (testIndexer [(0, 0), (1, 10)])
      { MaxIndexSize := 0, InitialOffset := 0 }).2.Read 0 = .ok (0, 0) ∧
    (reloadIndexer testIndexerDisk (testIndexer [(0, 0), (1, 10)])
      { MaxIndexSize := 0, InitialOffset := 0 }).2.Read 1 = .ok (1, 10) := by
  decide

/-- C16 fails on the code: on an empty indexer `Read(-1)` fails with the end-of-stream
error, as claimed; but on an indexer that received `Write(0, 7)` and was not reloaded,
`size` is the entry count 1, `Read(-1)` looks up the key `uint32(size) = 1`, which is
absent, and fails with `ErrRecordPosition` instead of returning `(0, 7)`. After the two
writes of the test likewise, instead of `(1, 10)`. -/
theorem C16_read_last_diverges :
    (testIndexer []).Read (-1) = .error .EOF ∧
    (indexer.writeAll
      (createIndexer Disk.empty 0 { MaxIndexSize := 0, InitialOffset := 0 }).2 [(0, 7)]).2
      = [.ok ()] ∧
    (testIndexer [(0, 7)]).size = 1 ∧
    (testIndexer [(0, 7)]).Read (-1) = .error .RecordPosition ∧
    (testIndexer [(0, 7)]).Read 0 = .ok (0, 7) ∧
    (testIndexer [(0, 0), (1, 10)]).Read (-1) = .error .RecordPosition ∧
    (testIndexer [(0, 0), (1, 10)]).Read 1 = .ok (1, 10) := by
  decide

/-- C18 fails on the code: `segmenter.Append` never looks at `closed`. A fresh segment
(base offset 16, capacity 5) receives three appends and is closed successfully; the next
`Append` still succeeds and returns offset 19, `next_offset` becomes 20 and the index
grows to four entries, while the bytes stay in the write buffer of the closed file (the
directory is unchanged); `Read(19)` then fails with a file error. The second half of the
claim holds: `Read(16)` and `Read(18)` still return their records after the `Close`. -/
theorem C18_append_after_close_diverges :
    (segmenter.Close (testSegment 3).1 (testSegment 3).2.1).2.2 = .ok () ∧
    (segmenter.Close (testSegment 3).1 (testSegment 3).2.1).2.1.Closed = true ∧
    (segmenter.Append plainCodec
      (segmenter.Close (testSegment 3).1 (testSegment 3).2.1).1
      (segmenter.Close (testSegment 3).1 (testSegment 3).2.1).2.1
      { Value := [104, 105], Offset := 0 }).2.2 = .ok 19 ∧
    (segmenter.Append plainCodec
      (segmenter.Close (testSegment 3).1 (testSegment 3).2.1).1
      (segmenter.Close (testSegment 3).1 (testSegment 3).2.1).2.1
      { Value := [104, 105], Offset := 0 }).2.1.NextOffset = 20 ∧
    (segmenter.Append plainCodec
      (segmenter.Close (testSegment 3).1 (testSegment 3).2.1).1
      (segmenter.Close (testSegment 3).1 (testSegment 3).2.1).2.1
      { Value := [104, 105], Offset := 0 }).2.1.indexer.Size = 4 ∧
    (segmenter.Append plainCodec
      (segmenter.Close (testSegment 3).1 (testSegment 3).2.1).1
      (segmenter.Close (testSegment 3).1 (testSegment 3).2.1).2.1
      { Value := [104, 105], Offset := 0 }).1 =
      (segmenter.Close (testSegment 3).1 (testSegment 3).2.1).1 ∧
    (segmenter.Read plainCodec
      (segmenter.Append plainCodec
        (segmenter.Close (testSegment 3).1 (testSegment 3).2.1).1
        (segmenter.Close (testSegment 3).1 (testSegment 3).2.1).2.1
        { Value := [104, 105], Offset := 0 }).1
      (segmenter.Append plainCodec
        (segmenter.Close (testSegment 3).1 (testSegment 3).2.1).1
        (segmenter.Close (testSegment 3).1 (testSegment 3).2.1).2.1
        { Value := [104, 105], Offset := 0 }).2.1 19).2.2 = .error .FileError ∧
    (segmenter.Read plainCodec
      (segmenter.Close (testSegment 3).1 (testSegment 3).2.1).1
      (segmenter.Close (testSegment 3).1 (testSegment 3).2.1).2.1 16).2.2 =
      .ok { Value := [104, 105], Offset := 16 } ∧
    (segmenter.Read plainCodec
      (segmenter.Close (testSegment 3).1 (testSegment 3).2.1).1
      (segmenter.Close (testSegment 3).1 (testSegment 3).2.1).2.1 18).2.2 =
      .ok { Value := [104, 105], Offset := 18 } := by
  decide
/-! ## Lowest and highest offset -/

theorem getLast?_range_map (b m : Nat) :
    ((List.range m).map (fun i => b + i)).getLast? = if m = 0 then none else some (b + m - 1) := by
  cases m with
  | zero => rfl
  | succ k =>
    rw [List.range_succ, List.map_append, List.map_singleton, List.getLast?_append,
      List.getLast?_singleton]
    simp

/-- C19 (amended): for a log freshly created on an empty directory with initial offset
`b` and any capacity `N ≥ 1`, after `Append` calls without offset overflow (`b` plus the
number of calls below `2 ^ 64`) of which at least one succeeded, `LowestOffset()`
returns `b` and `HighestOffset()` returns the offset returned by the last successful
`Append`, which is `b + n - 1` for `n` successful appends, also when that append
triggered a rollover; and in every log state `HighestOffset()` is the last segment's
`next_offset - 1`, or 0 when that `next_offset` is 0. -/
theorem C19_lowest_highest (cd : Codec) (dir : String) (cfg : Config) (rs : List Record)
    (hN : 1 ≤ cfg.MaxIndexSize) (hb : cfg.InitialOffset + rs.length < 2 ^ 64) (last : Nat)
    (hlast : ((appendAll cd (NewRecorder Disk.empty dir cfg) rs).2.filterMap
      Except.toOption).getLast? = some last) :
    recorder.LowestOffset (appendAll cd (NewRecorder Disk.empty dir cfg) rs).1 =
      .ok cfg.InitialOffset ∧
    recorder.HighestOffset (appendAll cd (NewRecorder Disk.empty dir cfg) rs).1 = .ok last ∧
    last = cfg.InitialOffset +
      ((appendAll cd (NewRecorder Disk.empty dir cfg) rs).2.filterMap Except.toOption).length
      - 1 ∧
    ∀ (st : State) (id : Nat) (s : segmenter), st.r.segments.getLast? = some id →
      st.heap[id]? = some s →
      recorder.HighestOffset st = .ok (if s.NextOffset = 0 then 0 else s.NextOffset - 1) := by
  have h0 := NewRecorder_inv cd dir cfg hN (by omega)
  obtain ⟨m, hm, hinv, hout⟩ := appendAll_inv rs [] _ h0 (by simpa using hb)
  simp only [List.length_nil, Nat.add_zero, List.nil_append] at hinv hout
  rw [hout, filterMap_oks, getLast?_range_map] at hlast
  have hm0 : m ≠ 0 := by
    intro h
    rw [if_pos h] at hlast
    cases hlast
  rw [if_neg hm0] at hlast
  have hl : last = cfg.InitialOffset + m - 1 := (Option.some.inj hlast).symm
  have hlen : (rs.take m).length = m := by
    rw [List.length_take]
    omega
  refine ⟨hinv.lowest, ?_, ?_, ?_⟩
  · rw [hinv.highest, hlen, if_neg (by omega), hl]
  · rw [hout, filterMap_oks, List.length_map, List.length_range, hl]
  · intro st id s h1 h2
    simp only [recorder.HighestOffset, h1, h2]
    by_cases hz : s.NextOffset = 0
    · rw [if_pos hz, if_pos hz]
    · rw [if_neg hz, if_neg hz]

/-- C19 at a concrete input: capacity 3, initial offset 10, six appends; the last one
fills the second segment and triggers a rollover. -/
theorem C19_lowest_highest_witness :
    1 ≤ 3 ∧ 10 + 6 < 2 ^ 64 ∧
    ((appendAll plainCodec
      (NewRecorder Disk.empty "log" { MaxIndexSize := 3, InitialOffset := 10 })
      (List.replicate 6 { Value := [1], Offset := 0 })).2.filterMap
        Except.toOption).getLast? = some 15 ∧
    (appendAll plainCodec
      (NewRecorder Disk.empty "log" { MaxIndexSize := 3, InitialOffset := 10 })
      (List.replicate 6 { Value := [1], Offset := 0 })).1.r.segments.length = 3 ∧
    recorder.LowestOffset (appendAll plainCodec
      (NewRecorder Disk.empty "log" { MaxIndexSize := 3, InitialOffset := 10 })
      (List.replicate 6 { Value := [1], Offset := 0 })).1 = .ok 10 ∧
    recorder.HighestOffset (appendAll plainCodec
      (NewRecorder Disk.empty "log" { MaxIndexSize := 3, InitialOffset := 10 })
      (List.replicate 6 { Value := [1], Offset := 0 })).1 = .ok 15 :=
  ⟨by decide, by decide, by decide, by decide,
    (C19_lowest_highest plainCodec "log" { MaxIndexSize := 3, InitialOffset := 10 }
      (List.replicate 6 { Value := [1], Offset := 0 }) (by decide) (by decide) 15
      (by decide)).1,
    (C19_lowest_highest plainCodec "log" { MaxIndexSize := 3, InitialOffset := 10 }
      (List.replicate 6 { Value := [1], Offset := 0 }) (by decide) (by decide) 15
      (by decide)).2.1⟩

/-- Counterexample to C19 as stated: initial offset `2 ^ 64 - 1`, capacity 3, one
append. The append succeeds and returns `2 ^ 64 - 1`, the `uint64` `next_offset` wraps
to 0, and `HighestOffset()` returns 0, not the offset returned by the append. -/
theorem C19_counterexample :
    (appendAll plainCodec
      (NewRecorder Disk.empty "log" { MaxIndexSize := 3, InitialOffset := 2 ^ 64 - 1 })
      [{ Value := [1], Offset := 0 }]).2 = [.ok (2 ^ 64 - 1)] ∧
    recorder.LowestOffset (freshLog plainCodec
      { MaxIndexSize := 3, InitialOffset := 2 ^ 64 - 1 } [{ Value := [1], Offset := 0 }]) =
      .ok (2 ^ 64 - 1) ∧
    recorder.HighestOffset (freshLog plainCodec
      { MaxIndexSize := 3, InitialOffset := 2 ^ 64 - 1 } [{ Value := [1], Offset := 0 }]) =
      .ok 0 := by
  decide

/-! ## What an append does to the offsets of a segment -/

theorem fileWrite_indexes {d d' : Disk} {name : Nat} {h : Handle} {p : Bytes}
    (hw : fileWrite d name h p = some d') : d'.indexes = d.indexes :=
  (fileWrite_frame hw).1

theorem filer.bufWrite_indexes (d : Disk) (f : filer) (p : Bytes) :
    (filer.bufWrite d f p).1.indexes = d.indexes := by
  unfold filer.bufWrite
  split
  · rfl
  · split
    · rfl
    · split
      · split
        · next d' hw => exact fileWrite_indexes hw
        · rfl
      · have hfl := (filer.Flush_frame d
          { f with buf := f.buf ++ p.take (bufSize - f.buf.length) }).2.1
        simp only
        split
        · next d1 f1 heq =>
          rw [heq] at hfl
          exact hfl
        · next d1 f1 heq =>
          rw [heq] at hfl
          split
          · exact hfl
          · split
            · next d2 hw => exact (fileWrite_indexes hw).trans hfl
            · exact hfl

theorem filer.Append_indexes (d : Disk) (f : filer) (p : Bytes) :
    (filer.Append d f p).1.indexes = d.indexes := by
  unfold filer.Append
  have h1 := filer.bufWrite_indexes d f (putUint64 (p.length % 2 ^ 64))
  simp only
  split
  · next d1 f1 heq =>
    rw [heq] at h1
    exact h1
  · next d1 f1 heq =>
    rw [heq] at h1
    have h2 := filer.bufWrite_indexes d1 f1 p
    split
    · next d2 f2 heq2 =>
      rw [heq2] at h2
      exact h2.trans h1
    · next d2 f2 heq2 =>
      rw [heq2] at h2
      exact h2.trans h1

theorem indexer.Write_name (i : indexer) (off pos : Nat) :
    (i.Write off pos).1.name = i.name := by
  unfold indexer.Write
  split
  · rfl
  · split <;> rfl

theorem indexer.Write_size (i : indexer) (off pos : Nat) :
    ((i.Write off pos).2 = .ok () ∧ (i.Write off pos).1.size = (i.size + 1) % 2 ^ 64) ∨
    ((∃ e, (i.Write off pos).2 = .error e) ∧ (i.Write off pos).1 = i) := by
  unfold indexer.Write
  split
  · exact Or.inr ⟨⟨_, rfl⟩, rfl⟩
  · split
    · exact Or.inr ⟨⟨_, rfl⟩, rfl⟩
    · exact Or.inl ⟨rfl, rfl⟩

/-- The effect of `segmenter.Append` on the offsets, in any state of the segment: the
index files of the directory, the base offset and the name of the index are untouched;
a successful call returns `next_offset` and adds one to it and to the size of the
index; a failed call leaves both as they were. -/
theorem segmenter.Append_offsets (cd : Codec) (d : Disk) (s : segmenter) (r : Record) :
    (s.Append cd d r).1.indexes = d.indexes ∧
    (s.Append cd d r).2.1.baseOffset = s.baseOffset ∧
    (s.Append cd d r).2.1.indexer.name = s.indexer.name ∧
    (((s.Append cd d r).2.2 = .ok s.nextOffset ∧
        (s.Append cd d r).2.1.nextOffset = (s.nextOffset + 1) % 2 ^ 64 ∧
        (s.Append cd d r).2.1.indexer.size = (s.indexer.size + 1) % 2 ^ 64) ∨
      ((∃ e, (s.Append cd d r).2.2 = .error e) ∧
        (s.Append cd d r).2.1.nextOffset = s.nextOffset ∧
        (s.Append cd d r).2.1.indexer.size = s.indexer.size)) := by
  unfold segmenter.Append
  split
  · exact ⟨rfl, rfl, rfl, Or.inr ⟨⟨_, rfl⟩, rfl, rfl⟩⟩
  · have hf := filer.Append_indexes d s.filer (cd.marshal { r with Offset := s.nextOffset })
    simp only
    split
    · next d1 f1 e heq =>
      rw [heq] at hf
      exact ⟨hf, rfl, rfl, Or.inr ⟨⟨_, rfl⟩, rfl, rfl⟩⟩
    · next d1 f1 n pos heq =>
      rw [heq] at hf
      have hn := indexer.Write_name s.indexer (subU64 s.nextOffset s.baseOffset % 2 ^ 32) pos
      have hs := indexer.Write_size s.indexer (subU64 s.nextOffset s.baseOffset % 2 ^ 32) pos
      split
      · next i1 e heq2 =>
        rw [heq2] at hn hs
        rcases hs with ⟨h1, _⟩ | ⟨_, h2⟩
        · cases h1
        · simp only at h2
          exact ⟨hf, rfl, hn, Or.inr ⟨⟨_, rfl⟩, rfl, by rw [h2]⟩⟩
      · next i1 u heq2 =>
        rw [heq2] at hn hs
        rcases hs with ⟨_, h1⟩ | ⟨⟨e, h2⟩, _⟩
        · exact ⟨hf, rfl, hn, Or.inl ⟨rfl, rfl, h1⟩⟩
        · cases h2

theorem newSegmenter_offsets (d : Disk) (b : Nat) (c : Config)
    (hx : tget b d.indexes = none) :
    (newSegmenter d b c).2.baseOffset = b ∧ (newSegmenter d b c).2.nextOffset = b ∧
    (newSegmenter d b c).2.indexer.name = b ∧ (newSegmenter d b c).2.indexer.size = 0 ∧
    ∀ key, key ≠ b → tget key (newSegmenter d b c).1.indexes = tget key d.indexes := by
  cases hf : tget b d.filers with
  | none =>
    simp only [newSegmenter, hf, hx, newIndexer, tget_tput_same, indexer.Read]
    refine ⟨by simp, by simp, by simp, by simp, fun key hk => ?_⟩
    exact tget_tput_other _ _ _ _ hk
  | some x =>
    simp only [newSegmenter, hf, hx, newIndexer, tget_tput_same, indexer.Read]
    refine ⟨by simp, by simp, by simp, by simp, fun key hk => ?_⟩
    exact tget_tput_other _ _ _ _ hk
theorem segAppendAll_offsets (cd : Codec) (rs : List Record) :
    ∀ (d : Disk) (s : segmenter), s.baseOffset ≤ s.nextOffset →
      s.nextOffset - s.baseOffset = s.indexer.size → s.nextOffset + rs.length < 2 ^ 64 →
      (segAppendAll cd d s rs).2.1.baseOffset = s.baseOffset ∧
      s.nextOffset ≤ (segAppendAll cd d s rs).2.1.nextOffset ∧
      (segAppendAll cd d s rs).2.1.nextOffset ≤ s.nextOffset + rs.length ∧
      (segAppendAll cd d s rs).2.1.nextOffset - (segAppendAll cd d s rs).2.1.baseOffset =
        (segAppendAll cd d s rs).2.1.indexer.size := by
  induction rs with
  | nil =>
    intro d s _ h2 _
    exact ⟨rfl, Nat.le_refl _, Nat.le_refl _, h2⟩
  | cons r rs ih =>
    intro d s h1 h2 h3
    have hlen : (r :: rs).length = rs.length + 1 := rfl
    rw [hlen] at h3
    obtain ⟨_, hb, _, hcase⟩ := segmenter.Append_offsets cd d s r
    rw [segAppendAll_cons]
    rcases hcase with ⟨_, hn, hs⟩ | ⟨_, hn, hs⟩
    · have hn' : (s.Append cd d r).2.1.nextOffset = s.nextOffset + 1 := by
        rw [hn]
        omega
      have hs' : (s.Append cd d r).2.1.indexer.size = s.indexer.size + 1 := by
        rw [hs]
        omega
      obtain ⟨i1, i2, i3, i4⟩ := ih (s.Append cd d r).1 (s.Append cd d r).2.1
        (by rw [hb, hn']; omega) (by rw [hb, hn', hs']; omega) (by rw [hn']; omega)
      refine ⟨i1.trans hb, ?_, ?_, i4⟩
      · rw [hn'] at i2
        exact Nat.le_trans (Nat.le_succ _) i2
      · rw [hn'] at i3
        exact Nat.le_trans i3 (by rw [hlen]; omega)
    · obtain ⟨i1, i2, i3, i4⟩ := ih (s.Append cd d r).1 (s.Append cd d r).2.1
        (by rw [hb, hn]; exact h1) (by rw [hb, hn, hs]; exact h2) (by rw [hn]; omega)
      refine ⟨i1.trans hb, ?_, ?_, i4⟩
      · rw [hn] at i2
        exact i2
      · rw [hn] at i3
        exact Nat.le_trans i3 (by rw [hlen]; omega)

theorem segmenter.Close_offsets (d : Disk) (s : segmenter) :
    (s.Close d).2.1.baseOffset = s.baseOffset ∧ (s.Close d).2.1.nextOffset = s.nextOffset ∧
    (s.Close d).2.1.indexer = s.indexer := by
  unfold segmenter.Close
  simp only
  split <;> exact ⟨rfl, rfl, rfl⟩

/-- C21 (amended): for every segment created fresh (no index file for its base offset
`b`), after any number of `Append` calls, successful or failed, as long as no offset
overflows (`b` plus the number of calls below `2 ^ 64`), `base_offset ≤ next_offset` and
`next_offset - base_offset == indexer.Size()`, with `base_offset = b`; and the same holds
after the segment was closed. -/
theorem C21_segment_offsets (cd : Codec) (d : Disk) (b : Nat) (c : Config) (rs : List Record)
    (hx : tget b d.indexes = none) (hb : b + rs.length < 2 ^ 64) :
    (segAppendAll cd (newSegmenter d b c).1 (newSegmenter d b c).2 rs).2.1.BaseOffset = b ∧
    (segAppendAll cd (newSegmenter d b c).1 (newSegmenter d b c).2 rs).2.1.BaseOffset ≤
      (segAppendAll cd (newSegmenter d b c).1 (newSegmenter d b c).2 rs).2.1.NextOffset ∧
    (segAppendAll cd (newSegmenter d b c).1 (newSegmenter d b c).2 rs).2.1.NextOffset -
        (segAppendAll cd (newSegmenter d b c).1 (newSegmenter d b c).2 rs).2.1.BaseOffset =
      (segAppendAll cd (newSegmenter d b c).1 (newSegmenter d b c).2 rs).2.1.indexer.Size ∧
    (segmenter.Close (segAppendAll cd (newSegmenter d b c).1 (newSegmenter d b c).2 rs).1
        (segAppendAll cd (newSegmenter d b c).1 (newSegmenter d b c).2 rs).2.1).2.1.BaseOffset ≤
      (segmenter.Close (segAppendAll cd (newSegmenter d b c).1 (newSegmenter d b c).2 rs).1
        (segAppendAll cd (newSegmenter d b c).1 (newSegmenter d b c).2 rs).2.1).2.1.NextOffset ∧
    (segmenter.Close (segAppendAll cd (newSegmenter d b c).1 (newSegmenter d b c).2 rs).1
        (segAppendAll cd (newSegmenter d b c).1 (newSegmenter d b c).2 rs).2.1).2.1.NextOffset -
      (segmenter.Close (segAppendAll cd (newSegmenter d b c).1 (newSegmenter d b c).2 rs).1
        (segAppendAll cd (newSegmenter d b c).1 (newSegmenter d b c).2 rs).2.1).2.1.BaseOffset =
      (segmenter.Close (segAppendAll cd (newSegmenter d b c).1 (newSegmenter d b c).2 rs).1
        (segAppendAll cd (newSegmenter d b c).1 (newSegmenter d b c).2 rs).2.1).2.1.indexer.Size
    := by
  obtain ⟨h1, h2, _, h4, _⟩ := newSegmenter_offsets d b c hx
  obtain ⟨i1, i2, _, i4⟩ := segAppendAll_offsets cd rs (newSegmenter d b c).1
    (newSegmenter d b c).2 (by rw [h1, h2]) (by rw [h1, h2, h4]; omega) (by rw [h2]; exact hb)
  obtain ⟨c1, c2, c3⟩ := segmenter.Close_offsets
    (segAppendAll cd (newSegmenter d b c).1 (newSegmenter d b c).2 rs).1
    (segAppendAll cd (newSegmenter d b c).1 (newSegmenter d b c).2 rs).2.1
  have hle : (segAppendAll cd (newSegmenter d b c).1 (newSegmenter d b c).2 rs).2.1.baseOffset ≤
      (segAppendAll cd (newSegmenter d b c).1 (newSegmenter d b c).2 rs).2.1.nextOffset := by
    rw [i1, h1]
    rw [h2] at i2
    exact i2
  simp only [segmenter.BaseOffset, segmenter.NextOffset, indexer.Size, c1, c2, c3]
  exact ⟨i1.trans h1, hle, i4, hle, i4⟩

/-- C21 at a concrete input: base offset 16, capacity 5 and seven appends, of which
the last two fail. -/
theorem C21_segment_offsets_witness :
    tget 16 Disk.empty.indexes = none ∧
    16 + (List.replicate 7 ({ Value := [104, 105], Offset := 0 } : Record)).length < 2 ^ 64 ∧
    (segAppendAll plainCodec
      (newSegmenter Disk.empty 16 { MaxIndexSize := 5, InitialOffset := 0 }).1
      (newSegmenter Disk.empty 16 { MaxIndexSize := 5, InitialOffset := 0 }).2
      (List.replicate 7 { Value := [104, 105], Offset := 0 })).2.2 =
      [.ok 16, .ok 17, .ok 18, .ok 19, .ok 20, .error .EOF, .error .EOF] ∧
    (segAppendAll plainCodec
      (newSegmenter Disk.empty 16 { MaxIndexSize := 5, InitialOffset := 0 }).1
      (newSegmenter Disk.empty 16 { MaxIndexSize := 5, InitialOffset := 0 }).2
      (List.replicate 7 { Value := [104, 105], Offset := 0 })).2.1.NextOffset -
    (segAppendAll plainCodec
      (newSegmenter Disk.empty 16 { MaxIndexSize := 5, InitialOffset := 0 }).1
      (newSegmenter Disk.empty 16 { MaxIndexSize := 5, InitialOffset := 0 }).2
      (List.replicate 7 { Value := [104, 105], Offset := 0 })).2.1.BaseOffset =
    (segAppendAll plainCodec
      (newSegmenter Disk.empty 16 { MaxIndexSize := 5, InitialOffset := 0 }).1
      (newSegmenter Disk.empty 16 { MaxIndexSize := 5, InitialOffset := 0 }).2
      (List.replicate 7 { Value := [104, 105], Offset := 0 })).2.1.indexer.Size :=
  ⟨by decide, by decide, by decide,
    (C21_segment_offsets plainCodec Disk.empty 16 { MaxIndexSize := 5, InitialOffset := 0 }
      (List.replicate 7 { Value := [104, 105], Offset := 0 }) (by decide) (by decide)).2.2.1⟩

/-- Counterexample to C21 as stated: a fresh segment with base offset `2 ^ 64 - 1`
(capacity 3) after one successful append has `next_offset = 0`, below its base offset:
offsets are `uint64` and wrap. (A segment reconstructed from its files breaks the second
half: after three appends, `Close` and `newSegmenter` the segment has base offset 16,
`next_offset` 19 and `indexer.Size()` 2.) -/
theorem C21_counterexample :
    (segAppendAll plainCodec
      (newSegmenter Disk.empty (2 ^ 64 - 1) { MaxIndexSize := 3, InitialOffset := 0 }).1
      (newSegmenter Disk.empty (2 ^ 64 - 1) { MaxIndexSize := 3, InitialOffset := 0 }).2
      [{ Value := [1], Offset := 0 }]).2.2 = [.ok (2 ^ 64 - 1)] ∧
    (segAppendAll plainCodec
      (newSegmenter Disk.empty (2 ^ 64 - 1) { MaxIndexSize := 3, InitialOffset := 0 }).1
      (newSegmenter Disk.empty (2 ^ 64 - 1) { MaxIndexSize := 3, InitialOffset := 0 }).2
      [{ Value := [1], Offset := 0 }]).2.1.BaseOffset = 2 ^ 64 - 1 ∧
    (segAppendAll plainCodec
      (newSegmenter Disk.empty (2 ^ 64 - 1) { MaxIndexSize := 3, InitialOffset := 0 }).1
      (newSegmenter Disk.empty (2 ^ 64 - 1) { MaxIndexSize := 3, InitialOffset := 0 }).2
      [{ Value := [1], Offset := 0 }]).2.1.NextOffset = 0 ∧
    (reopenSegment (testSegment 3).1 (testSegment 3).2.1
      { MaxIndexSize := 5, InitialOffset := 0 }).2.BaseOffset = 16 ∧
    (reopenSegment (testSegment 3).1 (testSegment 3).2.1
      { MaxIndexSize := 5, InitialOffset := 0 }).2.NextOffset = 19 ∧
    (reopenSegment (testSegment 3).1 (testSegment 3).2.1
      { MaxIndexSize := 5, InitialOffset := 0 }).2.indexer.Size = 2 := by
  decide
/-! ## Eager rollover -/

theorem LogInv.active_open {cd : Codec} {cfg : Config} {recs : List Record} {st : State}
    (h : LogInv cd cfg recs st) :
    ∃ s, st.r.activeSegment = some (st.heap.length - 1) ∧
      st.r.segments.getLast? = some (st.heap.length - 1) ∧
      st.r.segments = List.range st.heap.length ∧
      st.heap[st.heap.length - 1]? = some s ∧ s.IsMaxed = false ∧
      s.indexer.Size = recs.length - (st.heap.length - 1) * cfg.MaxIndexSize ∧
      s.BaseOffset = cfg.InitialOffset + (st.heap.length - 1) * cfg.MaxIndexSize ∧
      s.NextOffset = cfg.InitialOffset + recs.length := by
  obtain ⟨s, hs, _, hinv⟩ := h.active_seg
  have hpos := h.1.len_pos
  have hsucc : (st.heap.length - 1 + 1) * cfg.MaxIndexSize
      = (st.heap.length - 1) * cfg.MaxIndexSize + cfg.MaxIndexSize := Nat.succ_mul _ _
  have hlen1 : st.heap.length - 1 + 1 = st.heap.length := by omega
  rw [hlen1] at hsucc
  have hstrict := h.2
  have hnpos := h.1.npos
  have hlo := h.1.lo
  refine ⟨s, h.1.active, ?_, h.1.segs, hs, ?_, hinv.size, hinv.base, hinv.next⟩
  · rw [h.1.segs]
    have e : st.heap.length = (st.heap.length - 1) + 1 := by omega
    rw [e, List.range_succ, List.getLast?_append, List.getLast?_singleton]
    simp
  · have hsz : s.indexer.size = recs.length - (st.heap.length - 1) * cfg.MaxIndexSize :=
      hinv.size
    simp only [segmenter.IsMaxed, indexer.Size, hsz, hinv.config, decide_eq_false_iff_not]
    omega

/-- C24 (amended): in every log state reached from a log freshly created on an empty
directory, with capacity `1 ≤ N < 2 ^ 32`, by `Append` calls without offset overflow,
the active segment is the last of the list and is not maxed, and the next `Append`
succeeds (it never fails with the end-of-stream error) and returns the next offset; if
that call fills the active segment, the same call appends a new, empty active segment to
the list, with base offset equal to the returned offset plus 1; otherwise the list and
the active segment stay as they are. -/
theorem C24_eager_rollover (cd : Codec) (dir : String) (cfg : Config) (rs : List Record)
    (r : Record) (hN : 1 ≤ cfg.MaxIndexSize) (hN32 : cfg.MaxIndexSize < 2 ^ 32)
    (hb : cfg.InitialOffset + rs.length + 1 < 2 ^ 64) :
    ∃ (a : Nat) (s : segmenter) (a' : Nat) (s' : segmenter),
      (appendAll cd (NewRecorder Disk.empty dir cfg) rs).1.r.activeSegment = some a ∧
      (appendAll cd (NewRecorder Disk.empty dir cfg) rs).1.r.segments.getLast? = some a ∧
      (appendAll cd (NewRecorder Disk.empty dir cfg) rs).1.heap[a]? = some s ∧
      s.IsMaxed = false ∧
      (recorder.Append cd (appendAll cd (NewRecorder Disk.empty dir cfg) rs).1 r).2 =
        .ok (cfg.InitialOffset + rs.length) ∧
      (recorder.Append cd (appendAll cd (NewRecorder Disk.empty dir cfg) rs).1 r).1.r.activeSegment
        = some a' ∧
      (recorder.Append cd (appendAll cd (NewRecorder Disk.empty dir cfg) rs).1
        r).1.r.segments.getLast? = some a' ∧
      (recorder.Append cd (appendAll cd (NewRecorder Disk.empty dir cfg) rs).1 r).1.heap[a']?
        = some s' ∧
      s'.IsMaxed = false ∧
      (s.indexer.Size + 1 = cfg.MaxIndexSize →
        a' = a + 1 ∧
        (recorder.Append cd (appendAll cd (NewRecorder Disk.empty dir cfg) rs).1 r).1.r.segments =
          (appendAll cd (NewRecorder Disk.empty dir cfg) rs).1.r.segments ++ [a'] ∧
        s'.BaseOffset = cfg.InitialOffset + rs.length + 1 ∧ s'.NextOffset = s'.BaseOffset) ∧
      (s.indexer.Size + 1 ≠ cfg.MaxIndexSize →
        a' = a ∧
        (recorder.Append cd (appendAll cd (NewRecorder Disk.empty dir cfg) rs).1 r).1.r.segments =
          (appendAll cd (NewRecorder Disk.empty dir cfg) rs).1.r.segments) := by
  have h0 := NewRecorder_inv cd dir cfg hN (by omega)
  obtain ⟨_, h1⟩ := appendAll_ok rs [] _ h0 (Or.inl hN32) (by simp only [List.length_nil]; omega)
  rw [List.nil_append] at h1
  obtain ⟨s, ha, hl, hsegs, hs, hm, hsz, _, _⟩ := h1.active_open
  have hpos := h1.1.len_pos
  have hlo := h1.1.lo
  have hstrict := h1.2
  obtain ⟨h2, h3⟩ := h1.append_ok r hb (by
    have hsucc : ((appendAll cd (NewRecorder Disk.empty dir cfg) rs).1.heap.length - 1 + 1)
        * cfg.MaxIndexSize =
        ((appendAll cd (NewRecorder Disk.empty dir cfg) rs).1.heap.length - 1)
          * cfg.MaxIndexSize + cfg.MaxIndexSize := Nat.succ_mul _ _
    have hlen1 : (appendAll cd (NewRecorder Disk.empty dir cfg) rs).1.heap.length - 1 + 1 =
        (appendAll cd (NewRecorder Disk.empty dir cfg) rs).1.heap.length := by omega
    rw [hlen1] at hsucc
    omega)
  obtain ⟨s', ha', hl', hsegs', hs', hm', _, hbase', hnext'⟩ := h3.active_open
  have hpos' := h3.1.len_pos
  have hlo' := h3.1.lo
  have hstrict' := h3.2
  have hlen' : (rs ++ [r]).length = rs.length + 1 := by simp
  rw [hlen'] at hlo' hstrict' hnext'
  generalize (appendAll cd (NewRecorder Disk.empty dir cfg) rs).1 = st at *
  generalize (recorder.Append cd st r).1 = st' at *
  have hsucc : (st.heap.length - 1 + 1) * cfg.MaxIndexSize
      = (st.heap.length - 1) * cfg.MaxIndexSize + cfg.MaxIndexSize := Nat.succ_mul _ _
  have hlen1 : st.heap.length - 1 + 1 = st.heap.length := by omega
  rw [hlen1] at hsucc
  have hsucc' : (st'.heap.length - 1 + 1) * cfg.MaxIndexSize
      = (st'.heap.length - 1) * cfg.MaxIndexSize + cfg.MaxIndexSize := Nat.succ_mul _ _
  have hlen1' : st'.heap.length - 1 + 1 = st'.heap.length := by omega
  rw [hlen1'] at hsucc'
  refine ⟨st.heap.length - 1, s, st'.heap.length - 1, s', ha, hl, hs, hm, h2, ha', hl', hs',
    hm', fun hfull => ?_, fun hnot => ?_⟩
  · have hfull' : s.indexer.Size + 1 = cfg.MaxIndexSize := hfull
    rw [hsz] at hfull'
    have hn : rs.length + 1 = st.heap.length * cfg.MaxIndexSize := by omega
    have hlt : st.heap.length < st'.heap.length :=
      Nat.lt_of_mul_lt_mul_right (a := cfg.MaxIndexSize) (by omega)
    have hle : st'.heap.length - 1 ≤ st.heap.length :=
      Nat.le_of_mul_le_mul_right (by omega) (show 0 < cfg.MaxIndexSize by omega)
    have he : st'.heap.length = st.heap.length + 1 := by omega
    refine ⟨by omega, ?_, ?_, ?_⟩
    · rw [hsegs, hsegs', he, List.range_succ]
      simp
    · rw [hbase']
      have : st'.heap.length - 1 = st.heap.length := by omega
      rw [this]
      omega
    · rw [hnext', hbase']
      have : st'.heap.length - 1 = st.heap.length := by omega
      rw [this]
      omega
  · have hnot' : s.indexer.Size + 1 ≠ cfg.MaxIndexSize := hnot
    rw [hsz] at hnot'
    have hn : rs.length + 1 < st.heap.length * cfg.MaxIndexSize := by omega
    have hle : st'.heap.length - 1 < st.heap.length :=
      Nat.lt_of_mul_lt_mul_right (a := cfg.MaxIndexSize) (by omega)
    have hge : st.heap.length - 1 < st'.heap.length :=
      Nat.lt_of_mul_lt_mul_right (a := cfg.MaxIndexSize) (by omega)
    have he : st'.heap.length = st.heap.length := by omega
    exact ⟨by rw [he], by rw [hsegs, hsegs', he]⟩

/-- C24 at a concrete input: capacity 3, initial offset 10, two appends; the third
`Append` returns 12 (and fills the first segment). -/
theorem C24_eager_rollover_witness :
    1 ≤ 3 ∧ 3 < 2 ^ 32 ∧
    10 + (List.replicate 2 ({ Value := [1], Offset := 0 } : Record)).length + 1 < 2 ^ 64 ∧
    (recorder.Append plainCodec
      (appendAll plainCodec
        (NewRecorder Disk.empty "log" { MaxIndexSize := 3, InitialOffset := 10 })
        (List.replicate 2 { Value := [1], Offset := 0 })).1
      { Value := [1], Offset := 0 }).2 =
      .ok (10 + (List.replicate 2 ({ Value := [1], Offset := 0 } : Record)).length) ∧
    (recorder.Append plainCodec
      (appendAll plainCodec
        (NewRecorder Disk.empty "log" { MaxIndexSize := 3, InitialOffset := 10 })
        (List.replicate 2 { Value := [1], Offset := 0 })).1
      { Value := [1], Offset := 0 }).1.r.segments.length = 2 :=
  ⟨by decide, by decide, by decide, by
    obtain ⟨_, _, _, _, _, _, _, _, h, _⟩ :=
      C24_eager_rollover plainCodec "log" { MaxIndexSize := 3, InitialOffset := 10 }
        (List.replicate 2 { Value := [1], Offset := 0 }) { Value := [1], Offset := 0 }
        (by decide) (by decide) (by decide)
    exact h, by decide⟩

theorem append_at_cap (cd : Codec) (dir : String) (cfg : Config) (rs : List Record)
    (x : Record) (hN : cfg.MaxIndexSize = 2 ^ 32) (hb : cfg.InitialOffset = 0)
    (hl : rs.length = 2 ^ 32 - 1) :
    (appendAll cd (NewRecorder Disk.empty dir cfg) rs).2 =
      (List.range rs.length).map (fun i => Except.ok (cfg.InitialOffset + i)) ∧
    (recorder.Append cd (appendAll cd (NewRecorder Disk.empty dir cfg) rs).1 x).2 =
      .error .EOF := by
  have h0 := NewRecorder_inv cd dir cfg (by omega) (by omega)
  obtain ⟨h1, h2⟩ := appendAll_ok rs [] _ h0 (Or.inr (by simp only [List.length_nil]; omega))
    (by simp only [List.length_nil]; omega)
  rw [List.nil_append] at h2
  have hlo := h2.1.lo
  have hone : (appendAll cd (NewRecorder Disk.empty dir cfg) rs).1.heap.length - 1 = 0 := by
    by_contra hc
    have hm : 1 * cfg.MaxIndexSize ≤
        ((appendAll cd (NewRecorder Disk.empty dir cfg) rs).1.heap.length - 1)
          * cfg.MaxIndexSize := Nat.mul_le_mul_right _ (by omega)
    omega
  obtain ⟨h3, _, _⟩ := h2.append_full x (by rw [hone]; omega)
  exact ⟨by simpa using h1, h3⟩

/-- Counterexample to C24 as stated: with capacity `2 ^ 32` and initial offset 0, the
first `2 ^ 32 - 1` appends succeed (returning offsets `0` to `2 ^ 32 - 2`), the active
segment is not maxed, and the next `Append` fails with the end-of-stream error:
`indexer.Write` compares the relative offset `2 ^ 32 - 1` with `uint32(size) + 1`, which
has wrapped to 0. -/
theorem C24_counterexample :
    (appendAll plainCodec
      (NewRecorder Disk.empty "log" { MaxIndexSize := 2 ^ 32, InitialOffset := 0 })
      (List.replicate (2 ^ 32 - 1) { Value := [], Offset := 0 })).2 =
      (List.range (2 ^ 32 - 1)).map (fun i => Except.ok (0 + i)) ∧
    (recorder.Append plainCodec
      (appendAll plainCodec
        (NewRecorder Disk.empty "log" { MaxIndexSize := 2 ^ 32, InitialOffset := 0 })
        (List.replicate (2 ^ 32 - 1) { Value := [], Offset := 0 })).1
      { Value := [], Offset := 0 }).2 = .error .EOF := by
  have h := append_at_cap plainCodec "log" { MaxIndexSize := 2 ^ 32, InitialOffset := 0 }
    (List.replicate (2 ^ 32 - 1) { Value := [], Offset := 0 }) { Value := [], Offset := 0 }
    rfl rfl (List.length_replicate _ _)
  rw [List.length_replicate] at h
  exact h
/-! ## Reads of a segment outside its range -/

theorem toInt64_low (rel : Nat) (hrel : rel < 2 ^ 64) :
    (toInt64 rel = -1 ↔ rel = 2 ^ 64 - 1) ∧ (toInt64 rel % 2 ^ 32).toNat = rel % 2 ^ 32 := by
  unfold toInt64
  have h1 : rel % 2 ^ 64 = rel := Nat.mod_eq_of_lt hrel
  rw [h1]
  by_cases h : rel < 2 ^ 63
  · rw [if_pos h]
    constructor
    · constructor
      · intro h2
        omega
      · intro h2
        omega
    · omega
  · rw [if_neg h]
    constructor
    · constructor
      · intro h2
        omega
      · intro h2
        omega
    · omega

theorem indexer.Read_high (i : indexer) (rel : Nat) (hrel : rel < 2 ^ 64) (hs : 0 < i.size)
    (hs32 : i.size < 2 ^ 32) (habs : ∀ key, i.size ≤ key → tget key i.mapper = none)
    (hj : i.size ≤ rel % 2 ^ 32) : ∃ e, i.Read (toInt64 rel) = .error e := by
  obtain ⟨_, h2⟩ := toInt64_low rel hrel
  have h0 : ¬ i.size = 0 := by omega
  have h3 : i.size % 2 ^ 32 = i.size := Nat.mod_eq_of_lt hs32
  simp only [indexer.Read, if_neg h0, h2, h3]
  by_cases hm : toInt64 rel = -1
  · rw [if_pos hm, if_neg (Nat.lt_irrefl _), habs i.size (Nat.le_refl _)]
    exact ⟨_, rfl⟩
  · rw [if_neg hm]
    by_cases hgt : rel % 2 ^ 32 > i.size
    · rw [if_pos hgt]
      exact ⟨_, rfl⟩
    · rw [if_neg hgt, habs (rel % 2 ^ 32) hj]
      exact ⟨_, rfl⟩

theorem indexer.Read_low (i : indexer) (rel : Nat) (hrel : rel < 2 ^ 64) (hs32 : i.size < 2 ^ 32)
    (hj : rel % 2 ^ 32 < i.size) :
    i.Read (toInt64 rel) = i.Read ((rel % 2 ^ 32 : Nat) : Int) := by
  obtain ⟨h1, h2⟩ := toInt64_low rel hrel
  have h0 : ¬ i.size = 0 := by omega
  have hm : ¬ toInt64 rel = -1 := by
    intro h
    have := h1.mp h
    omega
  have hm' : ¬ ((rel % 2 ^ 32 : Nat) : Int) = -1 := by omega
  have h4 : (((rel % 2 ^ 32 : Nat) : Int) % 2 ^ 32).toNat = rel % 2 ^ 32 := by omega
  simp only [indexer.Read, if_neg h0, if_neg hm, if_neg hm', h2, h4]

theorem segmenter.Read_error (cd : Codec) (d : Disk) (s : segmenter) (off : Nat) (e : Error)
    (h : s.indexer.Read (toInt64 (subU64 off s.baseOffset)) = .error e) :
    s.Read cd d off = (d, s, .error e) := by
  simp only [segmenter.Read, h]

theorem segmenter.Read_congr (cd : Codec) (d : Disk) (s : segmenter) (off off' : Nat)
    (h : s.indexer.Read (toInt64 (subU64 off s.baseOffset)) =
      s.indexer.Read (toInt64 (subU64 off' s.baseOffset))) :
    s.Read cd d off = s.Read cd d off' := by
  simp only [segmenter.Read, h]

theorem subU64_lt (a b : Nat) : subU64 a b < 2 ^ 64 := by
  unfold subU64
  omega

/-- C25 (amended): for every freshly created (not reloaded) segment with base offset `b`
and capacity `N < 2 ^ 32`, `b + N < 2 ^ 64`, holding `k ≥ 1` records, and every `uint64`
offset `off`: `Segment.Read(off)` fails and returns no record (leaving the segment and
the directory unchanged) whenever the low 32 bits of `off - b` are at least `k`; this
covers every `off` with `next_offset ≤ off < b + 2 ^ 32` and `off = b - 1`. When the low
32 bits `j` of `off - b` are below `k`, it returns the record stored under `b + j`. -/
theorem C25_segment_read_range (cd : Codec) (hcd : cd.Lawful) (d : Disk) (b : Nat)
    (c : Config) (hf : tget b d.filers = none) (hx : tget b d.indexes = none)
    (hN32 : c.MaxIndexSize < 2 ^ 32) (hb : b + c.MaxIndexSize < 2 ^ 64)
    (rs : List Record) (hpos : 1 ≤ rs.length) (hlen : rs.length ≤ c.MaxIndexSize)
    (hv : ∀ r ∈ rs, r.Value.length < 2 ^ 63) (off : Nat) (hoff : off < 2 ^ 64) :
    ∃ (d' : Disk) (s' : segmenter),
      segAppendAll cd (newSegmenter d b c).1 (newSegmenter d b c).2 rs =
        (d', s', (List.range rs.length).map (fun i => Except.ok (b + i))) ∧
      s'.BaseOffset = b ∧ s'.NextOffset = b + rs.length ∧
      (rs.length ≤ subU64 off b % 2 ^ 32 → ∃ e, s'.Read cd d' off = (d', s', .error e)) ∧
      (b + rs.length ≤ off → off < b + 2 ^ 32 → ∃ e, s'.Read cd d' off = (d', s', .error e)) ∧
      (off + 1 = b → ∃ e, s'.Read cd d' off = (d', s', .error e)) ∧
      (∀ r, rs[subU64 off b % 2 ^ 32]? = some r →
        (s'.Read cd d' off).2.2 =
          .ok { Value := r.Value, Offset := b + subU64 off b % 2 ^ 32 }) := by
  obtain ⟨h0, hop, hc0⟩ := fresh_segment_inv cd d b c hf hx
  obtain ⟨d', s', hr, hinv, hc, _⟩ :=
    segAppendAll_ok rs [] (newSegmenter d b c).1 (newSegmenter d b c).2 h0
      (by rw [hc0]) hop (by simpa using hlen)
      (by simp only [List.length_nil, Nat.zero_add]; omega)
      (by simp only [List.length_nil, Nat.add_zero]; omega)
  simp only [List.length_nil, Nat.zero_add, Nat.add_zero, List.nil_append] at hr hinv
  have hbase : s'.baseOffset = b := hinv.base
  have hsize : s'.indexer.size = rs.length := hinv.size
  have habs : ∀ key, s'.indexer.size ≤ key → tget key s'.indexer.mapper = none := by
    intro key hk
    rw [hsize] at hk
    exact hinv.absent key hk
  have hfail : rs.length ≤ subU64 off b % 2 ^ 32 → ∃ e, s'.Read cd d' off = (d', s', .error e) := by
    intro hj
    obtain ⟨e, he⟩ := indexer.Read_high s'.indexer (subU64 off b) (subU64_lt _ _)
      (by rw [hsize]; omega) (by rw [hsize]; omega) habs (by rw [hsize]; exact hj)
    exact ⟨e, segmenter.Read_error cd d' s' off e (by rw [hbase]; exact he)⟩
  refine ⟨d', s', hr, hbase, hinv.next, hfail, fun h1 h2 => hfail ?_, fun h1 => hfail ?_,
    fun r hr' => ?_⟩
  · have : subU64 off b = off - b := subU64_eq off b (by omega) hoff
    rw [this]
    omega
  · have : subU64 off b = 2 ^ 64 - 1 := by
      unfold subU64
      omega
    rw [this]
    omega
  · have hlt : subU64 off b % 2 ^ 32 < rs.length := by
      by_contra hcon
      rw [List.getElem?_eq_none (by omega)] at hr'
      cases hr'
    have h1 := segmenter.Read_inv hinv hcd (subU64 off b % 2 ^ 32) r (Nat.zero_le _) hlt hr'
      (hv r (List.getElem?_mem hr')) (by show b + rs.length < 2 ^ 64; omega)
    rw [segmenter.Read_anyConfig] at h1
    have h1' : (s'.Read cd d' (b + subU64 off b % 2 ^ 32)).2.2 =
        .ok { Value := r.Value, Offset := b + subU64 off b % 2 ^ 32 } := h1
    rw [← h1']
    refine congrArg (fun x => x.2.2) (segmenter.Read_congr cd d' s' off _ ?_)
    rw [hbase]
    have e2 : subU64 (b + subU64 off b % 2 ^ 32) b = subU64 off b % 2 ^ 32 := by
      rw [subU64_eq _ _ (by omega) (by omega)]
      omega
    rw [e2, indexer.Read_low s'.indexer (subU64 off b) (subU64_lt _ _)
      (by rw [hsize]; omega) (by rw [hsize]; exact hlt),
      toInt64_small _ (by omega)]

/-- C25 at a concrete input: the segment of the test (base offset 16, capacity 5) with
three records; `Read(19)`, the first offset past the range, fails. -/
theorem C25_segment_read_range_witness :
    plainCodec.Lawful ∧ tget 16 Disk.empty.filers = none ∧ tget 16 Disk.empty.indexes = none ∧
    5 < 2 ^ 32 ∧ 16 + 5 < 2 ^ 64 ∧
    1 ≤ (List.replicate 3 ({ Value := [104, 105], Offset := 0 } : Record)).length ∧
    (List.replicate 3 ({ Value := [104, 105], Offset := 0 } : Record)).length ≤ 5 ∧
    19 < 2 ^ 64 ∧
    ∃ e, (segmenter.Read plainCodec
      (segAppendAll plainCodec
        (newSegmenter Disk.empty 16 { MaxIndexSize := 5, InitialOffset := 0 }).1
        (newSegmenter Disk.empty 16 { MaxIndexSize := 5, InitialOffset := 0 }).2
        (List.replicate 3 { Value := [104, 105], Offset := 0 })).1
      (segAppendAll plainCodec
        (newSegmenter Disk.empty 16 { MaxIndexSize := 5, InitialOffset := 0 }).1
        (newSegmenter Disk.empty 16 { MaxIndexSize := 5, InitialOffset := 0 }).2
        (List.replicate 3 { Value := [104, 105], Offset := 0 })).2.1 19).2.2 = .error e :=
  ⟨plainCodec_lawful, by decide, by decide, by decide, by decide, by decide, by decide,
    by decide, by
    obtain ⟨d', s', hr, _, _, _, h, _⟩ :=
      C25_segment_read_range plainCodec plainCodec_lawful Disk.empty 16
        { MaxIndexSize := 5, InitialOffset := 0 } (by decide) (by decide) (by decide)
        (by decide) (List.replicate 3 { Value := [104, 105], Offset := 0 }) (by decide)
        (by decide) (by decide) 19 (by decide)
    obtain ⟨e, he⟩ := h (by decide) (by decide)
    rw [hr]
    exact ⟨e, congrArg (fun x => x.2.2) he⟩⟩

/-- Counterexample to C25 as stated: the segment of the test (base offset 16) after
three appends has `next_offset = 19`; the offset `16 + 2 ^ 32` is outside its range, yet
`Read(16 + 2 ^ 32)` succeeds and returns the record stored under offset 16, because the
relative offset is reduced to a `uint32`. (On the segment reconstructed from its files,
`Read(15)`, one below the base offset, returns the record stored under offset 18.) -/
theorem C25_counterexample :
    (testSegment 3).2.1.BaseOffset = 16 ∧ (testSegment 3).2.1.NextOffset = 19 ∧
    (segmenter.Read plainCodec (testSegment 3).1 (testSegment 3).2.1 (16 + 2 ^ 32)).2.2 =
      .ok { Value := [104, 105], Offset := 16 } ∧
    (reopenSegment (testSegment 3).1 (testSegment 3).2.1
      { MaxIndexSize := 5, InitialOffset := 0 }).2.BaseOffset = 16 ∧
    (segmenter.Read plainCodec
      (reopenSegment (testSegment 3).1 (testSegment 3).2.1
        { MaxIndexSize := 5, InitialOffset := 0 }).1
      (reopenSegment (testSegment 3).1 (testSegment 3).2.1
        { MaxIndexSize := 5, InitialOffset := 0 }).2 15).2.2 =
      .ok { Value := [104, 105], Offset := 18 } := by
  decide
/-! ## Truncation of the whole log -/

/-- C23 fails on the code: a fresh log (capacity 3, initial offset 0) receives three
appends, which fill the first segment and create an empty active one; `Truncate(2)`
succeeds and removes both segments, the active one included, because its `next_offset`
3 is `≤ lowest + 1`. The list is then empty while `activeSegment` still points to the
removed segment: `LowestOffset()` and `HighestOffset()` index an empty list (a run-time
panic), the next `Append` returns offset 3 without error, and `Read(3)` fails with the
offset-out-of-range error. -/
theorem C23_active_segment_diverges :
    (appendAll plainCodec
      (NewRecorder Disk.empty "log" { MaxIndexSize := 3, InitialOffset := 0 })
      (List.replicate 3 { Value := [1], Offset := 0 })).2 = [.ok 0, .ok 1, .ok 2] ∧
    (recorder.Truncate (freshLog plainCodec { MaxIndexSize := 3, InitialOffset := 0 }
      (List.replicate 3 { Value := [1], Offset := 0 })) 2).2 = .ok () ∧
    (recorder.Truncate (freshLog plainCodec { MaxIndexSize := 3, InitialOffset := 0 }
      (List.replicate 3 { Value := [1], Offset := 0 })) 2).1.r.segments = [] ∧
    (recorder.Truncate (freshLog plainCodec { MaxIndexSize := 3, InitialOffset := 0 }
      (List.replicate 3 { Value := [1], Offset := 0 })) 2).1.r.activeSegment = some 1 ∧
    recorder.LowestOffset (recorder.Truncate (freshLog plainCodec
      { MaxIndexSize := 3, InitialOffset := 0 }
      (List.replicate 3 { Value := [1], Offset := 0 })) 2).1 = .error .Crash ∧
    recorder.HighestOffset (recorder.Truncate (freshLog plainCodec
      { MaxIndexSize := 3, InitialOffset := 0 }
      (List.replicate 3 { Value := [1], Offset := 0 })) 2).1 = .error .Crash ∧
    (recorder.Append plainCodec (recorder.Truncate (freshLog plainCodec
      { MaxIndexSize := 3, InitialOffset := 0 }
      (List.replicate 3 { Value := [1], Offset := 0 })) 2).1
      { Value := [1], Offset := 0 }).2 = .ok 3 ∧
    (recorder.Read plainCodec
      (recorder.Append plainCodec (recorder.Truncate (freshLog plainCodec
        { MaxIndexSize := 3, InitialOffset := 0 }
        (List.replicate 3 { Value := [1], Offset := 0 })) 2).1
        { Value := [1], Offset := 0 }).1 3).2 = .error (.OffsetOutOfRange 3) := by
  decide

/-- C26 fails on the code: a fresh log (capacity 3, initial offset 0) receives four
appends (segments with offsets 0 to 2 and 3); `Truncate(2 ^ 64 - 1)` succeeds and
removes nothing, because `lowest + 1` wraps to 0 and no `next_offset` is `≤ 0`: both
segments stay in the list and on disk, and `Read(0)` still returns its record.
`Truncate(3)`, where `lowest + 1` does not wrap, removes both segments. -/
theorem C26_truncate_top_diverges :
    (freshLog plainCodec { MaxIndexSize := 3, InitialOffset := 0 }
      (List.replicate 4 { Value := [1], Offset := 0 })).r.segments = [0, 1] ∧
    recorder.HighestOffset (freshLog plainCodec { MaxIndexSize := 3, InitialOffset := 0 }
      (List.replicate 4 { Value := [1], Offset := 0 })) = .ok 3 ∧
    (recorder.Truncate (freshLog plainCodec { MaxIndexSize := 3, InitialOffset := 0 }
      (List.replicate 4 { Value := [1], Offset := 0 })) (2 ^ 64 - 1)).2 = .ok () ∧
    (recorder.Truncate (freshLog plainCodec { MaxIndexSize := 3, InitialOffset := 0 }
      (List.replicate 4 { Value := [1], Offset := 0 })) (2 ^ 64 - 1)).1.r.segments = [0, 1] ∧
    (recorder.Truncate (freshLog plainCodec { MaxIndexSize := 3, InitialOffset := 0 }
      (List.replicate 4 { Value := [1], Offset := 0 })) (2 ^ 64 - 1)).1.disk.filers.map Prod.fst
      = [0, 3] ∧
    (recorder.Read plainCodec (recorder.Truncate (freshLog plainCodec
      { MaxIndexSize := 3, InitialOffset := 0 }
      (List.replicate 4 { Value := [1], Offset := 0 })) (2 ^ 64 - 1)).1 0).2 =
      .ok { Value := [1], Offset := 0 } ∧
    (recorder.Truncate (freshLog plainCodec { MaxIndexSize := 3, InitialOffset := 0 }
      (List.replicate 4 { Value := [1], Offset := 0 })) 3).1.r.segments = [] := by
  decide
/-! ## The chain of segments of a log -/

theorem sameOffsets_refl (heap : List segmenter) : SameOffsets heap heap :=
  ⟨rfl, fun _ s h => ⟨s, h, rfl, rfl, rfl⟩⟩

theorem sameOffsets_trans {h1 h2 h3 : List segmenter} (a : SameOffsets h1 h2)
    (c : SameOffsets h2 h3) : SameOffsets h1 h3 :=
  ⟨c.1.trans a.1, fun j s hs => by
    obtain ⟨s2, hs2, e1, e2, e3⟩ := a.2 j s hs
    obtain ⟨s3, hs3, f1, f2, f3⟩ := c.2 j s2 hs2
    exact ⟨s3, hs3, f1.trans e1, f2.trans e2, f3.trans e3⟩⟩

theorem sameOffsets_set {heap : List segmenter} {id : Nat} {s s1 : segmenter}
    (hs : heap[id]? = some s) (hb : s1.baseOffset = s.baseOffset)
    (hn : s1.nextOffset = s.nextOffset) (hi : s1.indexer.name = s.indexer.name) :
    SameOffsets heap (heap.set id s1) := by
  have hlt : id < heap.length := by
    by_contra hc
    rw [List.getElem?_eq_none (by omega)] at hs
    cases hs
  refine ⟨List.length_set _ _ _, fun j sj hj => ?_⟩
  by_cases hji : j = id
  · subst hji
    rw [hs] at hj
    cases hj
    exact ⟨s1, List.getElem?_set_self hlt, hb, hn, hi⟩
  · exact ⟨sj, by rw [List.getElem?_set_ne (Ne.symm hji)]; exact hj, rfl, rfl, rfl⟩

theorem sameOffsets_back {heap heap' : List segmenter} (h : SameOffsets heap heap')
    (j : Nat) (s' : segmenter) (hs' : heap'[j]? = some s') :
    ∃ s, heap[j]? = some s ∧ s'.baseOffset = s.baseOffset ∧
      s'.nextOffset = s.nextOffset ∧ s'.indexer.name = s.indexer.name := by
  have hlt : j < heap.length := by
    by_contra hc
    rw [List.getElem?_eq_none (by rw [h.1]; omega)] at hs'
    cases hs'
  obtain ⟨s2, hs2, e1, e2, e3⟩ := h.2 j heap[j] (List.getElem?_eq_getElem hlt)
  rw [hs'] at hs2
  cases hs2
  exact ⟨heap[j], List.getElem?_eq_getElem hlt, e1, e2, e3⟩

theorem ChainInv.mono {b k : Nat} {st : State} (h : ChainInv b k st) (n : Nat) :
    ∀ (i : Nat) (si sj : segmenter), st.heap[i]? = some si → st.heap[i + n]? = some sj →
      si.baseOffset ≤ sj.baseOffset ∧ si.nextOffset ≤ sj.nextOffset ∧
      (0 < n → si.baseOffset < sj.baseOffset ∧ si.nextOffset ≤ sj.baseOffset) := by
  induction n with
  | zero =>
    intro i si sj hi hj
    rw [Nat.add_zero, hi] at hj
    cases hj
    exact ⟨Nat.le_refl _, Nat.le_refl _, fun h0 => absurd h0 (Nat.lt_irrefl 0)⟩
  | succ n ih =>
    intro i si sj hi hj
    have hlt : i + n < st.heap.length := by
      by_contra hc
      rw [List.getElem?_eq_none (by omega)] at hj
      cases hj
    obtain ⟨m1, m2, _⟩ := ih i si st.heap[i + n] hi (List.getElem?_eq_getElem hlt)
    obtain ⟨l1, l2⟩ := h.link (i + n) st.heap[i + n] sj (List.getElem?_eq_getElem hlt) hj
    have hle := (h.le (i + n + 1) sj hj).1
    refine ⟨by omega, by omega, fun _ => ⟨by omega, by omega⟩⟩

theorem ChainInv.base_le_last {b k : Nat} {st : State} (h : ChainInv b k st) (j : Nat)
    (s sl : segmenter) (hs : st.heap[j]? = some s)
    (hl : st.heap[st.heap.length - 1]? = some sl) : s.baseOffset ≤ sl.baseOffset := by
  have hlt : j < st.heap.length := by
    by_contra hc
    rw [List.getElem?_eq_none (by omega)] at hs
    cases hs
  have e : st.heap.length - 1 = j + (st.heap.length - 1 - j) := by omega
  rw [e] at hl
  exact (h.mono _ j s sl hs hl).1

theorem filter_range'_suffix (p : Nat → Bool) (n : Nat) : ∀ (lo : Nat),
    (∀ i j, lo ≤ i → i ≤ j → j < lo + n → p i = true → p j = true) →
    ∃ lo', lo ≤ lo' ∧ lo' ≤ lo + n ∧
      (List.range' lo n).filter p = List.range' lo' (lo + n - lo') := by
  induction n with
  | zero =>
    intro lo _
    exact ⟨lo, Nat.le_refl _, Nat.le_refl _, by simp⟩
  | succ n ih =>
    intro lo hm
    by_cases hp : p lo = true
    · refine ⟨lo, Nat.le_refl _, by omega, ?_⟩
      have e : lo + (n + 1) - lo = n + 1 := by omega
      rw [e, List.filter_eq_self]
      intro x hx
      rw [List.mem_range'_1] at hx
      exact hm lo x (Nat.le_refl _) hx.1 hx.2 hp
    · obtain ⟨lo', h1, h2, h3⟩ := ih (lo + 1) (fun i j hi hij hj => hm i j (by omega) hij (by omega))
      refine ⟨lo', by omega, by omega, ?_⟩
      rw [List.range'_succ, List.filter_cons_of_neg hp, h3]
      congr 1
      omega

theorem truncateLoop_frame (lowest : Nat) : ∀ (ids : List Nat) (d : Disk)
    (heap : List segmenter) (acc : List Nat),
    SameOffsets heap (recorder.truncateLoop lowest d heap acc ids).2.1 ∧
    ∀ key, (∀ (j : Nat) (s : segmenter), heap[j]? = some s → s.indexer.name ≠ key) →
      tget key (recorder.truncateLoop lowest d heap acc ids).1.indexes = tget key d.indexes := by
  intro ids
  induction ids with
  | nil =>
    intro d heap acc
    exact ⟨sameOffsets_refl heap, fun _ _ => rfl⟩
  | cons id rest ih =>
    intro d heap acc
    cases hs : heap[id]? with
    | none =>
      have e : recorder.truncateLoop lowest d heap acc (id :: rest) = (d, heap, .error .Crash) := by
        simp only [recorder.truncateLoop, hs]
      rw [e]
      exact ⟨sameOffsets_refl heap, fun _ _ => rfl⟩
    | some s =>
      by_cases hle : s.NextOffset ≤ (lowest + 1) % 2 ^ 64
      · have hfr := segmenter.Remove_frame d s
        rcases hrem : s.Remove d with ⟨d1, s1, res⟩
        rw [hrem] at hfr
        obtain ⟨f1, f2, _, f4, _, f6⟩ := hfr
        have hso := sameOffsets_set hs f2 f1 f4
        cases res with
        | error e =>
          simp only [recorder.truncateLoop, hs, hle, if_true, hrem]
          exact ⟨hso, fun key hk => f6 key (Ne.symm (hk id s hs))⟩
        | ok u =>
          simp only [recorder.truncateLoop, hs, hle, if_true, hrem]
          obtain ⟨i1, i2⟩ := ih d1 (heap.set id s1) acc
          refine ⟨sameOffsets_trans hso i1, fun key hk => ?_⟩
          rw [i2 key (fun j s' hs' => by
            obtain ⟨s0, h0, _, _, e3⟩ := sameOffsets_back hso j s' hs'
            rw [e3]
            exact hk j s0 h0)]
          exact f6 key (Ne.symm (hk id s hs))
      · simp only [recorder.truncateLoop, hs, hle, if_false]
        exact ih d heap (acc ++ [id])

theorem ChainInv.transfer {b k : Nat} {st : State} (h : ChainInv b k st) (d' : Disk)
    (heap' : List segmenter) (segs' : List Nat) (hso : SameOffsets st.heap heap')
    (hidx : ∀ key, (∀ (j : Nat) (s : segmenter), st.heap[j]? = some s → s.indexer.name ≠ key) →
      tget key d'.indexes = tget key st.disk.indexes)
    (hsegs : ∃ lo, lo ≤ st.heap.length ∧ segs' = List.range' lo (st.heap.length - lo)) :
    ChainInv b k { disk := d', heap := heap', r := { st.r with segments := segs' } } := by
  have hlen : heap'.length = st.heap.length := hso.1
  refine ⟨by show 0 < heap'.length; rw [hlen]; exact h.len_pos,
    by show st.r.activeSegment = some (heap'.length - 1); rw [hlen]; exact h.active,
    by show ∃ lo, lo ≤ heap'.length ∧ segs' = List.range' lo (heap'.length - lo)
       rw [hlen]; exact hsegs,
    fun j s' hs' => ?_, fun j s' hs' => ?_, fun j s1 s2 h1 h2 => ?_, fun s' key hs' hk => ?_⟩
  · obtain ⟨s, hs, e1, _, e3⟩ := sameOffsets_back hso j s' hs'
    rw [e1, e3]
    exact h.name j s hs
  · obtain ⟨s, hs, e1, e2, _⟩ := sameOffsets_back hso j s' hs'
    rw [e1, e2]
    exact h.le j s hs
  · obtain ⟨t1, ht1, e1, e2, _⟩ := sameOffsets_back hso j s1 h1
    obtain ⟨t2, ht2, g1, _, _⟩ := sameOffsets_back hso (j + 1) s2 h2
    rw [e1, e2, g1]
    exact h.link j t1 t2 ht1 ht2
  · have hs'' : heap'[st.heap.length - 1]? = some s' := by
      rw [← hlen]
      exact hs'
    obtain ⟨s, hs, e1, _, _⟩ := sameOffsets_back hso _ s' hs''
    have hk' : s.baseOffset < key := by
      rw [← e1]
      exact hk
    show tget key d'.indexes = none
    rw [hidx key (fun j sj hj => by
      rw [h.name j sj hj]
      have := h.base_le_last j sj s hj hs
      omega)]
    exact h.files s key hs hk'
theorem ChainInv.truncate_step {b k : Nat} {st : State} (h : ChainInv b k st) (l : Nat) :
    ChainInv b k (recorder.Truncate st l).1 := by
  obtain ⟨hso, hidx⟩ := truncateLoop_frame l st.r.segments st.disk st.heap []
  rcases hres : recorder.truncateLoop l st.disk st.heap [] st.r.segments with ⟨d1, heap1, res⟩
  rw [hres] at hso hidx
  cases res with
  | error e =>
    have e1 : (recorder.Truncate st l).1 =
        { disk := d1, heap := heap1, r := { st.r with segments := st.r.segments } } := by
      simp only [recorder.Truncate, hres]
    rw [e1]
    exact h.transfer d1 heap1 st.r.segments hso hidx h.segs
  | ok segs =>
    have e1 : (recorder.Truncate st l).1 =
        { disk := d1, heap := heap1, r := { st.r with segments := segs } } := by
      simp only [recorder.Truncate, hres]
    rw [e1]
    obtain ⟨hseg, _⟩ := truncateLoop_ok l _ _ _ _ _ _ _ hres
    obtain ⟨lo, hlo, hl⟩ := h.segs
    obtain ⟨lo', h1, h2, h3⟩ := filter_range'_suffix (recorder.survives l st.heap)
      (st.heap.length - lo) lo (fun i j hi hij hj hp => by
        have hjl : j < st.heap.length := by omega
        have hil : i < st.heap.length := by omega
        have e : j = i + (j - i) := by omega
        have hm := (h.mono (j - i) i st.heap[i] st.heap[j] (List.getElem?_eq_getElem hil)
          (by rw [← e]; exact List.getElem?_eq_getElem hjl)).2.1
        simp only [recorder.survives, List.getElem?_eq_getElem hil, segmenter.NextOffset,
          Bool.not_eq_true', decide_eq_false_iff_not] at hp
        simp only [recorder.survives, List.getElem?_eq_getElem hjl, segmenter.NextOffset,
          Bool.not_eq_true', decide_eq_false_iff_not]
        omega)
    refine h.transfer d1 heap1 segs hso hidx ⟨lo', by omega, ?_⟩
    rw [hseg, hl, h3, List.nil_append]
    congr 1
    omega

theorem newSegmenter_shape (st : State) (off a : Nat) (ha : st.r.activeSegment = some a)
    (hlt : a < st.heap.length) :
    ∃ d' heap', recorder.newSegmenter st off =
        { disk := d', heap := heap',
          r := { st.r with segments := st.r.segments ++ [st.heap.length],
                           activeSegment := some st.heap.length } } ∧
      heap'.length = st.heap.length + 1 ∧
      heap'[st.heap.length]? = some (newSegmenter st.disk off st.r.Config).2 ∧
      (∀ (j : Nat) (s : segmenter), st.heap[j]? = some s →
        ∃ s', heap'[j]? = some s' ∧ s'.baseOffset = s.baseOffset ∧
          s'.nextOffset = s.nextOffset ∧ s'.indexer.name = s.indexer.name) ∧
      (∀ key, (∀ (j : Nat) (s : segmenter), st.heap[j]? = some s → s.indexer.name ≠ key) →
        tget key d'.indexes = tget key (newSegmenter st.disk off st.r.Config).1.indexes) := by
  rcases hns : newSegmenter st.disk off st.r.Config with ⟨d1, snew⟩
  have hsa : st.heap[a]? = some st.heap[a] := List.getElem?_eq_getElem hlt
  have hs1 : (st.heap ++ [snew])[a]? = some st.heap[a] := by
    rw [List.getElem?_append_left hlt]
    exact hsa
  have hold : ∀ (j : Nat) (s : segmenter), st.heap[j]? = some s →
      (st.heap ++ [snew])[j]? = some s := by
    intro j s hj
    have hjl : j < st.heap.length := by
      by_contra hc
      rw [List.getElem?_eq_none (by omega)] at hj
      cases hj
    rw [List.getElem?_append_left hjl]
    exact hj
  by_cases hb0 : (st.heap[a]).BaseOffset ≠ st.r.Config.InitialOffset
  · have hfr := segmenter.Close_segframe d1 st.heap[a]
    rcases hcl : (st.heap[a]).Close d1 with ⟨d2, sa', res⟩
    rw [hcl] at hfr
    obtain ⟨f1, f2, _, f4, _, f6⟩ := hfr
    have hres : recorder.newSegmenter st off =
        { disk := d2, heap := (st.heap ++ [snew]).set a sa',
          r := { st.r with segments := st.r.segments ++ [st.heap.length],
                           activeSegment := some st.heap.length } } := by
      simp only [recorder.newSegmenter, hns, ha, hs1, hb0, hcl, ne_eq, not_false_eq_true,
        if_true]
    have hso := sameOffsets_set hs1 f2 f1 f4
    refine ⟨d2, _, hres, by simp, ?_, fun j s hj => hso.2 j s (hold j s hj), fun key hk => ?_⟩
    · rw [List.getElem?_set_ne (by omega)]
      simp
    · exact f6 key (Ne.symm (hk a _ hsa))
  · have hres : recorder.newSegmenter st off =
        { disk := d1, heap := st.heap ++ [snew],
          r := { st.r with segments := st.r.segments ++ [st.heap.length],
                           activeSegment := some st.heap.length } } := by
      simp only [recorder.newSegmenter, hns, ha, hs1, hb0, if_false]
    refine ⟨d1, _, hres, by simp, by simp, fun j s hj => ⟨s, hold j s hj, rfl, rfl, rfl⟩,
      fun _ _ => rfl⟩

theorem ChainInv.roll {b k : Nat} {st : State} (h : ChainInv b k st) (s : segmenter)
    (hs : st.heap[st.heap.length - 1]? = some s) (hne : s.baseOffset < s.nextOffset) :
    ChainInv b k (recorder.newSegmenter st s.nextOffset) := by
  have hpos := h.len_pos
  obtain ⟨d', heap', hres, hlen, hnew, hold, hidx⟩ :=
    newSegmenter_shape st s.nextOffset (st.heap.length - 1) h.active (by omega)
  obtain ⟨n1, n2, n3, _, n5⟩ := newSegmenter_offsets st.disk s.nextOffset st.r.Config
    (h.files s s.nextOffset hs hne)
  have hback : ∀ (j : Nat) (s' : segmenter), heap'[j]? = some s' →
      (j < st.heap.length ∧ ∃ s0, st.heap[j]? = some s0 ∧ s'.baseOffset = s0.baseOffset ∧
        s'.nextOffset = s0.nextOffset ∧ s'.indexer.name = s0.indexer.name) ∨
      (j = st.heap.length ∧ s' = (newSegmenter st.disk s.nextOffset st.r.Config).2) := by
    intro j s' hj
    have hjl : j < heap'.length := by
      by_contra hc
      rw [List.getElem?_eq_none (by omega)] at hj
      cases hj
    by_cases hjo : j < st.heap.length
    · obtain ⟨s2, hs2, e1, e2, e3⟩ := hold j st.heap[j] (List.getElem?_eq_getElem hjo)
      rw [hj] at hs2
      cases hs2
      exact Or.inl ⟨hjo, _, List.getElem?_eq_getElem hjo, e1, e2, e3⟩
    · have : j = st.heap.length := by omega
      subst this
      rw [hnew] at hj
      cases hj
      exact Or.inr ⟨rfl, rfl⟩
  rw [hres]
  obtain ⟨lo, hlo, hl⟩ := h.segs
  refine ⟨by show 0 < heap'.length; omega,
    by show some st.heap.length = some (heap'.length - 1); rw [hlen]; rfl,
    ⟨lo, by show lo ≤ heap'.length; omega, ?_⟩,
    fun j s' hj => ?_, fun j s' hj => ?_, fun j s1 s2 h1 h2 => ?_, fun s' key hs' hk => ?_⟩
  · show st.r.segments ++ [st.heap.length] = List.range' lo (heap'.length - lo)
    have e : heap'.length - lo = (st.heap.length - lo) + 1 := by omega
    rw [e, List.range'_concat, hl]
    simp only [Nat.one_mul]
    congr 2
    omega
  · rcases hback j s' hj with ⟨_, s0, h0, e1, _, e3⟩ | ⟨_, e⟩
    · rw [e1, e3]
      exact h.name j s0 h0
    · rw [e, n1, n3]
  · rcases hback j s' hj with ⟨_, s0, h0, e1, e2, _⟩ | ⟨_, e⟩
    · rw [e1, e2]
      exact h.le j s0 h0
    · rw [e, n1, n2]
      exact ⟨Nat.le_refl _, (h.le _ s hs).2⟩
  · rcases hback (j + 1) s2 h2 with ⟨hj2, t2, ht2, g1, _, _⟩ | ⟨hj2, e⟩
    · rcases hback j s1 h1 with ⟨_, t1, ht1, e1, e2, _⟩ | ⟨hj1, _⟩
      · rw [e1, e2, g1]
        exact h.link j t1 t2 ht1 ht2
      · omega
    · rcases hback j s1 h1 with ⟨_, t1, ht1, e1, e2, _⟩ | ⟨hj1, _⟩
      · have hj' : j = st.heap.length - 1 := by omega
        rw [hj', hs] at ht1
        cases ht1
        rw [e1, e2, e, n1]
        exact ⟨hne, rfl⟩
      · omega
  · have hs'' : heap'[st.heap.length]? = some s' := by
      have e : heap'.length - 1 = st.heap.length := by omega
      rw [← e]
      exact hs'
    rw [hnew] at hs''
    cases hs''
    rw [n1] at hk
    show tget key d'.indexes = none
    rw [hidx key (fun j sj hj => by
      rw [h.name j sj hj]
      have := h.base_le_last j sj s hj hs
      omega), n5 key (by omega)]
    exact h.files s key hs (by omega)
theorem ChainInv.bump {b k : Nat} {st : State} (h : ChainInv b k st) (s s1 : segmenter)
    (d1 : Disk) (hs : st.heap[st.heap.length - 1]? = some s)
    (hb : s1.baseOffset = s.baseOffset) (hi : s1.indexer.name = s.indexer.name)
    (h1 : s.nextOffset ≤ s1.nextOffset) (h2 : s1.nextOffset ≤ b + (k + 1))
    (hd : d1.indexes = st.disk.indexes) :
    ChainInv b (k + 1)
      { st with disk := d1, heap := st.heap.set (st.heap.length - 1) s1 } := by
  have hpos := h.len_pos
  have hlen : (st.heap.set (st.heap.length - 1) s1).length = st.heap.length :=
    List.length_set _ _ _
  have hlast : (st.heap.set (st.heap.length - 1) s1)[st.heap.length - 1]? = some s1 :=
    List.getElem?_set_self (by omega)
  have hother : ∀ j, j ≠ st.heap.length - 1 →
      (st.heap.set (st.heap.length - 1) s1)[j]? = st.heap[j]? :=
    fun j hj => List.getElem?_set_ne (Ne.symm hj)
  have hsle := h.le _ s hs
  refine ⟨by show 0 < (st.heap.set (st.heap.length - 1) s1).length; omega,
    by show st.r.activeSegment = some ((st.heap.set (st.heap.length - 1) s1).length - 1)
       rw [hlen]; exact h.active,
    by show ∃ lo, lo ≤ (st.heap.set (st.heap.length - 1) s1).length ∧
         st.r.segments = List.range' lo ((st.heap.set (st.heap.length - 1) s1).length - lo)
       rw [hlen]; exact h.segs,
    fun j s' hj => ?_, fun j s' hj => ?_, fun j t1 t2 g1 g2 => ?_, fun s' key hs' hk => ?_⟩
  · have hj' : (st.heap.set (st.heap.length - 1) s1)[j]? = some s' := hj
    by_cases hja : j = st.heap.length - 1
    · rw [hja, hlast] at hj'
      cases hj'
      rw [hi, hb]
      exact h.name _ s hs
    · rw [hother j hja] at hj'
      exact h.name j s' hj'
  · have hj' : (st.heap.set (st.heap.length - 1) s1)[j]? = some s' := hj
    by_cases hja : j = st.heap.length - 1
    · rw [hja, hlast] at hj'
      cases hj'
      exact ⟨by omega, h2⟩
    · rw [hother j hja] at hj'
      have := h.le j s' hj'
      exact ⟨this.1, by omega⟩
  · have g1' : (st.heap.set (st.heap.length - 1) s1)[j]? = some t1 := g1
    have g2' : (st.heap.set (st.heap.length - 1) s1)[j + 1]? = some t2 := g2
    have hj2 : j + 1 < st.heap.length := by
      by_contra hc
      rw [List.getElem?_eq_none (by omega)] at g2'
      cases g2'
    rw [hother j (by omega)] at g1'
    by_cases hja : j + 1 = st.heap.length - 1
    · rw [hja, hlast] at g2'
      cases g2'
      have hl := h.link j t1 s g1' (by rw [hja]; exact hs)
      exact ⟨hl.1, by rw [hb]; exact hl.2⟩
    · rw [hother (j + 1) hja] at g2'
      exact h.link j t1 t2 g1' g2'
  · have hs'' : (st.heap.set (st.heap.length - 1) s1)[st.heap.length - 1]? = some s' := by
      have h0 : (st.heap.set (st.heap.length - 1) s1)[(st.heap.set (st.heap.length - 1)
          s1).length - 1]? = some s' := hs'
      rw [hlen] at h0
      exact h0
    rw [hlast] at hs''
    cases hs''
    show tget key d1.indexes = none
    rw [hd]
    exact h.files s key hs (by omega)

theorem ChainInv.append_step {b k : Nat} {st : State} (h : ChainInv b k st) (cd : Codec)
    (r : Record) (hb : b + k + 1 < 2 ^ 64) :
    ChainInv b (k + 1) (recorder.Append cd st r).1 := by
  have hpos := h.len_pos
  have hs : st.heap[st.heap.length - 1]? = some st.heap[st.heap.length - 1] :=
    List.getElem?_eq_getElem (by omega)
  obtain ⟨o1, o2, o3, o4⟩ := segmenter.Append_offsets cd st.disk st.heap[st.heap.length - 1] r
  rcases happ : (st.heap[st.heap.length - 1]).Append cd st.disk r with ⟨d1, s1, res⟩
  rw [happ] at o1 o2 o3 o4
  dsimp only at o1 o2 o3 o4
  have hle := h.le _ _ hs
  cases res with
  | error e =>
    rcases o4 with ⟨hok, _, _⟩ | ⟨_, hn, _⟩
    · cases hok
    · have e1 : (recorder.Append cd st r).1 =
          { st with disk := d1, heap := st.heap.set (st.heap.length - 1) s1 } := by
        simp only [recorder.Append, h.active, hs, happ]
      rw [e1]
      exact h.bump _ s1 d1 hs o2 o3 (by rw [hn]) (by rw [hn]; omega) o1
  | ok off =>
    rcases o4 with ⟨hok, hn, _⟩ | ⟨⟨e, he⟩, _, _⟩
    · have hoff : off = (st.heap[st.heap.length - 1]).nextOffset := Except.ok.inj hok
      have hn' : s1.nextOffset = (st.heap[st.heap.length - 1]).nextOffset + 1 := by
        rw [hn]
        omega
      have hst1 := h.bump _ s1 d1 hs o2 o3 (by omega) (by omega) o1
      by_cases hmax : s1.IsMaxed = true
      · have e1 : (recorder.Append cd st r).1 =
            recorder.newSegmenter
              { st with disk := d1, heap := st.heap.set (st.heap.length - 1) s1 }
              ((off + 1) % 2 ^ 64) := by
          simp only [recorder.Append, h.active, hs, happ, hmax, if_true]
        rw [e1, hoff, ← hn]
        refine hst1.roll s1 ?_ (by omega)
        show (st.heap.set (st.heap.length - 1) s1)[(st.heap.set (st.heap.length - 1) s1).length
          - 1]? = some s1
        rw [List.length_set]
        exact List.getElem?_set_self (by omega)
      · have e1 : (recorder.Append cd st r).1 =
            { st with disk := d1, heap := st.heap.set (st.heap.length - 1) s1 } := by
          simp only [recorder.Append, h.active, hs, happ, hmax]
          rfl
        rw [e1]
        exact hst1
    · cases he

theorem setup_chain (dir : String) (c1 : Config) :
    ChainInv c1.InitialOffset 0
      (recorder.setup
        { disk := Disk.empty, heap := [],
          r := { Dir := dir, Config := c1, activeSegment := none, segments := [] } }) := by
  obtain ⟨n1, n2, n3, _, n5⟩ :=
    newSegmenter_offsets { filers := [], indexes := [] } c1.InitialOffset c1 rfl
  rcases hns : newSegmenter { filers := [], indexes := [] } c1.InitialOffset c1 with ⟨d2, snew⟩
  rw [hns] at n1 n2 n3 n5
  have hres : recorder.setup
      { disk := Disk.empty, heap := [],
        r := { Dir := dir, Config := c1, activeSegment := none, segments := [] } } =
      { disk := d2, heap := [snew],
        r := { Dir := dir, Config := c1, activeSegment := some 0, segments := [0] } } := by
    simp only [recorder.setup, Disk.empty, List.map_nil, List.append_nil,
      List.insertionSort, recorder.setupLoop, recorder.newSegmenter, hns]
    rfl
  rw [hres]
  refine ⟨by simp, rfl, ⟨0, by simp, rfl⟩, fun j s hj => ?_, fun j s hj => ?_,
    fun j s s' _ hj => ?_, fun s key hs hk => ?_⟩
  · cases j with
    | zero =>
      simp only [List.getElem?_cons_zero, Option.some.injEq] at hj
      subst hj
      rw [n3, n1]
    | succ j => simp at hj
  · cases j with
    | zero =>
      simp only [List.getElem?_cons_zero, Option.some.injEq] at hj
      subst hj
      rw [n1, n2]
      exact ⟨Nat.le_refl _, Nat.le_refl _⟩
    | succ j => simp at hj
  · simp at hj
  · simp only [List.length_singleton, Nat.sub_self, List.getElem?_cons_zero,
      Option.some.injEq] at hs
    subst hs
    rw [n1] at hk
    show tget key d2.indexes = none
    rw [n5 key (by omega)]
    rfl

theorem NewRecorder_chain (dir : String) (cfg : Config) :
    ChainInv cfg.InitialOffset 0 (NewRecorder Disk.empty dir cfg) := by
  unfold NewRecorder
  simp only
  by_cases h0 : cfg.MaxIndexSize = 0
  · rw [if_pos h0]
    exact setup_chain dir { cfg with MaxIndexSize := 100 }
  · rw [if_neg h0]
    exact setup_chain dir cfg

theorem runOps_chain (cd : Codec) (b : Nat) (ops : List Op) : ∀ (k : Nat) (st : State),
    ChainInv b k st → b + k + countAppends ops < 2 ^ 64 →
    ChainInv b (k + countAppends ops) (runOps cd st ops) := by
  induction ops with
  | nil =>
    intro k st h _
    exact h
  | cons op ops ih =>
    intro k st h hb
    cases op with
    | append r =>
      have hc : countAppends (Op.append r :: ops) = countAppends ops + 1 := rfl
      rw [hc] at hb ⊢
      have h1 := h.append_step cd r (by omega)
      have h2 := ih (k + 1) _ h1 (by omega)
      have e : k + (countAppends ops + 1) = k + 1 + countAppends ops := by omega
      rw [e]
      exact h2
    | truncate l =>
      have hc : countAppends (Op.truncate l :: ops) = countAppends ops := rfl
      rw [hc] at hb ⊢
      exact ih k _ (h.truncate_step l) hb
theorem getElem?_range'_some {lo n i id : Nat} (h : (List.range' lo n)[i]? = some id) :
    i < n ∧ id = lo + i := by
  have hi : i < n := by
    by_contra hc
    rw [List.getElem?_eq_none (by rw [List.length_range']; omega)] at h
    cases h
  rw [List.getElem?_range' lo 1 hi, Nat.one_mul] at h
  exact ⟨hi, (Option.some.inj h).symm⟩

theorem ChainInv.list_order {b k : Nat} {st : State} (h : ChainInv b k st) :
    (∀ (i id : Nat), st.r.segments[i]? = some id →
      ∃ s, st.heap[id]? = some s ∧ s.BaseOffset ≤ s.NextOffset) ∧
    (∀ (i j id id' : Nat) (s s' : segmenter), i < j → st.r.segments[i]? = some id →
      st.r.segments[j]? = some id' → st.heap[id]? = some s → st.heap[id']? = some s' →
      s.BaseOffset < s'.BaseOffset ∧ s.NextOffset ≤ s'.BaseOffset) ∧
    (∀ (i id id' : Nat) (s s' : segmenter), st.r.segments[i]? = some id →
      st.r.segments[i + 1]? = some id' → st.heap[id]? = some s → st.heap[id']? = some s' →
      s'.BaseOffset = s.NextOffset) := by
  obtain ⟨lo, hlo, hl⟩ := h.segs
  refine ⟨fun i id hi => ?_, fun i j id id' s s' hij hi hj hs hs' => ?_,
    fun i id id' s s' hi hj hs hs' => ?_⟩
  · rw [hl] at hi
    obtain ⟨h1, h2⟩ := getElem?_range'_some hi
    have hlt : id < st.heap.length := by omega
    exact ⟨st.heap[id], List.getElem?_eq_getElem hlt,
      (h.le id _ (List.getElem?_eq_getElem hlt)).1⟩
  · rw [hl] at hi hj
    obtain ⟨_, h2⟩ := getElem?_range'_some hi
    obtain ⟨_, h4⟩ := getElem?_range'_some hj
    have e : id' = id + (j - i) := by omega
    rw [e] at hs'
    exact (h.mono (j - i) id s s' hs hs').2.2 (by omega)
  · rw [hl] at hi hj
    obtain ⟨_, h2⟩ := getElem?_range'_some hi
    obtain ⟨_, h4⟩ := getElem?_range'_some hj
    have e : id' = id + 1 := by omega
    rw [e] at hs'
    exact (h.link id s s' hs hs').2

/-- C22 (amended): in every log state reached from a log freshly created on an empty
directory by `Append` and `Truncate` calls without offset overflow (initial offset plus
the number of `Append` calls below `2 ^ 64`), every entry of the segment list is a
segment with `base_offset ≤ next_offset`, the segments of the list are strictly ordered
by ascending `base_offset`, consecutive segments are contiguous
(`base_offset(S_{i+1}) == next_offset(S_i)`), and every offset belongs to at most one
segment of the list. -/
theorem C22_segment_order (cd : Codec) (dir : String) (cfg : Config) (ops : List Op)
    (hb : cfg.InitialOffset + countAppends ops < 2 ^ 64) :
    (∀ (i id : Nat), (runOps cd (NewRecorder Disk.empty dir cfg) ops).r.segments[i]? = some id →
      ∃ s, (runOps cd (NewRecorder Disk.empty dir cfg) ops).heap[id]? = some s ∧
        s.BaseOffset ≤ s.NextOffset) ∧
    (∀ (i j id id' : Nat) (s s' : segmenter), i < j →
      (runOps cd (NewRecorder Disk.empty dir cfg) ops).r.segments[i]? = some id →
      (runOps cd (NewRecorder Disk.empty dir cfg) ops).r.segments[j]? = some id' →
      (runOps cd (NewRecorder Disk.empty dir cfg) ops).heap[id]? = some s →
      (runOps cd (NewRecorder Disk.empty dir cfg) ops).heap[id']? = some s' →
      s.BaseOffset < s'.BaseOffset ∧ s.NextOffset ≤ s'.BaseOffset) ∧
    (∀ (i id id' : Nat) (s s' : segmenter),
      (runOps cd (NewRecorder Disk.empty dir cfg) ops).r.segments[i]? = some id →
      (runOps cd (NewRecorder Disk.empty dir cfg) ops).r.segments[i + 1]? = some id' →
      (runOps cd (NewRecorder Disk.empty dir cfg) ops).heap[id]? = some s →
      (runOps cd (NewRecorder Disk.empty dir cfg) ops).heap[id']? = some s' →
      s'.BaseOffset = s.NextOffset) ∧
    (∀ (i j id id' : Nat) (s s' : segmenter) (off : Nat),
      (runOps cd (NewRecorder Disk.empty dir cfg) ops).r.segments[i]? = some id →
      (runOps cd (NewRecorder Disk.empty dir cfg) ops).r.segments[j]? = some id' →
      (runOps cd (NewRecorder Disk.empty dir cfg) ops).heap[id]? = some s →
      (runOps cd (NewRecorder Disk.empty dir cfg) ops).heap[id']? = some s' →
      s.BaseOffset ≤ off → off < s.NextOffset → s'.BaseOffset ≤ off → off < s'.NextOffset →
      i = j) := by
  have h := runOps_chain cd cfg.InitialOffset ops 0 _ (NewRecorder_chain dir cfg)
    (by omega)
  obtain ⟨h1, h2, h3⟩ := h.list_order
  refine ⟨h1, h2, h3, fun i j id id' s s' off hi hj hs hs' a1 a2 a3 a4 => ?_⟩
  rcases Nat.lt_trichotomy i j with hlt | heq | hgt
  · have := (h2 i j id id' s s' hlt hi hj hs hs').2
    omega
  · exact heq
  · have := (h2 j i id' id s' s hgt hj hi hs' hs).2
    omega

/-- C22 at a concrete input: capacity 3, initial offset 0; four appends, `Truncate(2)`,
two more appends. The list holds the segments with base offsets 3 and 6, and the second
starts where the first ends. -/
theorem C22_segment_order_witness :
    0 + countAppends [Op.append { Value := [1], Offset := 0 },
      Op.append { Value := [1], Offset := 0 }, Op.append { Value := [1], Offset := 0 },
      Op.append { Value := [1], Offset := 0 }, Op.truncate 2,
      Op.append { Value := [1], Offset := 0 }, Op.append { Value := [1], Offset := 0 }]
      < 2 ^ 64 ∧
    (runOps plainCodec (NewRecorder Disk.empty "log" { MaxIndexSize := 3, InitialOffset := 0 })
      [Op.append { Value := [1], Offset := 0 },
      Op.append { Value := [1], Offset := 0 }, Op.append { Value := [1], Offset := 0 },
      Op.append { Value := [1], Offset := 0 }, Op.truncate 2,
      Op.append { Value := [1], Offset := 0 },
      Op.append { Value := [1], Offset := 0 }]).r.segments = [1, 2] ∧
    ∀ (i id id' : Nat) (s s' : segmenter),
      (runOps plainCodec
        (NewRecorder Disk.empty "log" { MaxIndexSize := 3, InitialOffset := 0 })
        [Op.append { Value := [1], Offset := 0 },
        Op.append { Value := [1], Offset := 0 }, Op.append { Value := [1], Offset := 0 },
        Op.append { Value := [1], Offset := 0 }, Op.truncate 2,
        Op.append { Value := [1], Offset := 0 },
        Op.append { Value := [1], Offset := 0 }]).r.segments[i]? = some id →
      (runOps plainCodec
        (NewRecorder Disk.empty "log" { MaxIndexSize := 3, InitialOffset := 0 })
        [Op.append { Value := [1], Offset := 0 },
        Op.append { Value := [1], Offset := 0 }, Op.append { Value := [1], Offset := 0 },
        Op.append { Value := [1], Offset := 0 }, Op.truncate 2,
        Op.append { Value := [1], Offset := 0 },
        Op.append { Value := [1], Offset := 0 }]).r.segments[i + 1]? = some id' →
      (runOps plainCodec
        (NewRecorder Disk.empty "log" { MaxIndexSize := 3, InitialOffset := 0 })
        [Op.append { Value := [1], Offset := 0 },
        Op.append { Value := [1], Offset := 0 }, Op.append { Value := [1], Offset := 0 },
        Op.append { Value := [1], Offset := 0 }, Op.truncate 2,
        Op.append { Value := [1], Offset := 0 },
        Op.append { Value := [1], Offset := 0 }]).heap[id]? = some s →
      (runOps plainCodec
        (NewRecorder Disk.empty "log" { MaxIndexSize := 3, InitialOffset := 0 })
        [Op.append { Value := [1], Offset := 0 },
        Op.append { Value := [1], Offset := 0 }, Op.append { Value := [1], Offset := 0 },
        Op.append { Value := [1], Offset := 0 }, Op.truncate 2,
        Op.append { Value := [1], Offset := 0 },
        Op.append { Value := [1], Offset := 0 }]).heap[id']? = some s' →
      s'.BaseOffset = s.NextOffset :=
  ⟨by decide, by decide,
    (C22_segment_order plainCodec "log" { MaxIndexSize := 3, InitialOffset := 0 }
      [Op.append { Value := [1], Offset := 0 },
      Op.append { Value := [1], Offset := 0 }, Op.append { Value := [1], Offset := 0 },
      Op.append { Value := [1], Offset := 0 }, Op.truncate 2,
      Op.append { Value := [1], Offset := 0 }, Op.append { Value := [1], Offset := 0 }]
      (by decide)).2.2.1⟩

/-- Counterexample to C22 as stated: initial offset `2 ^ 64 - 1`, capacity 1, one append.
The append fills the first segment and a second one is created at the wrapped offset 0:
the list holds base offsets `2 ^ 64 - 1` and `0`, which is not ascending. -/
theorem C22_counterexample :
    (appendAll plainCodec
      (NewRecorder Disk.empty "log" { MaxIndexSize := 1, InitialOffset := 2 ^ 64 - 1 })
      [{ Value := [1], Offset := 0 }]).2 = [.ok (2 ^ 64 - 1)] ∧
    (freshLog plainCodec { MaxIndexSize := 1, InitialOffset := 2 ^ 64 - 1 }
      [{ Value := [1], Offset := 0 }]).r.segments = [0, 1] ∧
    (freshLog plainCodec { MaxIndexSize := 1, InitialOffset := 2 ^ 64 - 1 }
      [{ Value := [1], Offset := 0 }]).heap.map segmenter.BaseOffset = [2 ^ 64 - 1, 0] := by
  decide

end Recorder
